import Mathlib

/-!
The symmetric sparse matrix of `sparseMatrix.c`.

A shallow embedding of the sparse-matrix builder of `src/sparseMatrix.c`.

* The file-scope variables of the C module are the fields of `State`.
* `double` is modelled by `ℚ` (exact arithmetic), `int_ptrsize` by `Nat`.
* Records allocated by `malloc` live in `State.heap`; a pointer to a record is
  its index in the heap.  `malloc` appends a record, `free` marks it freed and
  a freed record is never handed out again.
* Every operation returns `Except Fault _`: an execution that leaves defined
  behaviour (a NULL dereference, an access to a freed record, an index outside
  an allocation, a read of a field that was never written) ends in a `Fault`.
* `skiplist.ch` is not part of the sources at hand; the skip list operations
  are modelled from the specification as operations on a sorted list.
-/

namespace SparseMatrix

/-- Ways in which an execution of the C code leaves defined behaviour. -/
inductive Fault where
  | nullDeref
  | useAfterFree
  | outOfBounds
  | indeterminate
  deriving DecidableEq

/-- The record `entryComponent`: `value` holds `matrixEntrySize` doubles,
`entryNum` is `none` until it is assigned (malloc leaves it unset), and
`freed` tells whether the record was released. -/
structure entryComponent where
  value : List ℚ
  entryNum : Option Nat
  refCount : Int
  freed : Bool
  deriving DecidableEq

/-- The record `entryKey`: a column number and a pointer to the info record. -/
structure entryKey where
  column : Nat
  info : Nat
  deriving DecidableEq

/-- The file-scope variables of `sparseMatrix.c`.  An output array is held as
the list of its cells written so far (its capacity is checked on each write);
`neg_capacity` is the allocation size of the three arrays of negative
coefficients. -/
structure State where
  /-- `sparseMatrix[i]` is the ordered list of the keys of row `i`. -/
  sparseMatrix : List (List entryKey)
  neq : Nat
  ncon : Nat
  ncon_row : List Nat
  voronoiVolume : List ℚ
  matrixEntrySize : Nat
  occupiedColumns : List Nat
  compressionEnabled : Bool
  epsilon : ℚ
  compressList : List Nat
  heap : List entryComponent
  entryNumber : Nat
  entryNumbers : List Nat
  diagonalIndices : List (Option Nat)
  MatrixValues : List ℚ
  columnCounter : Nat
  entryCounter : Nat
  maximum : List ℚ
  num_written_coefs : Nat
  component_of_interest : Nat
  num_neg_coefs : Nat
  num_suspect_coefs : Nat
  num_zero_coefs : Nat
  row_neg_coefs : List Nat
  col_neg_coefs : List Nat
  neg_coefs : List ℚ
  neg_capacity : Nat
  deriving DecidableEq

/-- The variables before any call: C zero-initialises objects of static
storage duration. -/
def initialState : State where
  sparseMatrix := []
  neq := 0
  ncon := 0
  ncon_row := []
  voronoiVolume := []
  matrixEntrySize := 0
  occupiedColumns := []
  compressionEnabled := false
  epsilon := 0
  compressList := []
  heap := []
  entryNumber := 0
  entryNumbers := []
  diagonalIndices := []
  MatrixValues := []
  columnCounter := 0
  entryCounter := 0
  maximum := [0, 0, 0, 0]
  num_written_coefs := 0
  component_of_interest := 0
  num_neg_coefs := 0
  num_suspect_coefs := 0
  num_zero_coefs := 0
  row_neg_coefs := []
  col_neg_coefs := []
  neg_coefs := []
  neg_capacity := 0

/-- Read of the array cell `a[i]`. -/
def idx {α : Type} (a : List α) (i : Nat) : Except Fault α :=
  match a[i]? with
  | some x => .ok x
  | none => .error .outOfBounds

/-- Write of the array cell `a[i] = x`. -/
def store {α : Type} (a : List α) (i : Nat) (x : α) : Except Fault (List α) :=
  if i < a.length then .ok (a.set i x) else .error .outOfBounds

/-- Access through a pointer to an `entryComponent`. -/
def deref (heap : List entryComponent) (p : Nat) : Except Fault entryComponent :=
  match heap[p]? with
  | none => .error .outOfBounds
  | some ec => if ec.freed then .error .useAfterFree else .ok ec

/-- The row `sparseMatrix[i]`; the cells are `1..neq`, cell `0` of the
allocation is never initialised. -/
def getRow (m : State) (i : Nat) : Except Fault (List entryKey) :=
  if i = 0 then .error .indeterminate else idx m.sparseMatrix i

/-! ## The skip list, as an ordered list -/

/-- Modelled from the spec: `SearchSL` of the missing `skiplist.ch` (spec 4.1,
"search (returns handle or miss)"), as the walk along the bottom level of the
list: skip the nodes that compare below the key, then test the node reached.
The result is the position of the node found. -/
def SearchSL {κ : Type} (compare : κ → κ → Int) : List κ → κ → Option Nat
  | [], _ => none
  | x :: l, key =>
    if compare x key < 0 then (SearchSL compare l key).map (· + 1)
    else if compare x key = 0 then some 0
    else none

/-- Modelled from the spec: `InsertSL` of the missing `skiplist.ch` with
`NO_DUPLICATES` (spec 4.1, "insert (fails if duplicate)"): the key goes in
front of the first node that does not compare below it, unless that node
compares equal. -/
def InsertSL {κ : Type} (compare : κ → κ → Int) : List κ → κ → List κ
  | [], key => [key]
  | x :: l, key =>
    if compare x key < 0 then x :: InsertSL compare l key
    else if compare x key = 0 then x :: l
    else key :: x :: l

/-- Modelled from the spec: `DoForSL` of the missing `skiplist.ch` (spec 4.1,
"traverse in ascending column order invoking a visitor with the entry and the
row id"); the visitor acts on the file-scope variables. -/
def DoForSL {κ : Type} (f : κ → Nat → State → Except Fault State) :
    List κ → Nat → State → Except Fault State
  | [], _, m => .ok m
  | x :: l, arg, m =>
    match f x arg m with
    | .ok m1 => DoForSL f l arg m1
    | .error e => .error e

/-! ## Internal routines -/

/-- The loop of `zeroVector`, from index `k` with `n` rounds left. -/
def zeroVectorLoop (maximum : List ℚ) (epsilon : ℚ) (value : List ℚ) :
    Nat → Nat → Except Fault Bool
  | 0, _ => .ok true
  | n + 1, k =>
    match idx value k, idx maximum k with
    | .ok v, .ok mx =>
      if |v| > mx * epsilon then .ok false
      else zeroVectorLoop maximum epsilon value n (k + 1)
    | _, _ => .error .outOfBounds

def zeroVector (m : State) (value : List ℚ) : Except Fault Bool :=
  zeroVectorLoop m.maximum m.epsilon value m.matrixEntrySize 0

def entryKeyCompare (i j : entryKey) : Int :=
  if i.column = j.column then 0
  else if i.column < j.column then -1 else 1

/-- The function `entryComponentCreate`: the first `matrixEntrySize` cells of
`v` are copied into a new record; `entryNum` is left unset. -/
def entryComponentCreate (m : State) (v : List ℚ) (count : Int) :
    Except Fault (State × Nat) :=
  if v.length < m.matrixEntrySize then .error .outOfBounds
  else .ok ({ m with heap := m.heap ++
      [{ value := v.take m.matrixEntrySize, entryNum := none,
         refCount := count, freed := false }] }, m.heap.length)

/-- The loop of `entryComponentCompare` on the two value arrays. -/
def entryComponentCompareLoop (maximum : List ℚ) (epsilon : ℚ) (iv jv : List ℚ) :
    Nat → Nat → Except Fault Int
  | 0, _ => .ok 0
  | n + 1, k =>
    match idx iv k, idx jv k, idx maximum k with
    | .ok a, .ok b, .ok mx =>
      if |a - b| > mx * epsilon then (if a < b then .ok (-1) else .ok 1)
      else entryComponentCompareLoop maximum epsilon iv jv n (k + 1)
    | _, _, _ => .error .outOfBounds

/-- The function `entryComponentCompare`, the first argument a record of the
compress list and the second the value array of the key. -/
def entryComponentCompare (m : State) (i : Nat) (jv : List ℚ) : Except Fault Int :=
  match deref m.heap i with
  | .ok ri => entryComponentCompareLoop m.maximum m.epsilon ri.value jv m.matrixEntrySize 0
  | .error e => .error e

/-- Modelled from the spec: `SearchSL` on the compress list (spec 4.2,
"lookup(v) returns an existing record equivalent to v or miss"); the
comparator reads the records, so the walk can fault. -/
def SearchCL (m : State) (key : List ℚ) : List Nat → Except Fault (Option Nat)
  | [] => .ok none
  | x :: l =>
    match entryComponentCompare m x key with
    | .error e => .error e
    | .ok c =>
      if c < 0 then SearchCL m key l
      else if c = 0 then .ok (some x)
      else .ok none

/-- Modelled from the spec: `InsertSL` on the compress list (spec 4.2,
"insert(record) adds a new record"), `NO_DUPLICATES`. -/
def InsertCL (m : State) (key : List ℚ) (ec : Nat) : List Nat → Except Fault (List Nat)
  | [] => .ok [ec]
  | x :: l =>
    match entryComponentCompare m x key with
    | .error e => .error e
    | .ok c =>
      if c < 0 then
        match InsertCL m key ec l with
        | .ok l1 => .ok (x :: l1)
        | .error e => .error e
      else if c = 0 then .ok (x :: l)
      else .ok (ec :: x :: l)

/-- Modelled from the spec: `DeleteSL` on the compress list (spec 4.2,
"removes+frees the record"): the node found for the key is unlinked; the
result is the remaining list and the record that the list's free function
`entryComponentFree` is called on. -/
def DeleteCL (m : State) (key : List ℚ) : List Nat → Except Fault (List Nat × Option Nat)
  | [] => .ok ([], none)
  | x :: l =>
    match entryComponentCompare m x key with
    | .error e => .error e
    | .ok c =>
      if c < 0 then
        match DeleteCL m key l with
        | .ok (l1, r) => .ok (x :: l1, r)
        | .error e => .error e
      else if c = 0 then .ok (l, some x)
      else .ok (x :: l, none)

/-- The call `free` on a record (and on its value array). -/
def freeRecord (heap : List entryComponent) (p : Nat) : Except Fault (List entryComponent) :=
  match deref heap p with
  | .ok ec => .ok (heap.set p { ec with freed := true })
  | .error e => .error e

def entryKeyCreateInfo (m : State) (value : List ℚ) : Except Fault (State × Nat) :=
  if m.compressionEnabled then
    match SearchCL m value m.compressList with
    | .error e => .error e
    | .ok (some ec) =>
      match deref m.heap ec with
      | .ok r => .ok ({ m with heap := m.heap.set ec { r with refCount := r.refCount + 1 } }, ec)
      | .error e => .error e
    | .ok none =>
      match entryComponentCreate m value 1 with
      | .error e => .error e
      | .ok (m1, ec) =>
        match InsertCL m1 value ec m1.compressList with
        | .ok cl => .ok ({ m1 with compressList := cl }, ec)
        | .error e => .error e
  else entryComponentCreate m value 1

/-! ## User callable routines -/

def createSparseMatrix (g : State) (numberOfEquations sparseMatrixEntrySize : Nat)
    (Compression : Bool) (Epsilon : ℚ) : State :=
  { g with
    compressionEnabled := Compression
    compressList := []
    matrixEntrySize :=
      if sparseMatrixEntrySize < 1 then g.matrixEntrySize else sparseMatrixEntrySize
    neq := numberOfEquations
    ncon_row := List.replicate (1 + numberOfEquations) 0
    voronoiVolume := List.replicate (1 + numberOfEquations) 0
    sparseMatrix := List.replicate (numberOfEquations + 1) []
    maximum := List.replicate 4 (1 / 10 ^ 30)
    epsilon := Epsilon }

def entryExists (m : State) (index_i index_j : Nat) : Except Fault Bool :=
  match getRow m index_j with
  | .ok row => .ok (SearchSL entryKeyCompare row ⟨index_i, 0⟩).isSome
  | .error e => .error e

/-- The statement `voronoiVolume[index-1] += volContrib`. -/
def addVolume (a : List ℚ) (index : Nat) (volContrib : ℚ) : Except Fault (List ℚ) :=
  if index = 0 then .error .outOfBounds
  else
    match idx a (index - 1) with
    | .ok y => .ok (a.set (index - 1) (y + volContrib))
    | .error e => .error e

/-- The loop of `setEntry` that updates the maximum values, from index `i`
with `n` rounds left. -/
def updateMaximum (value : List ℚ) : List ℚ → Nat → Nat → Except Fault (List ℚ)
  | maximum, 0, _ => .ok maximum
  | maximum, n + 1, i =>
    match idx value i, idx maximum i with
    | .ok v, .ok mx =>
      updateMaximum value (if |v| > mx then maximum.set i |v| else maximum) n (i + 1)
    | _, _ => .error .outOfBounds

/-- The statement `ncon_row[index]++`. -/
def incrCount (a : List Nat) (index : Nat) : Except Fault (List Nat) :=
  match idx a index with
  | .ok c => .ok (a.set index (c + 1))
  | .error e => .error e

/-- The release of the old record in `setEntry` when compression is on:
`DeleteSL(compressList, ec)` when `ec->refCount == 1`, else `refCount--`. -/
def releaseCompressed (m : State) (ec : Nat) : Except Fault State :=
  match deref m.heap ec with
  | .error e => .error e
  | .ok r =>
    if r.refCount = 1 then
      match DeleteCL m r.value m.compressList with
      | .error e => .error e
      | .ok (cl, none) => .ok { m with compressList := cl }
      | .ok (cl, some x) =>
        match freeRecord m.heap x with
        | .ok h => .ok { m with compressList := cl, heap := h }
        | .error e => .error e
    else .ok { m with heap := m.heap.set ec { r with refCount := r.refCount - 1 } }

/-- The release of the old record `ec` in `setEntry`: through the compress
list when compression is on, by `free` otherwise. -/
def releaseRecord (m : State) (ec : Nat) : Except Fault State :=
  if m.compressionEnabled then releaseCompressed m ec
  else
    match freeRecord m.heap ec with
    | .ok h => .ok { m with heap := h }
    | .error e => .error e

/-- The assignment `entry->info = newec` for the key at position `p` of row
`index`. -/
def setInfo (rows : List (List entryKey)) (index p newec : Nat) :
    Except Fault (List (List entryKey)) :=
  match idx rows index with
  | .error e => .error e
  | .ok row =>
    match idx row p with
    | .ok ek => .ok (rows.set index (row.set p { ek with info := newec }))
    | .error e => .error e

/-- The branch `if (entryMat)` of `setEntry`: `p` is the position of
`entryMat` in row `index_j`. -/
def setEntryUpdate (m : State) (index_i index_j p : Nat) (value : List ℚ) :
    Except Fault State :=
  match getRow m index_i, getRow m index_j with
  | .ok rowi, .ok rowj =>
    let entryMat2 := SearchSL entryKeyCompare rowi ⟨index_i, 0⟩
    match idx rowj p with
    | .error e => .error e
    | .ok entryMat =>
      let ec := entryMat.info
      match releaseRecord m ec with
      | .error e => .error e
      | .ok m1 =>
        match entryComponentCreate m1 value 1 with
        | .error e => .error e
        | .ok (m2, newec) =>
          match setInfo m2.sparseMatrix index_j p newec with
          | .error e => .error e
          | .ok rows1 =>
            match entryMat2 with
            | none => .error .nullDeref
            | some p2 =>
              match setInfo rows1 index_i p2 newec with
              | .ok rows2 => .ok { m2 with sparseMatrix := rows2 }
              | .error e => .error e
  | .error e, _ => .error e
  | _, .error e => .error e

/-- The insertion `InsertSL(sparseMatrix[index], key)`. -/
def insertKey (m : State) (index : Nat) (key : entryKey) : Except Fault State :=
  match getRow m index with
  | .ok row =>
    .ok { m with sparseMatrix := m.sparseMatrix.set index (InsertSL entryKeyCompare row key) }
  | .error e => .error e

/-- The branch of `setEntry` that creates the two entries `(i,j)` and `(j,i)`. -/
def setEntryInsertPair (m : State) (index_i index_j : Nat) (value : List ℚ) :
    Except Fault State :=
  match incrCount m.ncon_row index_i with
  | .error e => .error e
  | .ok c1 =>
    match incrCount c1 index_j with
    | .error e => .error e
    | .ok c2 =>
      match entryKeyCreateInfo { m with ncon_row := c2 } value with
      | .error e => .error e
      | .ok (m1, info) =>
        match insertKey m1 index_j ⟨index_i, info⟩ with
        | .error e => .error e
        | .ok m2 => insertKey m2 index_i ⟨index_j, info⟩

/-- The branch of `setEntry` that creates the one entry of a diagonal. -/
def setEntryInsertDiagonal (m : State) (index_i index_j : Nat) (value : List ℚ) :
    Except Fault State :=
  match incrCount m.ncon_row index_i with
  | .error e => .error e
  | .ok c1 =>
    match entryKeyCreateInfo { m with ncon_row := c1 } value with
    | .error e => .error e
    | .ok (m1, info) => insertKey m1 index_j ⟨index_i, info⟩

/-- The part of `setEntry` after the updates of the Voronoi volumes and of the
maximum values: the search for the entry and the three branches. -/
def setEntryBody (m : State) (index_i index_j : Nat) (value : List ℚ) :
    Except Fault State :=
  match getRow m index_j with
  | .error e => .error e
  | .ok rowj =>
    match SearchSL entryKeyCompare rowj ⟨index_i, 0⟩ with
    | some p => setEntryUpdate m index_i index_j p value
    | none =>
      if index_i ≠ index_j then
        match zeroVector m value with
        | .error e => .error e
        | .ok true => .ok m
        | .ok false => setEntryInsertPair m index_i index_j value
      else setEntryInsertDiagonal m index_i index_j value

def setEntry (m : State) (index_i index_j : Nat) (volContrib : ℚ) (value : List ℚ) :
    Except Fault State :=
  match addVolume m.voronoiVolume index_i volContrib with
  | .error e => .error e
  | .ok v1 =>
    match addVolume v1 index_j volContrib with
    | .error e => .error e
    | .ok v2 =>
      match updateMaximum value m.maximum m.matrixEntrySize 0 with
      | .error e => .error e
      | .ok mx => setEntryBody { m with voronoiVolume := v2, maximum := mx } index_i index_j value

/-- The loop of `setDiagonalEntries`, from row `i` with `n` rounds left;
`rowsum` has four cells and the first `matrixEntrySize` are zeroed (no other
statement writes to it, so all four are zero). -/
def setDiagonalEntriesLoop : Nat → Nat → State → Except Fault State
  | 0, _, m => .ok m
  | n + 1, i, m =>
    if 4 < m.matrixEntrySize then .error .outOfBounds
    else
      match setEntry m i i 0 (List.replicate 4 0) with
      | .ok m1 => setDiagonalEntriesLoop n (i + 1) m1
      | .error e => .error e

def setDiagonalEntries (m : State) : Except Fault State :=
  setDiagonalEntriesLoop m.neq 1 m

/-! ## Callbacks -/

def getColumnNumber (ek : entryKey) (rowc : Nat) (m : State) : Except Fault State :=
  if m.columnCounter < m.ncon then
    let cols := m.occupiedColumns ++ [ek.column]
    if rowc = ek.column then
      if rowc = 0 then .error .outOfBounds
      else
        match store m.diagonalIndices (rowc - 1) (some m.columnCounter) with
        | .ok d =>
          .ok { m with occupiedColumns := cols, diagonalIndices := d,
                       columnCounter := m.columnCounter + 1 }
        | .error e => .error e
    else .ok { m with occupiedColumns := cols, columnCounter := m.columnCounter + 1 }
  else .error .outOfBounds

def getEntryNumbers (ek : entryKey) (_rowc : Nat) (m : State) : Except Fault State :=
  if m.entryCounter < m.ncon then
    match deref m.heap ek.info with
    | .error e => .error e
    | .ok ec =>
      match ec.entryNum with
      | none => .error .indeterminate
      | some n =>
        .ok { m with entryNumbers := m.entryNumbers ++ [n], entryCounter := m.entryCounter + 1 }
  else .error .outOfBounds

def assignEntryNumCompression (ec : Nat) (_arg : Nat) (m : State) : Except Fault State :=
  match deref m.heap ec with
  | .error e => .error e
  | .ok r =>
    .ok { m with heap := m.heap.set ec { r with entryNum := some m.entryNumber },
                 entryNumber := m.entryNumber + 1 }

def assignEntryNumNoCompression (ek : entryKey) (rowc : Nat) (m : State) :
    Except Fault State :=
  if ek.column ≥ rowc then
    match deref m.heap ek.info with
    | .error e => .error e
    | .ok r =>
      .ok { m with heap := m.heap.set ek.info { r with entryNum := some m.entryNumber },
                   entryNumber := m.entryNumber + 1 }
  else .ok m

def populateCompressedValuesArray (ec : Nat) (_arg : Nat) (m : State) : Except Fault State :=
  if m.entryCounter < m.num_written_coefs then
    match deref m.heap ec with
    | .error e => .error e
    | .ok r =>
      match idx r.value m.component_of_interest with
      | .error e => .error e
      | .ok x =>
        .ok { m with MatrixValues := m.MatrixValues ++ [x], entryCounter := m.entryCounter + 1 }
  else .error .outOfBounds

def populateUncompressedValuesArray (ek : entryKey) (rowc : Nat) (m : State) :
    Except Fault State :=
  if ek.column ≥ rowc then
    if m.entryCounter < m.num_written_coefs then
      match deref m.heap ek.info with
      | .error e => .error e
      | .ok r =>
        match idx r.value m.component_of_interest with
        | .error e => .error e
        | .ok x =>
          .ok { m with MatrixValues := m.MatrixValues ++ [x],
                       entryCounter := m.entryCounter + 1 }
    else .error .outOfBounds
  else .ok m

/-- The loop `for (i=1; i<=neq; i++) DoForSL(sparseMatrix[i], f, i)`, from
row `i` with `n` rounds left. -/
def forRows (f : entryKey → Nat → State → Except Fault State) :
    Nat → Nat → State → Except Fault State
  | 0, _, m => .ok m
  | n + 1, i, m =>
    match getRow m i with
    | .error e => .error e
    | .ok row =>
      match DoForSL f row i m with
      | .ok m1 => forRows f n (i + 1) m1
      | .error e => .error e

/-- The first loop of `getmatrixsizes_`, from row `i` with `n` rounds left,
on the pair `(ncon, *ncon_max)`. -/
def sizesLoop (ncon_row : List Nat) : Nat → Nat → Nat × Nat → Except Fault (Nat × Nat)
  | 0, _, acc => .ok acc
  | n + 1, i, (ncon, ncon_max) =>
    match idx ncon_row i with
    | .ok c => sizesLoop ncon_row n (i + 1) (ncon + c, if ncon_max < c then c else ncon_max)
    | .error e => .error e

/-- The routine `getmatrixsizes_`; the result carries the three outputs
`(*Pnum_written_coefs, *ncoefs, *ncon_max)`. -/
def getmatrixsizes_ (m : State) : Except Fault (State × Nat × Nat × Nat) :=
  match sizesLoop m.ncon_row m.neq 1 (0, 0) with
  | .error e => .error e
  | .ok (ncon, ncon_max) =>
    let m1 := { m with ncon := ncon, entryNumber := 1 }
    let assigned :=
      if m1.compressionEnabled then DoForSL assignEntryNumCompression m1.compressList 0 m1
      else forRows assignEntryNumNoCompression m1.neq 1 m1
    match assigned with
    | .error e => .error e
    | .ok m2 =>
      .ok ({ m2 with num_written_coefs := m2.entryNumber - 1 },
           m2.entryNumber - 1, ncon, ncon_max)

/-- The loop of `getentriesperrow_`, from row `i` with `n` rounds left. -/
def entriesPerRowLoop : Nat → Nat → List Nat → Except Fault (List Nat)
  | 0, _, a => .ok a
  | n + 1, i, a =>
    match idx a i, idx a (i - 1) with
    | .ok c, .ok d =>
      match store a i (c + d) with
      | .ok a1 => entriesPerRowLoop n (i + 1) a1
      | .error e => .error e
    | _, _ => .error .outOfBounds

/-- The routine `getentriesperrow_`; `*epr` is the field `ncon_row` of the
result. -/
def getentriesperrow_ (m : State) : Except Fault State :=
  match store m.ncon_row 0 (m.neq + 1) with
  | .error e => .error e
  | .ok a =>
    match entriesPerRowLoop m.neq 1 a with
    | .ok a1 => .ok { m with ncon_row := a1 }
    | .error e => .error e

/-- The routine `getoccupiedcolumns_`; `*columns` is the field
`occupiedColumns` of the result. -/
def getoccupiedcolumns_ (m : State) : Except Fault State :=
  forRows getColumnNumber m.neq 1
    { m with columnCounter := 0, occupiedColumns := [],
             diagonalIndices := List.replicate m.neq none }

/-- The routine `getmatrixpointers_`; `*MatPointers` is the field
`entryNumbers` and `*diagonals` the field `diagonalIndices` of the result. -/
def getmatrixpointers_ (m : State) : Except Fault State :=
  forRows getEntryNumbers m.neq 1 { m with entryNumbers := [], entryCounter := 0 }

/-- The routine `getcomponentmatrixvalues_`; `*values` is the field
`MatrixValues` of the result. -/
def getcomponentmatrixvalues_ (m : State) (component : Nat) : Except Fault State :=
  let m1 := { m with MatrixValues := [], component_of_interest := component, entryCounter := 0 }
  if m1.compressionEnabled then DoForSL populateCompressedValuesArray m1.compressList 0 m1
  else forRows populateUncompressedValuesArray m1.neq 1 m1

/-- A call of the assembly interface. -/
inductive Call where
  | setEntry (index_i index_j : Nat) (volContrib : ℚ) (value : List ℚ)
  | setDiagonalEntries
  deriving DecidableEq

/-- One call on a state. -/
def step (m : State) : Call → Except Fault State
  | .setEntry i j vol v => setEntry m i j vol v
  | .setDiagonalEntries => setDiagonalEntries m

/-- A sequence of calls, in order; a fault ends the run. -/
def run : State → List Call → Except Fault State
  | m, [] => .ok m
  | m, c :: cs =>
    match step m c with
    | .ok m1 => run m1 cs
    | .error e => .error e

/-! ## Views of the state used in the statements -/

/-- The result of a computation that returns, `d` if it faults. -/
def getOk {α : Type} (d : α) : Except Fault α → α
  | .ok a => a
  | .error _ => d

/-- Scenario S2 of the specification: a 2x2 matrix, no compression, one
off-diagonal entry and the diagonal placeholders. -/
def scenarioS2 : State :=
  getOk initialState (run (createSparseMatrix initialState 2 1 false (1 / 10 ^ 12))
    [.setEntry 1 2 (1 / 2) [2], .setDiagonalEntries])

/-- Scenario S2 after `getmatrixsizes_`. -/
def scenarioS2Sized : State :=
  (getOk (initialState, 0, 0, 0) (getmatrixsizes_ scenarioS2)).1

/-- A run with compression in which the maxima grow: 3x3, `epsilon = 1/10`. -/
def callsDrift : List Call :=
  [.setEntry 1 2 0 [1], .setEntry 1 3 0 [2], .setEntry 2 3 0 [100]]

/-- The matrix after `callsDrift`. -/
def scenarioDrift : State :=
  getOk initialState (run (createSparseMatrix initialState 3 1 true (1 / 10)) callsDrift)

/-- The matrix after `callsDrift` and `getmatrixsizes_`. -/
def scenarioDriftSized : State :=
  (getOk (initialState, 0, 0, 0) (getmatrixsizes_ scenarioDrift)).1

/-- The matrix after `callsDrift`, `getmatrixsizes_` and `getmatrixpointers_`. -/
def scenarioDriftPointers : State :=
  getOk initialState (getmatrixpointers_ scenarioDriftSized)

/-- A run with compression on which the comparator is stable: 3x3,
`epsilon = 1e-9`, two values within tolerance of each other and a third. -/
def callsStable : List Call :=
  [.setEntry 1 2 0 [1], .setEntry 2 3 0 [1 + 1 / 10 ^ 12], .setEntry 1 3 0 [5]]

/-- The verdict of the comparator on one-component values with maximum 5 and
`epsilon = 1e-9`, the maximum reached by `callsStable` (`0` on a fault). -/
def verdictStable (a b : List ℚ) : Int :=
  getOk 0 (entryComponentCompareLoop [5] (1 / 10 ^ 9) a b 1 0)

/-- The matrix after `callsStable`. -/
def scenarioStable : State :=
  getOk initialState (run (createSparseMatrix initialState 3 1 true (1 / 10 ^ 9)) callsStable)

/-- The matrix after `callsStable` and `getmatrixsizes_`. -/
def scenarioStableSized : State :=
  (getOk (initialState, 0, 0, 0) (getmatrixsizes_ scenarioStable)).1

/-- The matrix after `callsStable`, `getmatrixsizes_` and `getmatrixpointers_`. -/
def scenarioStablePointers : State :=
  getOk initialState (getmatrixpointers_ scenarioStableSized)

/-- The keys of row `r`, in list order (no keys outside the allocation). -/
def rowOf (m : State) (r : Nat) : List entryKey := m.sparseMatrix.getD r []

/-- A row in strictly ascending column order. -/
def RowSorted (row : List entryKey) : Prop :=
  row.Pairwise (fun a b => a.column < b.column)

/-- The column numbers of row `r`, in list order. -/
def colsOf (m : State) (r : Nat) : List Nat := (rowOf m r).map (·.column)

/-- The structural invariant of the matrix: the arrays have `neq+1` cells,
every row is in strictly ascending column order, the pattern of the stored
columns is symmetric, and `ncon_row` counts the keys of each row. -/
structure WF (m : State) : Prop where
  len_rows : m.sparseMatrix.length = m.neq + 1
  len_ncon : m.ncon_row.length = m.neq + 1
  len_vol : m.voronoiVolume.length = m.neq + 1
  row0 : colsOf m 0 = []
  sorted : ∀ r, (colsOf m r).Pairwise (· < ·)
  sym : ∀ r c, c ∈ colsOf m r → r ∈ colsOf m c
  count : ∀ r, m.ncon_row.getD r 0 = (colsOf m r).length

/-- The fields that the search and the three branches of `setEntry` leave
alone. -/
def paramsOf (m : State) : Nat × Nat × Bool × ℚ × List ℚ × List ℚ :=
  (m.neq, m.matrixEntrySize, m.compressionEnabled, m.epsilon, m.maximum, m.voronoiVolume)

/-- The maximum values are never negative. -/
def MaxNonneg (m : State) : Prop := ∀ k, 0 ≤ m.maximum.getD k 0

/-- The stored positions of the rows `i, i+1, ..., i+n-1` in the order of the
traversals `for (i=1; i<=neq; i++) DoForSL(sparseMatrix[i], ...)`: each key with
its row. -/
def flatFrom (rows : List (List entryKey)) : Nat → Nat → List (Nat × entryKey)
  | 0, _ => []
  | n + 1, i => (rows.getD i []).map (fun ek => (i, ek)) ++ flatFrom rows n (i + 1)

/-- The stored positions of the matrix, in traversal order. -/
def positions (m : State) : List (Nat × entryKey) := flatFrom m.sparseMatrix m.neq 1

/-- The test `column >= row` of the upper triangle. -/
def upper (p : Nat × entryKey) : Bool := decide (p.2.column ≥ p.1)

/-- A visitor applied to a list of positions, in order. -/
def visitAll (f : entryKey → Nat → State → Except Fault State) :
    List (Nat × entryKey) → State → Except Fault State
  | [], m => .ok m
  | p :: l, m =>
    match f p.2 p.1 m with
    | .ok m1 => visitAll f l m1
    | .error e => .error e

/-- Row-major order of positions: ascending rows, ascending columns in a row. -/
def posLt (p q : Nat × entryKey) : Prop :=
  p.1 < q.1 ∨ (p.1 = q.1 ∧ p.2.column < q.2.column)

/-- The sharing of records in a matrix that no replacement has damaged: every
key points to a live record, two keys point to the same record only when they
are the same position or mirror positions, and mirror positions do share. -/
structure Clean (m : State) : Prop where
  live : ∀ r ek, ek ∈ rowOf m r → ∃ rec, m.heap[ek.info]? = some rec ∧ rec.freed = false
  shared : ∀ r ek r1 ek1, ek ∈ rowOf m r → ek1 ∈ rowOf m r1 → ek.info = ek1.info →
    (r = r1 ∧ ek.column = ek1.column) ∨ (r = ek1.column ∧ ek.column = r1)
  mirror : ∀ r ek ek1, ek ∈ rowOf m r → ek1 ∈ rowOf m ek.column → ek1.column = r →
    ek1.info = ek.info

/-- The value array of the record at `h` (empty when there is none). -/
def valueOf (heap : List entryComponent) (h : Nat) : List ℚ :=
  match heap[h]? with
  | some r => r.value
  | none => []

/-- The comparator `entryComponentCompare`, run in state `m` on any two value
arrays of `V`, returns the verdict `c`. -/
def verdictsAgree (c : List ℚ → List ℚ → Int) (V : List (List ℚ)) (m : State) : Bool :=
  V.all fun a => V.all fun b =>
    match entryComponentCompareLoop m.maximum m.epsilon a b m.matrixEntrySize 0 with
    | .ok x => x == c a b
    | .error _ => false

/-- A run of `setEntry` calls in which no call targets a position that exists
already, every value has `matrixEntrySize` components, and after every call
the comparator gives the verdicts `c` on `V`. -/
def insertOnlyRun (c : List ℚ → List ℚ → Int) (V : List (List ℚ)) : State → List Call → Bool
  | _, [] => true
  | _, .setDiagonalEntries :: _ => false
  | m, .setEntry i j vol v :: cs =>
    (match entryExists m i j with
      | .ok b => !b
      | .error _ => false) &&
    decide (v.length = m.matrixEntrySize) &&
    (match setEntry m i j vol v with
      | .ok m1 => verdictsAgree c V m1 && insertOnlyRun c V m1 cs
      | .error _ => true)

/-- The verdicts `c` order the value arrays of `V` like a strict weak order:
equivalence (verdict `0`) is reflexive, symmetric and transitive, and "below"
(a negative verdict) is transitive and compatible with equivalence. -/
structure WeakOrderOn (c : List ℚ → List ℚ → Int) (V : List (List ℚ)) : Prop where
  refl : ∀ a ∈ V, c a a = 0
  symm : ∀ a ∈ V, ∀ b ∈ V, c a b = 0 → c b a = 0
  flip : ∀ a ∈ V, ∀ b ∈ V, 0 < c a b → c b a < 0
  lt_trans : ∀ a ∈ V, ∀ b ∈ V, ∀ d ∈ V, c a b < 0 → c b d < 0 → c a d < 0
  lt_eq : ∀ a ∈ V, ∀ b ∈ V, ∀ d ∈ V, c a b < 0 → c b d = 0 → c a d < 0
  eq_trans : ∀ a ∈ V, ∀ b ∈ V, ∀ d ∈ V, c a b = 0 → c b d = 0 → c a d = 0

/-- The values passed to `setEntry` in a run. -/
def callValues : List Call → List (List ℚ)
  | [] => []
  | .setEntry _ _ _ v :: cs => v :: callValues cs
  | .setDiagonalEntries :: cs => callValues cs

/-- The value that the calls of a run set last at each position (a call
`setEntry(i,j,_,v)` sets `v` at `(i,j)` and at `(j,i)`), on top of `gv`. -/
def recordCalls (gv : Nat → Nat → Option (List ℚ)) : List Call → Nat → Nat → Option (List ℚ)
  | [] => gv
  | .setEntry i j _ v :: cs =>
    recordCalls (fun r c => if (r = i ∧ c = j) ∨ (r = j ∧ c = i) then some v else gv r c) cs
  | .setDiagonalEntries :: cs => recordCalls gv cs

/-- The value set last at position `(r, c)` by the calls of a run. -/
def setValue (calls : List Call) (r c : Nat) : Option (List ℚ) :=
  recordCalls (fun _ _ => none) calls r c

/-- The state of the shared-value index in an insert-only run: its records are
live and carry values of `V`, it is strictly ascending for the verdicts `c`,
every key of the matrix points into it, and the record of a position is
equivalent to the value `gv` set at that position. -/
structure Indexed (c : List ℚ → List ℚ → Int) (V : List (List ℚ))
    (gv : Nat → Nat → Option (List ℚ)) (m : State) : Prop where
  recs : ∀ h ∈ m.compressList, ∃ rec, m.heap[h]? = some rec ∧ rec.freed = false ∧ rec.value ∈ V
  sortedL : m.compressList.Pairwise
    (fun a b => c (valueOf m.heap a) (valueOf m.heap b) < 0)
  posIn : ∀ r ek, ek ∈ rowOf m r → ek.info ∈ m.compressList
  ghost : ∀ r ek, ek ∈ rowOf m r →
    ∃ v, gv r ek.column = some v ∧ v ∈ V ∧ c (valueOf m.heap ek.info) v = 0

/-- The comparator returns the verdict `c` on the records of `L` against `key`. -/
def ComparesAs (c : List ℚ → List ℚ → Int) (m : State) (L : List Nat) (key : List ℚ) : Prop :=
  ∀ x ∈ L, entryComponentCompare m x key = .ok (c (valueOf m.heap x) key)

/-- Scenario S2 after `getmatrixsizes_` and `getoccupiedcolumns_`. -/
def scenarioS2Columns : State :=
  getOk initialState (getoccupiedcolumns_ scenarioS2Sized)

/-- Scenario S2 after `getmatrixsizes_` and `getentriesperrow_`. -/
def scenarioS2Prefix : State :=
  getOk initialState (getentriesperrow_ scenarioS2Sized)

/-- Scenario S2 after `getmatrixsizes_`, `getentriesperrow_` and
`getoccupiedcolumns_`. -/
def scenarioS2PrefixColumns : State :=
  getOk initialState (getoccupiedcolumns_ scenarioS2Prefix)

/-- The sum of the volume contributions of the calls of a run to node `k`: a
call `setEntry(i,j,vol,_)` contributes `vol` once when `i = k` and once when
`j = k`. -/
def volumeOf : List Call → Nat → ℚ
  | [], _ => 0
  | .setEntry i j vol _ :: cs, k =>
    (if i = k then vol else 0) + (if j = k then vol else 0) + volumeOf cs k
  | .setDiagonalEntries :: cs, k => volumeOf cs k

/-- The running maximum of `|v[c]|` over the values passed to `setEntry` in a
run, starting from `x`. -/
def maximumOf : List Call → Nat → ℚ → ℚ
  | [], _, x => x
  | .setEntry _ _ _ v :: cs, c, x => maximumOf cs c (max x |v.getD c 0|)
  | .setDiagonalEntries :: cs, c, x => maximumOf cs c x

/-- A run on a 2x2 matrix with an inserted diagonal entry, its replacement, a
suppressed zero vector and an inserted off-diagonal entry. -/
def callsVolumes : List Call :=
  [.setEntry 1 1 (1 / 2) [1], .setEntry 1 1 (1 / 4) [-2], .setEntry 1 2 (1 / 8) [0],
   .setEntry 1 2 1 [3 / 2]]

/-- The matrix after `callsVolumes`. -/
def scenarioVolumes : State :=
  getOk initialState (run (createSparseMatrix initialState 2 1 false (1 / 10 ^ 9)) callsVolumes)

/-- A run with compression in which the diagonal entry `(1,1)` is replaced by
a value that the index holds already: 2x2, `epsilon = 1e-9`. -/
def callsReplaceCompressed : List Call :=
  [.setEntry 1 1 0 [1], .setEntry 2 2 0 [2], .setEntry 1 1 0 [2]]

/-- The matrix after `callsReplaceCompressed`. -/
def scenarioReplaceCompressed : State :=
  getOk initialState
    (run (createSparseMatrix initialState 2 1 true (1 / 10 ^ 9)) callsReplaceCompressed)

/-- The matrix after `callsReplaceCompressed` and `getmatrixsizes_`. -/
def scenarioReplaceCompressedSized : State :=
  (getOk (initialState, 0, 0, 0) (getmatrixsizes_ scenarioReplaceCompressed)).1

/-- A run of `setEntry` calls none of which targets a position that exists
already. -/
def freshRun : State → List Call → Bool
  | _, [] => true
  | _, .setDiagonalEntries :: _ => false
  | m, .setEntry i j vol v :: cs =>
    (match entryExists m i j with
      | .ok b => !b
      | .error _ => false) &&
    (match setEntry m i j vol v with
      | .ok m1 => freshRun m1 cs
      | .error _ => true)

/-- The number of stored positions with `column >= row` that point to the
record `h`: the diagonal positions and one position of each symmetric pair. -/
def upperRefs (m : State) (h : Nat) : Nat :=
  (positions m).countP (fun p => upper p && decide (p.2.info = h))

/-- The number of stored positions that point to the record `h`. -/
def allRefs (m : State) (h : Nat) : Nat :=
  (positions m).countP (fun p => decide (p.2.info = h))

/-- The number of stored diagonal positions that point to the record `h`. -/
def diagonalRefs (m : State) (h : Nat) : Nat :=
  (positions m).countP (fun p => decide (p.2.column = p.1) && decide (p.2.info = h))

/-- The reference counts of the shared-value index: every key points into
the heap, and the `refCount` of a record of the index is the number of
positions with `column >= row` that point to it. -/
structure RefCounted (m : State) : Prop where
  inRange : ∀ r ek, ek ∈ rowOf m r → ek.info < m.heap.length
  counts : ∀ h ∈ m.compressList, ∃ rec, m.heap[h]? = some rec ∧
    rec.refCount = (upperRefs m h : Int) ∧
    2 * rec.refCount = (allRefs m h : Int) + (diagonalRefs m h : Int)

/-- One symmetric entry with compression: 2x2, `epsilon = 1e-9`. -/
def callsPair : List Call := [.setEntry 1 2 0 [1]]

/-- The matrix after `callsPair`. -/
def scenarioPair : State :=
  getOk initialState (run (createSparseMatrix initialState 2 1 true (1 / 10 ^ 9)) callsPair)

/-- Scenario S3 of the specification: a 3x3 matrix with compression,
`epsilon = 1e-9`, two off-diagonal values within tolerance of each other and
the diagonal placeholders. -/
def callsS3 : List Call :=
  [.setEntry 1 2 0 [1], .setEntry 2 3 0 [1 + 1 / 10 ^ 12], .setDiagonalEntries]

/-- The matrix of scenario S3. -/
def scenarioS3 : State :=
  getOk initialState (run (createSparseMatrix initialState 3 1 true (1 / 10 ^ 9)) callsS3)

/-- Scenario S3 after `getmatrixsizes_`. -/
def scenarioS3Sized : State :=
  (getOk (initialState, 0, 0, 0) (getmatrixsizes_ scenarioS3)).1

/-- Scenario S3 after `getmatrixsizes_` and `getmatrixpointers_`. -/
def scenarioS3Pointers : State :=
  getOk initialState (getmatrixpointers_ scenarioS3Sized)

/-- The stored positions as pairs `(row, column)`. -/
def pattern (m : State) : List (Nat × Nat) := (positions m).map (fun p => (p.1, p.2.column))

/-- The number of rows `i` in `1..neq` for which `entryExists(i,i)` answers
true. -/
def diagonalCount (m : State) : Nat :=
  ((Finset.Icc 1 m.neq).filter (fun i => getOk false (entryExists m i i) = true)).card

/-- Scenario S2 followed by the replacement `setEntry(1,2,0,[7.0])` of the
off-diagonal entry. -/
def scenarioS2Replaced : State :=
  getOk initialState (setEntry scenarioS2 1 2 0 [7])

/-- The state of the compress list: no record occurs twice, and every record
of the list is live and carries `matrixEntrySize` values. -/
structure IndexOK (m : State) : Prop where
  nodup : m.compressList.Nodup
  recs : ∀ h ∈ m.compressList, ∃ rec, m.heap[h]? = some rec ∧ rec.freed = false ∧
    rec.value.length = m.matrixEntrySize

/-- The error bound of the records: every key points to a record of the
compress list, and the value `gv` set at a stored position differs from the
value of its record by at most `maximum[c]*epsilon` in every component. -/
structure Bounded (gv : Nat → Nat → Option (List ℚ)) (m : State) : Prop where
  posIn : ∀ r ek, ek ∈ rowOf m r → ek.info ∈ m.compressList
  ghost : ∀ r ek, ek ∈ rowOf m r → ∃ v, gv r ek.column = some v ∧
    ∀ c, c < m.matrixEntrySize →
      |v.getD c 0 - (valueOf m.heap ek.info).getD c 0| ≤ m.maximum.getD c 0 * m.epsilon

/-- The matrix after `callsStable`, `getmatrixsizes_`, `getmatrixpointers_` and
`getcomponentmatrixvalues_` on component 0. -/
def scenarioStableValues : State :=
  getOk initialState (getcomponentmatrixvalues_ scenarioStablePointers 0)

/-- A run with compression in which the maxima grow before the diagonal
placeholders are set: 3x3, `epsilon = 1/10`. -/
def callsSmallFirst : List Call :=
  [.setEntry 1 3 0 [1 / 1000], .setEntry 2 2 0 [2 / 1000], .setEntry 1 2 0 [1]]

/-- The matrix after `callsSmallFirst`. -/
def scenarioSmallFirst : State :=
  getOk initialState (run (createSparseMatrix initialState 3 1 true (1 / 10)) callsSmallFirst)

/-- The matrix after `callsSmallFirst` and `setDiagonalEntries`. -/
def scenarioSmallFirstDiagonal : State :=
  getOk initialState (setDiagonalEntries scenarioSmallFirst)

/-- The fields that the extraction passes leave alone. -/
def matrixOf (m : State) :
    List (List entryKey) × Nat × List Nat × Bool × List Nat × List ℚ × ℚ × Nat :=
  (m.sparseMatrix, m.neq, m.ncon_row, m.compressionEnabled, m.compressList,
   m.maximum, m.epsilon, m.matrixEntrySize)

/-! ## Arrays and loops -/

theorem idx_eq_ok {α : Type} {a : List α} {i : Nat} {x : α} :
    idx a i = .ok x ↔ a[i]? = some x := by
  unfold idx
  cases h : a[i]? <;> simp

theorem idx_of_lt {α : Type} {a : List α} {i : Nat} (h : i < a.length) :
    idx a i = .ok a[i] := by
  rw [idx_eq_ok]; exact List.getElem?_eq_getElem h

theorem idx_lt {α : Type} {a : List α} {i : Nat} {x : α} (h : idx a i = .ok x) :
    i < a.length := by
  rw [idx_eq_ok] at h
  exact (List.getElem?_eq_some_iff.mp h).1

theorem store_eq_ok {α : Type} {a b : List α} {i : Nat} {x : α} :
    store a i x = .ok b ↔ i < a.length ∧ b = a.set i x := by
  unfold store
  split <;> simp_all [eq_comm]

theorem getD_set {α : Type} (a : List α) (i k : Nat) (x d : α) :
    (a.set i x).getD k d = if i = k ∧ i < a.length then x else a.getD k d := by
  simp only [List.getD_eq_getElem?_getD, List.getElem?_set]
  by_cases h : i = k
  · subst h
    by_cases h2 : i < a.length
    · simp [h2]
    · simp [h2, List.getElem?_eq_none (not_lt.mp h2)]
  · simp [h]

theorem entriesPerRowLoop_spec :
    ∀ (n i : Nat) (a : List Nat), 1 ≤ i → i + n ≤ a.length →
      ∃ b, entriesPerRowLoop n i a = .ok b ∧ b.length = a.length ∧
        (∀ k, k < i → b.getD k 0 = a.getD k 0) ∧
        (∀ k, i ≤ k → k < i + n → b.getD k 0 = b.getD (k - 1) 0 + a.getD k 0) := by
  intro n
  induction n with
  | zero =>
    intro i a _ _
    exact ⟨a, rfl, rfl, fun _ _ => rfl, fun k h1 h2 => by omega⟩
  | succ n ih =>
    intro i a hi hlen
    have h1 : i < a.length := by omega
    have h0 : i - 1 < a.length := by omega
    obtain ⟨b, hb, hbl, hlow, hstep⟩ :=
      ih (i + 1) (a.set i (a[i] + a[i - 1])) (by omega) (by simp; omega)
    refine ⟨b, ?_, by simpa using hbl, ?_, ?_⟩
    · simp only [entriesPerRowLoop, idx_of_lt h1, idx_of_lt h0]
      have : store a i (a[i] + a[i - 1]) = .ok (a.set i (a[i] + a[i - 1])) :=
        store_eq_ok.mpr ⟨h1, rfl⟩
      simp only [this]
      exact hb
    · intro k hk
      rw [hlow k (by omega), getD_set]
      simp; omega
    · intro k hk1 hk2
      by_cases hki : k = i
      · subst hki
        rw [hlow k (by omega), hlow (k - 1) (by omega), getD_set, getD_set]
        have e1 : a.getD k 0 = a[k] := by simp [List.getD_eq_getElem?_getD, h1]
        have e2 : a.getD (k - 1) 0 = a[k - 1] := by simp [List.getD_eq_getElem?_getD, h0]
        have hne : ¬ (k = k - 1) := by omega
        simp only [hne, false_and, if_false, h1, and_self, if_true, e1, e2]
        omega
      · rw [hstep k (by omega) (by omega), getD_set]
        have : ¬ (i = k ∧ i < a.length) := by omega
        simp [this]

theorem prefix_total (a b : List Nat)
    (hstep : ∀ k, 1 ≤ k → k < 1 + n → b.getD k 0 = b.getD (k - 1) 0 + a.getD k 0) :
    ∀ k, k ≤ n → b.getD k 0 = b.getD 0 0 + ∑ j in Finset.Icc 1 k, a.getD j 0 := by
  intro k
  induction k with
  | zero => intro _; simp
  | succ k ih =>
    intro hk
    rw [hstep (k + 1) (by omega) (by omega), Nat.add_sub_cancel, ih (by omega),
      Finset.sum_Icc_succ_top (by omega)]
    ring

theorem sizesLoop_spec (a : List Nat) :
    ∀ (n i s mx s1 mx1 : Nat), sizesLoop a n i (s, mx) = .ok (s1, mx1) →
      s1 = s + ∑ k in Finset.Ico i (i + n), a.getD k 0 ∧
      mx1 = max mx ((Finset.Ico i (i + n)).sup (fun k => a.getD k 0)) := by
  intro n
  induction n with
  | zero =>
    intro i s mx s1 mx1 h
    simp [sizesLoop] at h
    simp [h.1, h.2]
  | succ n ih =>
    intro i s mx s1 mx1 h
    simp only [sizesLoop] at h
    split at h
    · rename_i c hc
      have hget : a.getD i 0 = c := by
        rw [idx_eq_ok] at hc
        simp [List.getD, hc]
      obtain ⟨h1, h2⟩ := ih _ _ _ _ _ h
      have hlt : i < i + (n + 1) := by omega
      have hI : i + 1 + n = i + (n + 1) := by omega
      rw [Finset.sum_eq_sum_Ico_succ_bot hlt, ← Nat.Ico_insert_succ_left hlt,
        Finset.sup_insert, hget, ← hI]
      refine ⟨by rw [h1]; ring, ?_⟩
      rw [h2]
      split
      · rename_i hlt2
        rw [← max_assoc, max_eq_right (le_of_lt hlt2)]
      · rename_i hnlt
        rw [← max_assoc, max_eq_left (not_lt.mp hnlt)]
    · simp at h


theorem DoForSL_preserves {κ β : Type} {f : κ → Nat → State → Except Fault State}
    (π : State → β) (hf : ∀ k a m m1, f k a m = .ok m1 → π m1 = π m) :
    ∀ (l : List κ) (a : Nat) (m m1 : State), DoForSL f l a m = .ok m1 → π m1 = π m := by
  intro l
  induction l with
  | nil => intro a m m1 h; simp [DoForSL] at h; rw [h]
  | cons x l ih =>
    intro a m m1 h
    simp only [DoForSL] at h
    split at h
    · rename_i m2 h2
      rw [ih a m2 m1 h, hf x a m m2 h2]
    · simp at h

theorem forRows_preserves {β : Type} {f : entryKey → Nat → State → Except Fault State}
    (π : State → β) (hf : ∀ k a m m1, f k a m = .ok m1 → π m1 = π m) :
    ∀ (n i : Nat) (m m1 : State), forRows f n i m = .ok m1 → π m1 = π m := by
  intro n
  induction n with
  | zero => intro i m m1 h; simp [forRows] at h; rw [h]
  | succ n ih =>
    intro i m m1 h
    simp only [forRows] at h
    split at h
    · simp at h
    · rename_i row hrow
      split at h
      · rename_i m2 h2
        rw [ih (i + 1) m2 m1 h, DoForSL_preserves π hf row i m m2 h2]
      · simp at h

theorem assignEntryNumNoCompression_matrixOf (k : entryKey) (a : Nat) (m m1 : State)
    (h : assignEntryNumNoCompression k a m = .ok m1) : matrixOf m1 = matrixOf m := by
  unfold assignEntryNumNoCompression at h
  split at h
  · split at h
    · simp at h
    · simp at h; subst h; rfl
  · simp at h; subst h; rfl

theorem assignEntryNumCompression_matrixOf (k : Nat) (a : Nat) (m m1 : State)
    (h : assignEntryNumCompression k a m = .ok m1) : matrixOf m1 = matrixOf m := by
  unfold assignEntryNumCompression at h
  split at h
  · simp at h
  · simp at h; subst h; rfl

theorem getmatrixsizes_inv {m m1 : State} {nw nc nmax : Nat}
    (h : getmatrixsizes_ m = .ok (m1, nw, nc, nmax)) :
    sizesLoop m.ncon_row m.neq 1 (0, 0) = .ok (nc, nmax) ∧
    ∃ m2, (if m.compressionEnabled then
        DoForSL assignEntryNumCompression m.compressList 0 { m with ncon := nc, entryNumber := 1 }
      else forRows assignEntryNumNoCompression m.neq 1 { m with ncon := nc, entryNumber := 1 })
        = .ok m2 ∧
      m1 = { m2 with num_written_coefs := m2.entryNumber - 1 } ∧ nw = m2.entryNumber - 1 := by
  unfold getmatrixsizes_ at h
  split at h
  · simp at h
  · rename_i ncon ncon_max hs
    simp only at h
    split at h
    · simp at h
    · rename_i m2 h2
      simp only [Except.ok.injEq, Prod.mk.injEq] at h
      obtain ⟨h1, h3, h4, h5⟩ := h
      subst h4 h5
      exact ⟨hs, m2, h2, h1.symm, h3.symm⟩

theorem getmatrixsizes_matrixOf {m m1 : State} {nw nc nmax : Nat}
    (h : getmatrixsizes_ m = .ok (m1, nw, nc, nmax)) : matrixOf m1 = matrixOf m := by
  obtain ⟨_, m2, h2, h3, _⟩ := getmatrixsizes_inv h
  subst h3
  split at h2
  · have h := DoForSL_preserves matrixOf assignEntryNumCompression_matrixOf _ _ _ _ h2
    exact h
  · have h := forRows_preserves matrixOf assignEntryNumNoCompression_matrixOf _ _ _ _ h2
    exact h

theorem getmatrixsizes_ncon {m m1 : State} {nw nc nmax : Nat}
    (h : getmatrixsizes_ m = .ok (m1, nw, nc, nmax)) :
    nc = ∑ i in Finset.Icc 1 m.neq, m.ncon_row.getD i 0 ∧
    nmax = (Finset.Icc 1 m.neq).sup (fun i => m.ncon_row.getD i 0) := by
  obtain ⟨hs, _⟩ := getmatrixsizes_inv h
  obtain ⟨h1, h2⟩ := sizesLoop_spec _ _ _ _ _ _ _ hs
  have hI : Finset.Ico 1 (1 + m.neq) = Finset.Icc 1 m.neq := by
    ext k; simp; omega
  rw [hI] at h1 h2
  exact ⟨by simpa using h1, by simpa using h2⟩

/-- C10: after `getmatrixsizes_` and one call of `getentriesperrow_`,
`ncon_row[0] = neq+1`, `ncon_row[i] - ncon_row[i-1]` is the count that row `i`
had before the call for every `i` in `1..neq`, and
`ncon_row[neq] = ncon + neq + 1`; the call itself cannot fault. -/
theorem getentriesperrow_prefix_form (m0 m : State) (nw ncoefs nmax : Nat)
    (hlen : m0.ncon_row.length = m0.neq + 1)
    (hs : getmatrixsizes_ m0 = .ok (m, nw, ncoefs, nmax)) :
    ∃ m1, getentriesperrow_ m = .ok m1 ∧
      m1.ncon_row.length = m.neq + 1 ∧
      m1.ncon_row[0]? = some (m.neq + 1) ∧
      (∀ i, 1 ≤ i → i ≤ m.neq → ∃ a b c, m1.ncon_row[i]? = some a ∧
        m1.ncon_row[i - 1]? = some b ∧ m.ncon_row[i]? = some c ∧ (a : ℤ) - b = c) ∧
      m1.ncon_row[m.neq]? = some (ncoefs + m.neq + 1) := by
  have hm := getmatrixsizes_matrixOf hs
  simp only [matrixOf, Prod.mk.injEq] at hm
  obtain ⟨-, hneq, hrow, -⟩ := hm
  have hnc := (getmatrixsizes_ncon hs).1
  rw [← hneq, ← hrow] at hnc hlen
  clear hs hneq hrow
  have hst : store m.ncon_row 0 (m.neq + 1) = .ok (m.ncon_row.set 0 (m.neq + 1)) :=
    store_eq_ok.mpr ⟨by omega, rfl⟩
  obtain ⟨b, hb, hbl, hlow, hstep⟩ :=
    entriesPerRowLoop_spec m.neq 1 (m.ncon_row.set 0 (m.neq + 1)) (le_refl 1)
      (by simp; omega)
  have hbl2 : b.length = m.neq + 1 := by simpa [hlen] using hbl
  have hold : ∀ k, 1 ≤ k → (m.ncon_row.set 0 (m.neq + 1)).getD k 0 = m.ncon_row.getD k 0 := by
    intro k hk
    rw [getD_set]
    have : ¬ (0 = k ∧ 0 < m.ncon_row.length) := by omega
    simp [this]
  have hb0 : b.getD 0 0 = m.neq + 1 := by
    rw [hlow 0 (by omega), getD_set]
    have : 0 < m.ncon_row.length := by omega
    simp [this]
  have hget : ∀ (l : List Nat) k, k < l.length → l[k]? = some (l.getD k 0) := by
    intro l k hk
    simp [List.getD_eq_getElem?_getD, List.getElem?_eq_getElem hk]
  refine ⟨{ m with ncon_row := b }, ?_, hbl2, ?_, ?_, ?_⟩
  · simp only [getentriesperrow_, hst, hb]
  · show b[0]? = _
    rw [hget b 0 (by omega), hb0]
  · intro i hi1 hi2
    refine ⟨b.getD i 0, b.getD (i - 1) 0, m.ncon_row.getD i 0, hget b i (by omega),
      hget b (i - 1) (by omega), hget _ i (by omega), ?_⟩
    rw [hstep i hi1 (by omega), hold i hi1]
    push_cast
    ring
  · show b[m.neq]? = _
    rw [hget b m.neq (by omega)]
    have hstep2 : ∀ k, 1 ≤ k → k < 1 + m.neq →
        b.getD k 0 = b.getD (k - 1) 0 + m.ncon_row.getD k 0 := by
      intro k h1 h2
      rw [hstep k h1 h2, hold k h1]
    rw [prefix_total m.ncon_row b hstep2 m.neq (le_refl _), hb0, hnc]
    congr 1
    ring

/-! ## Search and insertion in a sorted row -/

theorem entryKeyCompare_lt (a b : entryKey) : entryKeyCompare a b < 0 ↔ a.column < b.column := by
  unfold entryKeyCompare
  split
  · simp; omega
  · split <;> simp <;> omega

theorem entryKeyCompare_eq (a b : entryKey) : entryKeyCompare a b = 0 ↔ a.column = b.column := by
  unfold entryKeyCompare
  split
  · simp; assumption
  · split <;> simp <;> omega

theorem SearchSL_some {row : List entryKey} {k : entryKey} {p : Nat}
    (h : SearchSL entryKeyCompare row k = some p) :
    ∃ ek, row[p]? = some ek ∧ ek.column = k.column := by
  induction row generalizing p with
  | nil => simp [SearchSL] at h
  | cons x l ih =>
    simp only [SearchSL] at h
    split at h
    · cases hq : SearchSL entryKeyCompare l k with
      | none => simp [hq] at h
      | some q =>
        simp [hq] at h
        subst h
        obtain ⟨ek, h1, h2⟩ := ih hq
        exact ⟨ek, by simpa using h1, h2⟩
    · split at h
      · rename_i h0
        simp at h
        subst h
        exact ⟨x, by simp, (entryKeyCompare_eq x k).mp h0⟩
      · simp at h

theorem SearchSL_none {row : List entryKey} {k : entryKey} (hs : RowSorted row)
    (h : SearchSL entryKeyCompare row k = none) : ∀ ek ∈ row, ek.column ≠ k.column := by
  induction row with
  | nil => simp
  | cons x l ih =>
    simp only [SearchSL] at h
    have hs2 := List.pairwise_cons.mp hs
    intro ek hek
    rcases List.mem_cons.mp hek with rfl | hmem
    · split at h
      · rename_i hlt
        have := (entryKeyCompare_lt ek k).mp hlt
        omega
      · split at h
        · simp at h
        · rename_i h1 h2
          exact fun e => h2 ((entryKeyCompare_eq ek k).mpr e)
    · split at h
      · have hn : SearchSL entryKeyCompare l k = none := by
          cases hq : SearchSL entryKeyCompare l k with
          | none => rfl
          | some q => simp [hq] at h
        exact ih hs2.2 hn ek hmem
      · rename_i h1
        split at h
        · simp at h
        · rename_i h2
          have hx : ¬ x.column < k.column := fun e => h1 ((entryKeyCompare_lt x k).mpr e)
          have := hs2.1 ek hmem
          omega

theorem SearchSL_isSome {row : List entryKey} {k : entryKey} (hs : RowSorted row)
    {ek : entryKey} (hek : ek ∈ row) (hc : ek.column = k.column) :
    ∃ p, SearchSL entryKeyCompare row k = some p := by
  cases h : SearchSL entryKeyCompare row k with
  | some p => exact ⟨p, rfl⟩
  | none => exact absurd hc (SearchSL_none hs h ek hek)

theorem InsertSL_fresh {row : List entryKey} {k : entryKey} (hs : RowSorted row)
    (hk : ∀ ek ∈ row, ek.column ≠ k.column) :
    RowSorted (InsertSL entryKeyCompare row k) ∧
      (InsertSL entryKeyCompare row k).Perm (k :: row) := by
  induction row with
  | nil => simp [InsertSL, RowSorted]
  | cons x l ih =>
    have hs2 := List.pairwise_cons.mp hs
    have hx : x.column ≠ k.column := hk x (List.mem_cons_self _ _)
    obtain ⟨ih1, ih2⟩ := ih hs2.2 (fun ek h => hk ek (List.mem_cons_of_mem _ h))
    simp only [InsertSL]
    split
    · rename_i hlt
      have hlt2 := (entryKeyCompare_lt x k).mp hlt
      refine ⟨?_, ?_⟩
      · refine List.pairwise_cons.mpr ⟨?_, ih1⟩
        intro a ha
        rcases List.mem_cons.mp (ih2.mem_iff.mp ha) with rfl | hmem
        · exact hlt2
        · exact hs2.1 a hmem
      · exact (List.Perm.cons x ih2).trans (List.Perm.swap k x l)
    · rename_i hnlt
      split
      · rename_i heq
        exact absurd ((entryKeyCompare_eq x k).mp heq) hx
      · refine ⟨?_, List.Perm.refl _⟩
        have hgt : k.column < x.column := by
          have : ¬ x.column < k.column := fun e => hnlt ((entryKeyCompare_lt x k).mpr e)
          omega
        refine List.pairwise_cons.mpr ⟨?_, hs⟩
        intro a ha
        rcases List.mem_cons.mp ha with rfl | hmem
        · exact hgt
        · exact lt_trans hgt (hs2.1 a hmem)

/-! ## Inversion of the assembly routines -/

theorem getRow_eq_ok {m : State} {r : Nat} {row : List entryKey} :
    getRow m r = .ok row ↔ 1 ≤ r ∧ m.sparseMatrix[r]? = some row := by
  unfold getRow
  split
  · simp; omega
  · rw [idx_eq_ok]
    constructor
    · intro h; exact ⟨by omega, h⟩
    · intro h; exact h.2

theorem getRow_rowOf {m : State} {r : Nat} {row : List entryKey}
    (h : getRow m r = .ok row) : rowOf m r = row ∧ 1 ≤ r ∧ r < m.sparseMatrix.length := by
  obtain ⟨h1, h2⟩ := getRow_eq_ok.mp h
  refine ⟨by simp [rowOf, List.getD_eq_getElem?_getD, h2], h1, ?_⟩
  exact (List.getElem?_eq_some_iff.mp h2).1

theorem addVolume_inv {a b : List ℚ} {i : Nat} {x : ℚ} (h : addVolume a i x = .ok b) :
    1 ≤ i ∧ i ≤ a.length ∧ b.length = a.length := by
  unfold addVolume at h
  split at h
  · simp at h
  · split at h
    · rename_i y hy
      have := idx_lt hy
      simp at h
      subst h
      simp
      omega
    · simp at h

theorem setEntry_inv {m m1 : State} {i j : Nat} {vol : ℚ} {v : List ℚ}
    (h : setEntry m i j vol v = .ok m1) :
    ∃ v2 mx, 1 ≤ i ∧ i ≤ m.voronoiVolume.length ∧ 1 ≤ j ∧ j ≤ m.voronoiVolume.length ∧
      v2.length = m.voronoiVolume.length ∧
      updateMaximum v m.maximum m.matrixEntrySize 0 = .ok mx ∧
      setEntryBody { m with voronoiVolume := v2, maximum := mx } i j v = .ok m1 := by
  unfold setEntry at h
  split at h
  · simp at h
  · rename_i v1 h1
    split at h
    · simp at h
    · rename_i v2 h2
      split at h
      · simp at h
      · rename_i mx h3
        obtain ⟨a1, a2, a3⟩ := addVolume_inv h1
        obtain ⟨b1, b2, b3⟩ := addVolume_inv h2
        exact ⟨v2, mx, a1, a2, b1, by omega, by omega, h3, h⟩

theorem setEntryBody_inv {m m1 : State} {i j : Nat} {v : List ℚ}
    (h : setEntryBody m i j v = .ok m1) :
    ∃ rowj, getRow m j = .ok rowj ∧
      ((∃ p, SearchSL entryKeyCompare rowj ⟨i, 0⟩ = some p ∧
          setEntryUpdate m i j p v = .ok m1) ∨
       (SearchSL entryKeyCompare rowj ⟨i, 0⟩ = none ∧ i ≠ j ∧
          zeroVector m v = .ok true ∧ m1 = m) ∨
       (SearchSL entryKeyCompare rowj ⟨i, 0⟩ = none ∧ i ≠ j ∧
          zeroVector m v = .ok false ∧ setEntryInsertPair m i j v = .ok m1) ∨
       (SearchSL entryKeyCompare rowj ⟨i, 0⟩ = none ∧ i = j ∧
          setEntryInsertDiagonal m i j v = .ok m1)) := by
  unfold setEntryBody at h
  split at h
  · simp at h
  · rename_i rowj hrow
    refine ⟨rowj, hrow, ?_⟩
    split at h
    · rename_i p hp
      exact Or.inl ⟨p, hp, h⟩
    · rename_i hn
      split at h
      · rename_i hij
        split at h
        · simp at h
        · rename_i hz
          simp at h
          exact Or.inr (Or.inl ⟨hn, hij, hz, h.symm⟩)
        · rename_i hz
          exact Or.inr (Or.inr (Or.inl ⟨hn, hij, hz, h⟩))
      · rename_i hij
        exact Or.inr (Or.inr (Or.inr ⟨hn, not_not.mp hij, h⟩))

theorem setInfo_inv {rows rows1 : List (List entryKey)} {r p newec : Nat}
    (h : setInfo rows r p newec = .ok rows1) :
    ∃ row ek, rows[r]? = some row ∧ row[p]? = some ek ∧
      rows1 = rows.set r (row.set p { ek with info := newec }) := by
  unfold setInfo at h
  split at h
  · simp at h
  · rename_i row hrow
    split at h
    · rename_i ek hek
      simp at h
      exact ⟨row, ek, idx_eq_ok.mp hrow, idx_eq_ok.mp hek, h.symm⟩
    · simp at h

theorem entryComponentCreate_inv {m m1 : State} {v : List ℚ} {count : Int} {ec : Nat}
    (h : entryComponentCreate m v count = .ok (m1, ec)) :
    m.matrixEntrySize ≤ v.length ∧ ec = m.heap.length ∧
      m1 = { m with heap := m.heap ++
        [{ value := v.take m.matrixEntrySize, entryNum := none,
           refCount := count, freed := false }] } := by
  unfold entryComponentCreate at h
  split at h
  · simp at h
  · simp at h
    exact ⟨by omega, h.2.symm, h.1.symm⟩

theorem insertKey_inv {m m1 : State} {r : Nat} {k : entryKey}
    (h : insertKey m r k = .ok m1) :
    ∃ row, getRow m r = .ok row ∧
      m1 = { m with sparseMatrix := m.sparseMatrix.set r (InsertSL entryKeyCompare row k) } := by
  unfold insertKey at h
  split at h
  · rename_i row hrow
    simp at h
    exact ⟨row, hrow, h.symm⟩
  · simp at h

theorem incrCount_inv {a b : List Nat} {i : Nat} (h : incrCount a i = .ok b) :
    i < a.length ∧ b = a.set i (a.getD i 0 + 1) := by
  unfold incrCount at h
  split at h
  · rename_i c hc
    have hlt := idx_lt hc
    rw [idx_eq_ok] at hc
    simp at h
    refine ⟨hlt, ?_⟩
    simp [List.getD_eq_getElem?_getD, hc, h]
  · simp at h

theorem setEntryUpdate_inv {m m1 : State} {i j p : Nat} {v : List ℚ}
    (h : setEntryUpdate m i j p v = .ok m1) :
    ∃ rowi rowj entryMat m2 p2 rows1 rows2,
      getRow m i = .ok rowi ∧ getRow m j = .ok rowj ∧ rowj[p]? = some entryMat ∧
      releaseRecord m entryMat.info = .ok m2 ∧ m2.matrixEntrySize ≤ v.length ∧
      SearchSL entryKeyCompare rowi ⟨i, 0⟩ = some p2 ∧
      setInfo m2.sparseMatrix j p m2.heap.length = .ok rows1 ∧
      setInfo rows1 i p2 m2.heap.length = .ok rows2 ∧
      m1 = { m2 with
        heap := m2.heap ++ [{ value := v.take m2.matrixEntrySize, entryNum := none,
                              refCount := 1, freed := false }],
        sparseMatrix := rows2 } := by
  unfold setEntryUpdate at h
  split at h
  · rename_i rowi rowj hi hj
    simp only at h
    split at h
    · simp at h
    · rename_i entryMat hem
      split at h
      · simp at h
      · rename_i m2 hrel
        split at h
        · simp at h
        · rename_i m3 newec hcr
          obtain ⟨c1, c2, c3⟩ := entryComponentCreate_inv hcr
          subst c2 c3
          split at h
          · simp at h
          · rename_i rows1 hr1
            split at h
            · simp at h
            · rename_i p2 hp2
              split at h
              · rename_i rows2 hr2
                simp at h
                exact ⟨rowi, rowj, entryMat, m2, p2, rows1, rows2, hi, hj,
                  idx_eq_ok.mp hem, hrel, c1, hp2, hr1, hr2, h.symm⟩
              · simp at h
  · simp at h
  · simp at h

theorem rowSorted_iff (row : List entryKey) :
    RowSorted row ↔ (row.map (·.column)).Pairwise (· < ·) := by
  unfold RowSorted
  rw [List.pairwise_map]

theorem freeRecord_inv {heap h : List entryComponent} {p : Nat}
    (hf : freeRecord heap p = .ok h) :
    ∃ ec, heap[p]? = some ec ∧ ec.freed = false ∧ h = heap.set p { ec with freed := true } := by
  unfold freeRecord deref at hf
  split at hf
  · rename_i ec hd
    split at hd
    · simp at hd
    · rename_i ec2 hec
      split at hd
      · simp at hd
      · rename_i hfr
        simp at hd hf
        subst hd
        exact ⟨ec2, hec, by simpa using hfr, hf.symm⟩
  · simp at hf

theorem deref_eq_ok {heap : List entryComponent} {p : Nat} {ec : entryComponent} :
    deref heap p = .ok ec ↔ heap[p]? = some ec ∧ ec.freed = false := by
  unfold deref
  split
  · rename_i h; simp [h]
  · rename_i ec2 h
    split
    · rename_i hfr
      simp [h]
      intro e; subst e; simpa using hfr
    · rename_i hfr
      simp [h]
      intro e; subst e; simpa using hfr

theorem releaseCompressed_frame {m m1 : State} {ec : Nat}
    (h : releaseCompressed m ec = .ok m1) :
    m1 = { m with heap := m1.heap, compressList := m1.compressList } := by
  unfold releaseCompressed at h
  split at h
  · simp at h
  · split at h
    · split at h
      · simp at h
      · simp at h; subst h; rfl
      · split at h
        · simp at h; subst h; rfl
        · simp at h
    · simp at h; subst h; rfl

theorem releaseRecord_frame {m m1 : State} {ec : Nat}
    (h : releaseRecord m ec = .ok m1) :
    m1 = { m with heap := m1.heap, compressList := m1.compressList } := by
  unfold releaseRecord at h
  split at h
  · exact releaseCompressed_frame h
  · split at h
    · simp at h; subst h; rfl
    · simp at h

theorem entryKeyCreateInfo_frame {m m1 : State} {v : List ℚ} {ec : Nat}
    (h : entryKeyCreateInfo m v = .ok (m1, ec)) :
    m1 = { m with heap := m1.heap, compressList := m1.compressList } := by
  unfold entryKeyCreateInfo at h
  split at h
  · split at h
    · simp at h
    · split at h
      · simp at h; rw [← h.1]
      · simp at h
    · split at h
      · simp at h
      · rename_i m2 ec2 hc
        obtain ⟨_, _, c3⟩ := entryComponentCreate_inv hc
        split at h
        · simp at h; rw [← h.1, c3]
        · simp at h
  · obtain ⟨_, _, c3⟩ := entryComponentCreate_inv h
    rw [c3]

theorem setEntryInsertPair_inv {m m1 : State} {i j : Nat} {v : List ℚ}
    (h : setEntryInsertPair m i j v = .ok m1) :
    ∃ m2 info rowj rowi,
      i < m.ncon_row.length ∧ j < m.ncon_row.length ∧
      entryKeyCreateInfo { m with ncon_row :=
        ((m.ncon_row.set i (m.ncon_row.getD i 0 + 1)).set j
          ((m.ncon_row.set i (m.ncon_row.getD i 0 + 1)).getD j 0 + 1)) } v = .ok (m2, info) ∧
      getRow m j = .ok rowj ∧
      getRow { m with sparseMatrix :=
        (m.sparseMatrix.set j (InsertSL entryKeyCompare rowj ⟨i, info⟩)) } i = .ok rowi ∧
      m1 = { m2 with sparseMatrix :=
        ((m.sparseMatrix.set j (InsertSL entryKeyCompare rowj ⟨i, info⟩)).set i
          (InsertSL entryKeyCompare rowi ⟨j, info⟩)) } := by
  unfold setEntryInsertPair at h
  split at h
  · simp at h
  · rename_i c1 h1
    split at h
    · simp at h
    · rename_i c2 h2
      obtain ⟨a1, a2⟩ := incrCount_inv h1
      obtain ⟨b1, b2⟩ := incrCount_inv h2
      subst a2 b2
      split at h
      · simp at h
      · rename_i m2 info hc
        have hfr := entryKeyCreateInfo_frame hc
        split at h
        · simp at h
        · rename_i m3 h3
          obtain ⟨rowj, hj, e3⟩ := insertKey_inv h3
          obtain ⟨rowi, hi, e4⟩ := insertKey_inv h
          have hsm : m2.sparseMatrix = m.sparseMatrix := by rw [hfr]
          have hj2 : getRow m j = .ok rowj := by
            rw [getRow_eq_ok] at hj ⊢; rw [← hsm]; exact hj
          have hi2 : getRow { m with sparseMatrix :=
              (m.sparseMatrix.set j (InsertSL entryKeyCompare rowj ⟨i, info⟩)) } i = .ok rowi := by
            rw [getRow_eq_ok] at hi ⊢
            rw [e3, hsm] at hi
            exact hi
          refine ⟨m2, info, rowj, rowi, a1, by simpa using b1, hc, hj2, hi2, ?_⟩
          rw [e4, e3, hsm]

theorem setEntryInsertDiagonal_inv {m m1 : State} {i j : Nat} {v : List ℚ}
    (h : setEntryInsertDiagonal m i j v = .ok m1) :
    ∃ m2 info rowj,
      i < m.ncon_row.length ∧
      entryKeyCreateInfo { m with ncon_row := m.ncon_row.set i (m.ncon_row.getD i 0 + 1) } v
        = .ok (m2, info) ∧
      getRow m j = .ok rowj ∧
      m1 = { m2 with sparseMatrix :=
        m.sparseMatrix.set j (InsertSL entryKeyCompare rowj ⟨i, info⟩) } := by
  unfold setEntryInsertDiagonal at h
  split at h
  · simp at h
  · rename_i c1 h1
    obtain ⟨a1, a2⟩ := incrCount_inv h1
    subst a2
    split at h
    · simp at h
    · rename_i m2 info hc
      have hfr := entryKeyCreateInfo_frame hc
      obtain ⟨rowj, hj, e3⟩ := insertKey_inv h
      have hsm : m2.sparseMatrix = m.sparseMatrix := by rw [hfr]
      have hj2 : getRow m j = .ok rowj := by
        rw [getRow_eq_ok] at hj ⊢; rw [← hsm]; exact hj
      refine ⟨m2, info, rowj, a1, hc, hj2, ?_⟩
      rw [e3, hsm]

/-! ## The structural invariant -/

theorem colsOf_insert {row : List entryKey} {k : entryKey}
    (hs : (row.map (·.column)).Pairwise (· < ·)) (hk : k.column ∉ row.map (·.column)) :
    ((InsertSL entryKeyCompare row k).map (·.column)).Pairwise (· < ·) ∧
      ((InsertSL entryKeyCompare row k).map (·.column)).Perm (k.column :: row.map (·.column)) := by
  have hk2 : ∀ ek ∈ row, ek.column ≠ k.column := by
    intro ek hek e
    exact hk (List.mem_map.mpr ⟨ek, hek, e⟩)
  obtain ⟨h1, h2⟩ := InsertSL_fresh ((rowSorted_iff row).mpr hs) hk2
  exact ⟨(rowSorted_iff _).mp h1, by simpa using h2.map (·.column)⟩

theorem search_none_not_mem {m : State} {j i : Nat} {rowj : List entryKey} (hw : WF m)
    (hrow : getRow m j = .ok rowj)
    (hn : SearchSL entryKeyCompare rowj ⟨i, 0⟩ = none) : i ∉ colsOf m j := by
  have hr := (getRow_rowOf hrow).1
  intro hmem
  rw [colsOf, hr] at hmem
  obtain ⟨ek, hek, hc⟩ := List.mem_map.mp hmem
  have hs : RowSorted rowj := by
    rw [rowSorted_iff]; have := hw.sorted j; rwa [colsOf, hr] at this
  exact SearchSL_none hs hn ek hek hc

theorem search_some_mem {m : State} {j i p : Nat} {rowj : List entryKey}
    (hrow : getRow m j = .ok rowj)
    (hn : SearchSL entryKeyCompare rowj ⟨i, 0⟩ = some p) : i ∈ colsOf m j := by
  have hr := (getRow_rowOf hrow).1
  obtain ⟨ek, h1, h2⟩ := SearchSL_some hn
  rw [colsOf, hr]
  exact List.mem_map.mpr ⟨ek, List.mem_iff_getElem?.mpr ⟨_, h1⟩, h2⟩

theorem WF_of_same_cols {m m1 : State} (hw : WF m)
    (hneq : m1.neq = m.neq) (hlen : m1.sparseMatrix.length = m.sparseMatrix.length)
    (hvol : m1.voronoiVolume.length = m.voronoiVolume.length)
    (hncon : m1.ncon_row = m.ncon_row) (hcols : ∀ r, colsOf m1 r = colsOf m r) : WF m1 where
  len_rows := by rw [hlen, hneq, hw.len_rows]
  len_ncon := by rw [hncon, hneq, hw.len_ncon]
  len_vol := by rw [hvol, hneq, hw.len_vol]
  row0 := by rw [hcols, hw.row0]
  sorted := fun r => by rw [hcols]; exact hw.sorted r
  sym := fun r c h => by rw [hcols] at h ⊢; exact hw.sym r c h
  count := fun r => by rw [hcols, hncon]; exact hw.count r

theorem setInfo_cols {rows rows1 : List (List entryKey)} {r p newec : Nat}
    (h : setInfo rows r p newec = .ok rows1) :
    rows1.length = rows.length ∧
      ∀ r1, (rows1.getD r1 []).map (·.column) = (rows.getD r1 []).map (·.column) := by
  obtain ⟨row, ek, h1, h2, h3⟩ := setInfo_inv h
  subst h3
  refine ⟨by simp, ?_⟩
  intro r1
  rw [getD_set]
  split
  · rename_i hc
    obtain ⟨rfl, _⟩ := hc
    have : rows.getD r [] = row := by simp [List.getD_eq_getElem?_getD, h1]
    rw [this]
    apply List.ext_getElem?
    intro n
    simp only [List.getElem?_map, List.getElem?_set]
    split
    · rename_i hpn
      subst hpn
      split
      · simp [h2]
      · rename_i hlt
        simp [List.getElem?_eq_none (not_lt.mp hlt)]
    · rfl
  · rfl

theorem WF_setEntryUpdate {m m1 : State} {i j p : Nat} {v : List ℚ} (hw : WF m)
    (h : setEntryUpdate m i j p v = .ok m1) : WF m1 := by
  obtain ⟨rowi, rowj, entryMat, m2, p2, rows1, rows2, hi, hj, hem, hrel, hlen, hp2, hr1, hr2,
    rfl⟩ := setEntryUpdate_inv h
  have hfr := releaseRecord_frame hrel
  have hsm : m2.sparseMatrix = m.sparseMatrix := by rw [hfr]
  have hn : m2.neq = m.neq := by rw [hfr]
  have hnc : m2.ncon_row = m.ncon_row := by rw [hfr]
  have hv : m2.voronoiVolume = m.voronoiVolume := by rw [hfr]
  obtain ⟨l1, c1⟩ := setInfo_cols hr1
  obtain ⟨l2, c2⟩ := setInfo_cols hr2
  refine WF_of_same_cols hw hn ?_ (by simp [hv]) hnc ?_
  · simp [l2, l1, hsm]
  · intro r
    simp only [colsOf, rowOf]
    rw [c2, c1, hsm]

theorem rowOf_eq_of_getElem? {m : State} {r : Nat} {row : List entryKey}
    (h : m.sparseMatrix[r]? = some row) : rowOf m r = row := by
  simp [rowOf, List.getD_eq_getElem?_getD, h]

theorem WF_setEntryInsertPair {m m1 : State} {i j : Nat} {v : List ℚ} (hw : WF m)
    (hij : i ≠ j) (hfresh : i ∉ colsOf m j)
    (h : setEntryInsertPair m i j v = .ok m1) : WF m1 := by
  obtain ⟨m2, info, rowj, rowi, hi, hj, hc, hrj, hri, rfl⟩ := setEntryInsertPair_inv h
  have hfr := entryKeyCreateInfo_frame hc
  have hn : m2.neq = m.neq := by rw [hfr]
  have hnc : m2.ncon_row = (m.ncon_row.set i (m.ncon_row.getD i 0 + 1)).set j
      ((m.ncon_row.set i (m.ncon_row.getD i 0 + 1)).getD j 0 + 1) := by rw [hfr]
  have hv : m2.voronoiVolume = m.voronoiVolume := by rw [hfr]
  obtain ⟨ej, hj1, hjl⟩ := getRow_rowOf hrj
  obtain ⟨hi1, hi2⟩ := getRow_eq_ok.mp hri
  simp only [List.getElem?_set, if_neg (Ne.symm hij)] at hi2
  have ei : rowOf m i = rowi := rowOf_eq_of_getElem? hi2
  have hil : i < m.sparseMatrix.length := (List.getElem?_eq_some_iff.mp hi2).1
  have hfi : j ∉ colsOf m i := fun hm => hfresh (hw.sym i j hm)
  have hcj := colsOf_insert (k := ⟨i, info⟩) (by have := hw.sorted j; rwa [colsOf, ej] at this)
    (by rw [colsOf, ej] at hfresh; exact hfresh)
  have hci := colsOf_insert (k := ⟨j, info⟩) (by have := hw.sorted i; rwa [colsOf, ei] at this)
    (by rw [colsOf, ei] at hfi; exact hfi)
  have hcols : ∀ r, colsOf
      { m2 with sparseMatrix :=
        ((m.sparseMatrix.set j (InsertSL entryKeyCompare rowj ⟨i, info⟩)).set i
          (InsertSL entryKeyCompare rowi ⟨j, info⟩)) } r =
      if i = r then (InsertSL entryKeyCompare rowi ⟨j, info⟩).map (·.column)
      else if j = r then (InsertSL entryKeyCompare rowj ⟨i, info⟩).map (·.column)
      else colsOf m r := by
    intro r
    simp only [colsOf, rowOf, getD_set, List.length_set, hil, hjl, and_true]
    split
    · rfl
    · split <;> rfl
  have hmem : ∀ r c, c ∈ colsOf
      { m2 with sparseMatrix :=
        ((m.sparseMatrix.set j (InsertSL entryKeyCompare rowj ⟨i, info⟩)).set i
          (InsertSL entryKeyCompare rowi ⟨j, info⟩)) } r ↔
      c ∈ colsOf m r ∨ (r = i ∧ c = j) ∨ (r = j ∧ c = i) := by
    intro r c
    rw [hcols]
    by_cases e : i = r
    · subst e
      rw [if_pos rfl, hci.2.mem_iff, List.mem_cons, ← ei]
      simp only [colsOf]
      tauto
    · by_cases e2 : j = r
      · subst e2
        rw [if_neg e, if_pos rfl, hcj.2.mem_iff, List.mem_cons, ← ej]
        simp only [colsOf]
        tauto
      · rw [if_neg e, if_neg e2]
        have e3 : ¬ r = i := fun h => e h.symm
        have e4 : ¬ r = j := fun h => e2 h.symm
        tauto
  refine ⟨?_, ?_, ?_, ?_, ?_, ?_, ?_⟩
  · simp [hn, hw.len_rows]
  · simp [hn, hnc, hw.len_ncon]
  · simp [hn, hv, hw.len_vol]
  · rw [hcols]
    have h1 : ¬ i = 0 := by omega
    have h2 : ¬ j = 0 := by omega
    simp [h1, h2, hw.row0]
  · intro r
    rw [hcols]
    split
    · exact hci.1
    · split
      · exact hcj.1
      · exact hw.sorted r
  · intro r c hc
    rw [hmem] at hc ⊢
    rcases hc with h | ⟨h1, h2⟩ | ⟨h1, h2⟩
    · exact Or.inl (hw.sym r c h)
    · exact Or.inr (Or.inr ⟨h2, h1⟩)
    · exact Or.inr (Or.inl ⟨h2, h1⟩)
  · intro r
    rw [hcols]
    show m2.ncon_row.getD r 0 = _
    rw [hnc]
    simp only [getD_set, List.length_set, hi, hj, and_true]
    by_cases e : i = r
    · subst e
      rw [if_pos rfl, if_neg (Ne.symm hij), if_pos rfl, hci.2.length_eq, hw.count,
        List.length_cons, ← ei, colsOf]
    · by_cases e2 : j = r
      · subst e2
        rw [if_neg e, if_pos rfl, if_pos rfl, if_neg e, hcj.2.length_eq, hw.count,
          List.length_cons, ← ej, colsOf]
      · rw [if_neg e, if_neg e2, if_neg e2, if_neg e, hw.count]

theorem WF_setEntryInsertDiagonal {m m1 : State} {i j : Nat} {v : List ℚ} (hw : WF m)
    (hij : i = j) (hfresh : i ∉ colsOf m j)
    (h : setEntryInsertDiagonal m i j v = .ok m1) : WF m1 := by
  subst hij
  obtain ⟨m2, info, rowj, hi, hc, hrj, rfl⟩ := setEntryInsertDiagonal_inv h
  have hfr := entryKeyCreateInfo_frame hc
  have hn : m2.neq = m.neq := by rw [hfr]
  have hnc : m2.ncon_row = m.ncon_row.set i (m.ncon_row.getD i 0 + 1) := by rw [hfr]
  have hv : m2.voronoiVolume = m.voronoiVolume := by rw [hfr]
  obtain ⟨ej, hj1, hjl⟩ := getRow_rowOf hrj
  have hcj := colsOf_insert (k := ⟨i, info⟩) (by have := hw.sorted i; rwa [colsOf, ej] at this)
    (by rw [colsOf, ej] at hfresh; exact hfresh)
  have hcols : ∀ r, colsOf
      { m2 with sparseMatrix :=
        (m.sparseMatrix.set i (InsertSL entryKeyCompare rowj ⟨i, info⟩)) } r =
      if i = r then (InsertSL entryKeyCompare rowj ⟨i, info⟩).map (·.column)
      else colsOf m r := by
    intro r
    simp only [colsOf, rowOf, getD_set, hjl, and_true]
    split <;> rfl
  have hmem : ∀ r c, c ∈ colsOf
      { m2 with sparseMatrix :=
        (m.sparseMatrix.set i (InsertSL entryKeyCompare rowj ⟨i, info⟩)) } r ↔
      c ∈ colsOf m r ∨ (r = i ∧ c = i) := by
    intro r c
    rw [hcols]
    by_cases e : i = r
    · subst e
      rw [if_pos rfl, hcj.2.mem_iff, List.mem_cons, ← ej]
      simp only [colsOf]
      tauto
    · rw [if_neg e]
      have e3 : ¬ r = i := fun h => e h.symm
      tauto
  refine ⟨?_, ?_, ?_, ?_, ?_, ?_, ?_⟩
  · simp [hn, hw.len_rows]
  · simp [hn, hnc, hw.len_ncon]
  · simp [hn, hv, hw.len_vol]
  · rw [hcols]
    have h1 : ¬ i = 0 := by omega
    simp [h1, hw.row0]
  · intro r
    rw [hcols]
    split
    · exact hcj.1
    · exact hw.sorted r
  · intro r c hc
    rw [hmem] at hc ⊢
    rcases hc with h | ⟨h1, h2⟩
    · exact Or.inl (hw.sym r c h)
    · exact Or.inr ⟨h2, h1⟩
  · intro r
    rw [hcols]
    show m2.ncon_row.getD r 0 = _
    rw [hnc]
    simp only [getD_set, hi, and_true]
    by_cases e : i = r
    · subst e
      rw [if_pos rfl, if_pos rfl, hcj.2.length_eq, hw.count, List.length_cons, ← ej, colsOf]
    · rw [if_neg e, if_neg e, hw.count]

theorem WF_setEntryBody {m m1 : State} {i j : Nat} {v : List ℚ} (hw : WF m)
    (h : setEntryBody m i j v = .ok m1) : WF m1 := by
  obtain ⟨rowj, hrow, hcase⟩ := setEntryBody_inv h
  rcases hcase with ⟨p, _, hu⟩ | ⟨_, _, _, rfl⟩ | ⟨hn, hij, _, hp⟩ | ⟨hn, hij, hd⟩
  · exact WF_setEntryUpdate hw hu
  · exact hw
  · exact WF_setEntryInsertPair hw hij (search_none_not_mem hw hrow hn) hp
  · exact WF_setEntryInsertDiagonal hw hij (search_none_not_mem hw hrow hn) hd

theorem WF_setEntry {m m1 : State} {i j : Nat} {vol : ℚ} {v : List ℚ} (hw : WF m)
    (h : setEntry m i j vol v = .ok m1) : WF m1 := by
  obtain ⟨v2, mx, _, _, _, _, hv, _, hb⟩ := setEntry_inv h
  have hw0 : WF { m with voronoiVolume := v2, maximum := mx } :=
    WF_of_same_cols hw rfl rfl hv rfl (fun _ => rfl)
  exact WF_setEntryBody hw0 hb

theorem WF_setDiagonalEntriesLoop :
    ∀ (n i : Nat) (m m1 : State), WF m → setDiagonalEntriesLoop n i m = .ok m1 → WF m1 := by
  intro n
  induction n with
  | zero =>
    intro i m m1 hw h
    simp [setDiagonalEntriesLoop] at h
    rw [← h]; exact hw
  | succ n ih =>
    intro i m m1 hw h
    simp only [setDiagonalEntriesLoop] at h
    split at h
    · simp at h
    · split at h
      · rename_i m2 h2
        exact ih (i + 1) m2 m1 (WF_setEntry hw h2) h
      · simp at h

theorem WF_step {m m1 : State} {c : Call} (hw : WF m) (h : step m c = .ok m1) : WF m1 := by
  cases c with
  | setEntry i j vol v => exact WF_setEntry hw h
  | setDiagonalEntries => exact WF_setDiagonalEntriesLoop _ _ _ _ hw h

theorem WF_run : ∀ (cs : List Call) (m m1 : State), WF m → run m cs = .ok m1 → WF m1 := by
  intro cs
  induction cs with
  | nil =>
    intro m m1 hw h
    simp [run] at h
    rw [← h]; exact hw
  | cons c cs ih =>
    intro m m1 hw h
    simp only [run] at h
    split at h
    · rename_i m2 h2
      exact ih m2 m1 (WF_step hw h2) h
    · simp at h

theorem rowOf_create (g : State) (neq es : Nat) (c : Bool) (eps : ℚ) (r : Nat) :
    rowOf (createSparseMatrix g neq es c eps) r = [] := by
  simp only [rowOf, createSparseMatrix, List.getD_eq_getElem?_getD]
  cases h : (List.replicate (neq + 1) ([] : List entryKey))[r]? with
  | none => rfl
  | some x =>
    have := List.mem_iff_getElem?.mpr ⟨r, h⟩
    rw [List.mem_replicate] at this
    simp [this.2]

theorem WF_create (g : State) (neq es : Nat) (c : Bool) (eps : ℚ) :
    WF (createSparseMatrix g neq es c eps) where
  len_rows := by simp [createSparseMatrix]
  len_ncon := by simp [createSparseMatrix]; omega
  len_vol := by simp [createSparseMatrix]; omega
  row0 := by simp [colsOf, rowOf_create]
  sorted := fun r => by simp [colsOf, rowOf_create]
  sym := fun r c h => by simp [colsOf, rowOf_create] at h
  count := fun r => by
    simp only [colsOf, rowOf_create, List.map_nil, List.length_nil]
    simp only [createSparseMatrix, List.getD_eq_getElem?_getD]
    cases h : (List.replicate (1 + neq) 0)[r]? with
    | none => rfl
    | some x =>
      have := List.mem_iff_getElem?.mpr ⟨r, h⟩
      rw [List.mem_replicate] at this
      simp [this.2]

theorem setEntryBody_paramsOf {m m1 : State} {i j : Nat} {v : List ℚ}
    (h : setEntryBody m i j v = .ok m1) : paramsOf m1 = paramsOf m := by
  obtain ⟨rowj, hrow, hcase⟩ := setEntryBody_inv h
  rcases hcase with ⟨p, _, hu⟩ | ⟨_, _, _, rfl⟩ | ⟨hn, hij, _, hp⟩ | ⟨hn, hij, hd⟩
  · obtain ⟨rowi, rowj, entryMat, m2, p2, rows1, rows2, hi, hj, hem, hrel, hlen, hp2, hr1, hr2,
      rfl⟩ := setEntryUpdate_inv hu
    have hfr := releaseRecord_frame hrel
    rw [hfr]; rfl
  · rfl
  · obtain ⟨m2, info, rowj, rowi, hi, hj, hc, hrj, hri, rfl⟩ := setEntryInsertPair_inv hp
    have hfr := entryKeyCreateInfo_frame hc
    rw [hfr]; rfl
  · obtain ⟨m2, info, rowj, hi, hc, hrj, rfl⟩ := setEntryInsertDiagonal_inv hd
    have hfr := entryKeyCreateInfo_frame hc
    rw [hfr]; rfl

theorem setEntry_neq {m m1 : State} {i j : Nat} {vol : ℚ} {v : List ℚ}
    (h : setEntry m i j vol v = .ok m1) :
    m1.neq = m.neq ∧ m1.matrixEntrySize = m.matrixEntrySize ∧
      m1.compressionEnabled = m.compressionEnabled ∧ m1.epsilon = m.epsilon := by
  obtain ⟨v2, mx, _, _, _, _, hv, _, hb⟩ := setEntry_inv h
  have := setEntryBody_paramsOf hb
  simp only [paramsOf, Prod.mk.injEq] at this
  exact ⟨this.1, this.2.1, this.2.2.1, this.2.2.2.1⟩

theorem setDiagonalEntriesLoop_neq :
    ∀ (n i : Nat) (m m1 : State), setDiagonalEntriesLoop n i m = .ok m1 →
      m1.neq = m.neq ∧ m1.matrixEntrySize = m.matrixEntrySize ∧
      m1.compressionEnabled = m.compressionEnabled ∧ m1.epsilon = m.epsilon := by
  intro n
  induction n with
  | zero =>
    intro i m m1 h
    simp [setDiagonalEntriesLoop] at h
    rw [← h]; simp
  | succ n ih =>
    intro i m m1 h
    simp only [setDiagonalEntriesLoop] at h
    split at h
    · simp at h
    · split at h
      · rename_i m2 h2
        obtain ⟨a1, a2, a3, a4⟩ := ih (i + 1) m2 m1 h
        obtain ⟨b1, b2, b3, b4⟩ := setEntry_neq h2
        exact ⟨a1.trans b1, a2.trans b2, a3.trans b3, a4.trans b4⟩
      · simp at h

theorem step_neq {m m1 : State} {c : Call} (h : step m c = .ok m1) :
    m1.neq = m.neq ∧ m1.matrixEntrySize = m.matrixEntrySize ∧
      m1.compressionEnabled = m.compressionEnabled ∧ m1.epsilon = m.epsilon := by
  cases c with
  | setEntry i j vol v => exact setEntry_neq h
  | setDiagonalEntries => exact setDiagonalEntriesLoop_neq _ _ _ _ h

theorem run_neq : ∀ (cs : List Call) (m m1 : State), run m cs = .ok m1 →
    m1.neq = m.neq ∧ m1.matrixEntrySize = m.matrixEntrySize ∧
      m1.compressionEnabled = m.compressionEnabled ∧ m1.epsilon = m.epsilon := by
  intro cs
  induction cs with
  | nil =>
    intro m m1 h
    simp [run] at h
    rw [← h]; simp
  | cons c cs ih =>
    intro m m1 h
    simp only [run] at h
    split at h
    · rename_i m2 h2
      obtain ⟨a1, a2, a3, a4⟩ := ih m2 m1 h
      obtain ⟨b1, b2, b3, b4⟩ := step_neq h2
      exact ⟨a1.trans b1, a2.trans b2, a3.trans b3, a4.trans b4⟩
    · simp at h

theorem getRow_of_WF {m : State} (hw : WF m) {r : Nat} (h1 : 1 ≤ r) (h2 : r ≤ m.neq) :
    getRow m r = .ok (rowOf m r) := by
  rw [getRow_eq_ok]
  refine ⟨h1, ?_⟩
  have hlt : r < m.sparseMatrix.length := by rw [hw.len_rows]; omega
  simp [rowOf, List.getD_eq_getElem?_getD, List.getElem?_eq_getElem hlt]

theorem entryExists_eq {m : State} (hw : WF m) (i : Nat) {j : Nat} (h1 : 1 ≤ j)
    (h2 : j ≤ m.neq) : entryExists m i j = .ok (decide (i ∈ colsOf m j)) := by
  unfold entryExists
  rw [getRow_of_WF hw h1 h2]
  simp only [Except.ok.injEq]
  cases hs : SearchSL entryKeyCompare (rowOf m j) ⟨i, 0⟩ with
  | none =>
    have := search_none_not_mem hw (getRow_of_WF hw h1 h2) hs
    simp [this]
  | some p =>
    have := search_some_mem (getRow_of_WF hw h1 h2) hs
    simp [this]

/-- C2: after `createSparseMatrix` and any sequence of calls of the assembly
interface that returns, `entryExists(i,j)` and `entryExists(j,i)` give the same
answer for all `i ≠ j` in `1..neq`. -/
theorem entryExists_symmetric (g : State) (neq es : Nat) (c : Bool) (eps : ℚ)
    (calls : List Call) (m : State) (i j : Nat)
    (hrun : run (createSparseMatrix g neq es c eps) calls = .ok m)
    (hi1 : 1 ≤ i) (hi2 : i ≤ neq) (hj1 : 1 ≤ j) (hj2 : j ≤ neq) (_hij : i ≠ j) :
    ∃ b, entryExists m i j = .ok b ∧ entryExists m j i = .ok b := by
  have hw := WF_run _ _ _ (WF_create g neq es c eps) hrun
  have hn : m.neq = neq := (run_neq _ _ _ hrun).1
  refine ⟨decide (i ∈ colsOf m j), entryExists_eq hw i hj1 (by omega), ?_⟩
  rw [entryExists_eq hw j hi1 (by omega)]
  have : j ∈ colsOf m i ↔ i ∈ colsOf m j := ⟨hw.sym i j, hw.sym j i⟩
  simp [this]

/-- C5: after `createSparseMatrix` and any sequence of calls of the assembly
interface that returns, `ncon_row[k]` is the number of keys stored in row `k`,
for every `k` in `1..neq`. -/
theorem ncon_row_counts_row (g : State) (neq es : Nat) (c : Bool) (eps : ℚ)
    (calls : List Call) (m : State) (k : Nat)
    (hrun : run (createSparseMatrix g neq es c eps) calls = .ok m)
    (hk1 : 1 ≤ k) (hk2 : k ≤ neq) :
    ∃ row, getRow m k = .ok row ∧ m.ncon_row[k]? = some row.length := by
  have hw := WF_run _ _ _ (WF_create g neq es c eps) hrun
  have hn : m.neq = neq := (run_neq _ _ _ hrun).1
  refine ⟨rowOf m k, getRow_of_WF hw hk1 (by omega), ?_⟩
  have hlt : k < m.ncon_row.length := by rw [hw.len_ncon]; omega
  have := hw.count k
  rw [List.getD_eq_getElem?_getD, List.getElem?_eq_getElem hlt] at this
  rw [List.getElem?_eq_getElem hlt]
  simpa [colsOf] using this

/-- C6: on a matrix built by `createSparseMatrix` and a sequence of calls of the
assembly interface, `getmatrixsizes_` returns `ncon` equal to the sum of
`ncon_row[i]` over `i = 1..neq`, which is the total number of stored keys, and
`ncon_max` equal to the maximum of `ncon_row[i]` over `i = 1..neq`. -/
theorem getmatrixsizes_ncon_and_max (g : State) (neq es : Nat) (c : Bool) (eps : ℚ)
    (calls : List Call) (m m1 : State) (nw ncoefs ncon_max : Nat)
    (hrun : run (createSparseMatrix g neq es c eps) calls = .ok m)
    (hs : getmatrixsizes_ m = .ok (m1, nw, ncoefs, ncon_max)) :
    ncoefs = ∑ i in Finset.Icc 1 neq, m.ncon_row.getD i 0 ∧
    ncoefs = ∑ i in Finset.Icc 1 neq, (rowOf m i).length ∧
    m1.ncon = ncoefs ∧
    ncon_max = (Finset.Icc 1 neq).sup (fun i => m.ncon_row.getD i 0) ∧
    (∀ i, 1 ≤ i → i ≤ neq → m.ncon_row.getD i 0 ≤ ncon_max) ∧
    (1 ≤ neq → ∃ i, 1 ≤ i ∧ i ≤ neq ∧ m.ncon_row.getD i 0 = ncon_max) := by
  have hw := WF_run _ _ _ (WF_create g neq es c eps) hrun
  have hn : m.neq = neq := (run_neq _ _ _ hrun).1
  obtain ⟨h1, h2⟩ := getmatrixsizes_ncon hs
  rw [hn] at h1 h2
  refine ⟨h1, ?_, ?_, h2, ?_, ?_⟩
  · rw [h1]
    apply Finset.sum_congr rfl
    intro i _
    rw [hw.count, colsOf, List.length_map]
  · obtain ⟨_, m2, hm2, rfl, _⟩ := getmatrixsizes_inv hs
    show m2.ncon = ncoefs
    split at hm2
    · have := DoForSL_preserves (fun s => s.ncon) (fun k a s s1 h => by
        unfold assignEntryNumCompression at h
        split at h
        · simp at h
        · simp at h; subst h; rfl) _ _ _ _ hm2
      exact this
    · have := forRows_preserves (fun s => s.ncon) (fun k a s s1 h => by
        unfold assignEntryNumNoCompression at h
        split at h
        · split at h
          · simp at h
          · simp at h; subst h; rfl
        · simp at h; subst h; rfl) _ _ _ _ hm2
      exact this
  · intro i hi1 hi2
    rw [h2]
    exact Finset.le_sup (f := fun i => m.ncon_row.getD i 0) (Finset.mem_Icc.mpr ⟨hi1, hi2⟩)
  · intro hneq
    have hne : (Finset.Icc 1 neq).Nonempty := ⟨1, Finset.mem_Icc.mpr ⟨le_refl 1, hneq⟩⟩
    obtain ⟨i, hi, he⟩ := Finset.exists_mem_eq_sup (Finset.Icc 1 neq) hne
      (fun i => m.ncon_row.getD i 0)
    rw [Finset.mem_Icc] at hi
    exact ⟨i, hi.1, hi.2, by rw [h2, he]⟩

/-! ## Scenario S2 -/

theorem scenarioS2_run :
    run (createSparseMatrix initialState 2 1 false (1 / 10 ^ 12))
      [.setEntry 1 2 (1 / 2) [2], .setDiagonalEntries] = .ok scenarioS2 := by
  with_unfolding_all rfl

theorem entryExists_symmetric_witness :
    ∃ b, entryExists scenarioS2 1 2 = .ok b ∧ entryExists scenarioS2 2 1 = .ok b :=
  entryExists_symmetric initialState 2 1 false (1 / 10 ^ 12)
    [.setEntry 1 2 (1 / 2) [2], .setDiagonalEntries] scenarioS2 1 2 scenarioS2_run
    (by decide) (by decide) (by decide) (by decide) (by decide)

theorem ncon_row_counts_row_witness :
    ∃ row, getRow scenarioS2 2 = .ok row ∧ scenarioS2.ncon_row[2]? = some row.length :=
  ncon_row_counts_row initialState 2 1 false (1 / 10 ^ 12)
    [.setEntry 1 2 (1 / 2) [2], .setDiagonalEntries] scenarioS2 2 scenarioS2_run
    (by decide) (by decide)

theorem scenarioS2_sizes :
    getmatrixsizes_ scenarioS2 =
      .ok (scenarioS2Sized, 3, 4, 2) := by
  with_unfolding_all rfl

theorem getmatrixsizes_ncon_and_max_witness :
    4 = ∑ i in Finset.Icc 1 2, scenarioS2.ncon_row.getD i 0 ∧
    4 = ∑ i in Finset.Icc 1 2, (rowOf scenarioS2 i).length ∧
    scenarioS2Sized.ncon = 4 ∧
    2 = (Finset.Icc 1 2).sup (fun i => scenarioS2.ncon_row.getD i 0) ∧
    (∀ i, 1 ≤ i → i ≤ 2 → scenarioS2.ncon_row.getD i 0 ≤ 2) ∧
    (1 ≤ 2 → ∃ i, 1 ≤ i ∧ i ≤ 2 ∧ scenarioS2.ncon_row.getD i 0 = 2) :=
  getmatrixsizes_ncon_and_max initialState 2 1 false (1 / 10 ^ 12)
    [.setEntry 1 2 (1 / 2) [2], .setDiagonalEntries] scenarioS2 _ 3 4 2
    scenarioS2_run scenarioS2_sizes

theorem getentriesperrow_prefix_form_witness :
    ∃ m1, getentriesperrow_ scenarioS2Sized = .ok m1 ∧
      m1.ncon_row.length = scenarioS2Sized.neq + 1 ∧
      m1.ncon_row[0]? = some (scenarioS2Sized.neq + 1) ∧
      (∀ i, 1 ≤ i → i ≤ scenarioS2Sized.neq →
        ∃ a b c, m1.ncon_row[i]? = some a ∧ m1.ncon_row[i - 1]? = some b ∧
          scenarioS2Sized.ncon_row[i]? = some c ∧
          (a : ℤ) - b = c) ∧
      m1.ncon_row[scenarioS2Sized.neq]? =
        some (4 + scenarioS2Sized.neq + 1) :=
  getentriesperrow_prefix_form scenarioS2 _ 3 4 2 (by with_unfolding_all rfl) scenarioS2_sizes

/-! ## The maximum values and the zero vector -/

theorem getD_of_getElem? {α : Type} {a : List α} {k : Nat} {x d : α} (h : a[k]? = some x) :
    a.getD k d = x := by
  simp [List.getD_eq_getElem?_getD, h]

theorem getElem?_of_lt_getD {α : Type} {a : List α} {k : Nat} (d : α) (h : k < a.length) :
    a[k]? = some (a.getD k d) := by
  simp [List.getD_eq_getElem?_getD, List.getElem?_eq_getElem h]

theorem updateMaximum_spec (v : List ℚ) :
    ∀ (n i : Nat) (mx : List ℚ), i + n ≤ v.length → i + n ≤ mx.length →
      ∃ mx1, updateMaximum v mx n i = .ok mx1 ∧ mx1.length = mx.length ∧
        ∀ k, mx1.getD k 0 =
          if i ≤ k ∧ k < i + n then max (mx.getD k 0) |v.getD k 0| else mx.getD k 0 := by
  intro n
  induction n with
  | zero =>
    intro i mx _ _
    refine ⟨mx, rfl, rfl, ?_⟩
    intro k
    have : ¬ (i ≤ k ∧ k < i + 0) := by omega
    rw [if_neg this]
  | succ n ih =>
    intro i mx hv hm
    have hiv : i < v.length := by omega
    have him : i < mx.length := by omega
    obtain ⟨mx1, h1, h2, h3⟩ := ih (i + 1) (if |v[i]| > mx[i] then mx.set i |v[i]| else mx)
      (by omega) (by split; · simp; omega
                     · omega)
    refine ⟨mx1, ?_, ?_, ?_⟩
    · simp only [updateMaximum, idx_of_lt hiv, idx_of_lt him]
      exact h1
    · rw [h2]; split <;> simp
    · intro k
      rw [h3 k]
      have ev : v.getD i 0 = v[i] := getD_of_getElem? (List.getElem?_eq_getElem hiv)
      have em : mx.getD i 0 = mx[i] := getD_of_getElem? (List.getElem?_eq_getElem him)
      by_cases hk : k = i
      · subst hk
        have c1 : ¬ (k + 1 ≤ k ∧ k < k + 1 + n) := by omega
        have c2 : k ≤ k ∧ k < k + (n + 1) := by omega
        rw [if_neg c1, if_pos c2, ev, em]
        split
        · rename_i hgt
          rw [getD_set, if_pos ⟨rfl, him⟩, max_eq_right (le_of_lt hgt)]
        · rename_i hgt
          rw [em, max_eq_left (not_lt.mp hgt)]
      · have e1 : (if |v[i]| > mx[i] then mx.set i |v[i]| else mx).getD k 0 = mx.getD k 0 := by
          split
          · rw [getD_set, if_neg (fun h => hk h.1.symm)]
          · rfl
        rw [e1]
        by_cases hr : i + 1 ≤ k ∧ k < i + 1 + n
        · rw [if_pos hr, if_pos (by omega)]
        · rw [if_neg hr, if_neg (by omega)]

theorem zeroVectorLoop_true {mx v : List ℚ} {eps : ℚ} :
    ∀ (n i : Nat), zeroVectorLoop mx eps v n i = .ok true →
      ∀ k, i ≤ k → k < i + n →
        k < v.length ∧ k < mx.length ∧ |v.getD k 0| ≤ mx.getD k 0 * eps := by
  intro n
  induction n with
  | zero => intro i _ k h1 h2; omega
  | succ n ih =>
    intro i h k h1 h2
    simp only [zeroVectorLoop] at h
    split at h
    · rename_i x m hx hm
      split at h
      · simp at h
      · rename_i hle
        by_cases hk : k = i
        · subst hk
          refine ⟨idx_lt hx, idx_lt hm, ?_⟩
          rw [getD_of_getElem? (idx_eq_ok.mp hx), getD_of_getElem? (idx_eq_ok.mp hm)]
          exact not_lt.mp hle
        · exact ih (i + 1) h k (by omega) (by omega)
    · simp at h

theorem zeroVectorLoop_of_le {mx v : List ℚ} {eps : ℚ} :
    ∀ (n i : Nat), (∀ k, i ≤ k → k < i + n →
        k < v.length ∧ k < mx.length ∧ |v.getD k 0| ≤ mx.getD k 0 * eps) →
      zeroVectorLoop mx eps v n i = .ok true := by
  intro n
  induction n with
  | zero => intro i _; rfl
  | succ n ih =>
    intro i h
    obtain ⟨h1, h2, h3⟩ := h i (le_refl i) (by omega)
    simp only [zeroVectorLoop, idx_of_lt h1, idx_of_lt h2]
    rw [getD_of_getElem? (List.getElem?_eq_getElem h1),
      getD_of_getElem? (List.getElem?_eq_getElem h2)] at h3
    rw [if_neg (not_lt.mpr h3)]
    exact ih (i + 1) (fun k a b => h k (by omega) (by omega))

theorem addVolume_ok (a : List ℚ) {i : Nat} (x : ℚ) (h1 : 1 ≤ i) (h2 : i ≤ a.length) :
    ∃ b, addVolume a i x = .ok b ∧ b.length = a.length := by
  have hlt : i - 1 < a.length := by omega
  refine ⟨a.set (i - 1) (a[i - 1] + x), ?_, by simp⟩
  unfold addVolume
  rw [if_neg (by omega), idx_of_lt hlt]

theorem setEntry_maximum {m m1 : State} {i j : Nat} {vol : ℚ} {v : List ℚ}
    (h : setEntry m i j vol v = .ok m1) :
    updateMaximum v m.maximum m.matrixEntrySize 0 = .ok m1.maximum := by
  obtain ⟨v2, mx, _, _, _, _, hv, hm, hb⟩ := setEntry_inv h
  have := setEntryBody_paramsOf hb
  simp only [paramsOf, Prod.mk.injEq] at this
  rw [this.2.2.2.2.1]
  exact hm

theorem updateMaximum_inv (v : List ℚ) :
    ∀ (n i : Nat) (mx mx1 : List ℚ), updateMaximum v mx n i = .ok mx1 →
      i + n ≤ v.length ∧ i + n ≤ mx.length ∨ n = 0 := by
  intro n
  induction n with
  | zero => intro i mx mx1 _; exact Or.inr rfl
  | succ n ih =>
    intro i mx mx1 h
    simp only [updateMaximum] at h
    split at h
    · rename_i x m hx hm
      have h1 := idx_lt hx
      have h2 := idx_lt hm
      rcases ih _ _ _ h with ⟨a, b⟩ | rfl
      · left
        refine ⟨by omega, ?_⟩
        split at b
        · simp at b; omega
        · omega
      · left; omega
    · simp at h

theorem MaxNonneg_setEntry {m m1 : State} {i j : Nat} {vol : ℚ} {v : List ℚ}
    (hm : MaxNonneg m) (h : setEntry m i j vol v = .ok m1) : MaxNonneg m1 := by
  have hu := setEntry_maximum h
  intro k
  rcases updateMaximum_inv v _ _ _ _ hu with ⟨a, b⟩ | hz
  · obtain ⟨mx1, h1, _, h3⟩ := updateMaximum_spec v m.matrixEntrySize 0 m.maximum a b
    rw [hu] at h1
    simp only [Except.ok.injEq] at h1
    rw [h1, h3 k]
    split
    · exact le_trans (hm k) (le_max_left _ _)
    · exact hm k
  · rw [hz] at hu
    simp only [updateMaximum, Except.ok.injEq] at hu
    rw [← hu]
    exact hm k

theorem MaxNonneg_setDiagonalEntriesLoop :
    ∀ (n i : Nat) (m m1 : State), MaxNonneg m → setDiagonalEntriesLoop n i m = .ok m1 →
      MaxNonneg m1 := by
  intro n
  induction n with
  | zero =>
    intro i m m1 hw h
    simp [setDiagonalEntriesLoop] at h
    rw [← h]; exact hw
  | succ n ih =>
    intro i m m1 hw h
    simp only [setDiagonalEntriesLoop] at h
    split at h
    · simp at h
    · split at h
      · rename_i m2 h2
        exact ih (i + 1) m2 m1 (MaxNonneg_setEntry hw h2) h
      · simp at h

theorem MaxNonneg_run : ∀ (cs : List Call) (m m1 : State), MaxNonneg m → run m cs = .ok m1 →
    MaxNonneg m1 := by
  intro cs
  induction cs with
  | nil =>
    intro m m1 hw h
    simp [run] at h
    rw [← h]; exact hw
  | cons c cs ih =>
    intro m m1 hw h
    simp only [run] at h
    split at h
    · rename_i m2 h2
      refine ih m2 m1 ?_ h
      cases c with
      | setEntry i j vol v => exact MaxNonneg_setEntry hw h2
      | setDiagonalEntries => exact MaxNonneg_setDiagonalEntriesLoop _ _ _ _ hw h2
    · simp at h

theorem MaxNonneg_create (g : State) (neq es : Nat) (c : Bool) (eps : ℚ) :
    MaxNonneg (createSparseMatrix g neq es c eps) := by
  intro k
  simp only [createSparseMatrix, List.getD_eq_getElem?_getD]
  cases h : (List.replicate 4 ((1 : ℚ) / 10 ^ 30))[k]? with
  | none => simp
  | some x =>
    have := List.mem_iff_getElem?.mpr ⟨k, h⟩
    rw [List.mem_replicate] at this
    rw [this.2]
    simp only [Option.getD_some]
    positivity

theorem entryExists_false {m : State} {i j : Nat} (h : entryExists m i j = .ok false) :
    ∃ rowj, getRow m j = .ok rowj ∧ SearchSL entryKeyCompare rowj ⟨i, 0⟩ = none := by
  unfold entryExists at h
  split at h
  · rename_i row hrow
    refine ⟨row, hrow, ?_⟩
    simp only [Except.ok.injEq] at h
    cases hs : SearchSL entryKeyCompare row ⟨i, 0⟩ with
    | none => rfl
    | some p => simp [hs] at h
  · simp at h

/-- C9: on a matrix built by `createSparseMatrix` and a sequence of calls of the
assembly interface, for `i ≠ j` in `1..neq`, when the entry `(i,j)` does not
exist and `zeroVector(v)` holds on the state at the call, `setEntry(i,j,vol,v)`
returns, `entryExists(i,j)` and `entryExists(j,i)` are false afterwards, and
the rows and `ncon_row` are unchanged. -/
theorem zero_vector_suppressed (g : State) (neq es : Nat) (c : Bool) (eps : ℚ)
    (calls : List Call) (m : State) (i j : Nat) (vol : ℚ) (v : List ℚ)
    (hrun : run (createSparseMatrix g neq es c eps) calls = .ok m)
    (hi1 : 1 ≤ i) (hi2 : i ≤ neq) (hj1 : 1 ≤ j) (hj2 : j ≤ neq) (hij : i ≠ j)
    (hex : entryExists m i j = .ok false) (hz : zeroVector m v = .ok true) :
    ∃ m1, setEntry m i j vol v = .ok m1 ∧
      entryExists m1 i j = .ok false ∧ entryExists m1 j i = .ok false ∧
      m1.ncon_row = m.ncon_row ∧ m1.sparseMatrix = m.sparseMatrix := by
  have hw := WF_run _ _ _ (WF_create g neq es c eps) hrun
  have hmx := MaxNonneg_run _ _ _ (MaxNonneg_create g neq es c eps) hrun
  have hn : m.neq = neq := (run_neq _ _ _ hrun).1
  obtain ⟨rowj, hrow, hsearch⟩ := entryExists_false hex
  have hnot : i ∉ colsOf m j := search_none_not_mem hw hrow hsearch
  have hnot2 : j ∉ colsOf m i := fun h => hnot (hw.sym i j h)
  have hzl := zeroVectorLoop_true _ _ hz
  obtain ⟨v1, hv1, hl1⟩ := addVolume_ok m.voronoiVolume vol hi1 (by rw [hw.len_vol]; omega)
  obtain ⟨v2, hv2, hl2⟩ := addVolume_ok v1 vol hj1 (by rw [hl1, hw.len_vol]; omega)
  -- the loop over the maximum values returns
  have hmax : ∃ mx, updateMaximum v m.maximum m.matrixEntrySize 0 = .ok mx ∧
      zeroVectorLoop mx m.epsilon v m.matrixEntrySize 0 = .ok true := by
    by_cases hes : m.matrixEntrySize = 0
    · rw [hes]; exact ⟨m.maximum, rfl, rfl⟩
    · obtain ⟨a, b, _⟩ := hzl (m.matrixEntrySize - 1) (by omega) (by omega)
      obtain ⟨mx, h1, h2, h3⟩ := updateMaximum_spec v m.matrixEntrySize 0 m.maximum
        (by omega) (by omega)
      refine ⟨mx, h1, zeroVectorLoop_of_le _ _ ?_⟩
      intro k hk1 hk2
      obtain ⟨a, b, hle⟩ := hzl k hk1 hk2
      refine ⟨a, by omega, ?_⟩
      rw [h3 k, if_pos ⟨hk1, hk2⟩]
      rcases le_total |v.getD k 0| (m.maximum.getD k 0) with hc | hc
      · have e : max (m.maximum.getD k 0) |v.getD k 0| = m.maximum.getD k 0 := max_eq_left hc
        rw [e]; exact hle
      · have e : max (m.maximum.getD k 0) |v.getD k 0| = |v.getD k 0| := max_eq_right hc
        rw [e]
        have h0 := hmx k
        have hx : 0 ≤ |v.getD k 0| := abs_nonneg _
        rcases eq_or_lt_of_le hx with hx0 | hxpos
        · rw [← hx0]; simp
        · have heps : 1 ≤ m.epsilon := by
            by_contra hlt
            have hlt : m.epsilon < 1 := not_le.mp hlt
            have : m.maximum.getD k 0 * m.epsilon ≤ m.maximum.getD k 0 * 1 :=
              mul_le_mul_of_nonneg_left (le_of_lt hlt) h0
            rcases eq_or_lt_of_le h0 with hm0 | hmpos
            · rw [← hm0, zero_mul] at hle; linarith
            · have : m.maximum.getD k 0 * m.epsilon < m.maximum.getD k 0 * 1 :=
                mul_lt_mul_of_pos_left hlt hmpos
              linarith
          calc |v.getD k 0| = |v.getD k 0| * 1 := by ring
            _ ≤ |v.getD k 0| * m.epsilon := mul_le_mul_of_nonneg_left heps hx
  obtain ⟨mx, hmx1, hmx2⟩ := hmax
  have hrow0 : getRow { m with voronoiVolume := v2, maximum := mx } j = .ok rowj := hrow
  have hbody : setEntryBody { m with voronoiVolume := v2, maximum := mx } i j v =
      .ok { m with voronoiVolume := v2, maximum := mx } := by
    unfold setEntryBody
    rw [hrow0]
    simp only [hsearch, ne_eq, hij, not_false_eq_true, if_true]
    have : zeroVector { m with voronoiVolume := v2, maximum := mx } v = .ok true := hmx2
    rw [this]
  have hw0 : WF { m with voronoiVolume := v2, maximum := mx } :=
    WF_of_same_cols hw rfl rfl (by simp [hl2, hl1]) rfl (fun _ => rfl)
  refine ⟨{ m with voronoiVolume := v2, maximum := mx }, ?_, ?_, ?_, rfl, rfl⟩
  · unfold setEntry
    simp only [hv1, hv2, hmx1]
    exact hbody
  · rw [entryExists_eq hw0 i hj1 (by show j ≤ m.neq; omega)]
    have : i ∉ colsOf { m with voronoiVolume := v2, maximum := mx } j := hnot
    simp [this]
  · rw [entryExists_eq hw0 j hi1 (by show i ≤ m.neq; omega)]
    have : j ∉ colsOf { m with voronoiVolume := v2, maximum := mx } i := hnot2
    simp [this]

theorem zero_vector_suppressed_witness :
    ∃ m1, setEntry (createSparseMatrix initialState 2 1 false (1 / 10 ^ 12)) 1 2 0 [0] = .ok m1 ∧
      entryExists m1 1 2 = .ok false ∧ entryExists m1 2 1 = .ok false ∧
      m1.ncon_row = (createSparseMatrix initialState 2 1 false (1 / 10 ^ 12)).ncon_row ∧
      m1.sparseMatrix = (createSparseMatrix initialState 2 1 false (1 / 10 ^ 12)).sparseMatrix :=
  zero_vector_suppressed initialState 2 1 false (1 / 10 ^ 12) [] _ 1 2 0 [0] rfl
    (by decide) (by decide) (by decide) (by decide) (by decide)
    (by with_unfolding_all rfl) (by with_unfolding_all rfl)

/-! ## The replacement of an existing entry -/

/-- C3 (the code at the failing input): scenario S5, `setEntry(1,2,0,[1.0])`
then `setEntry(1,2,0,[2.0])` on a fresh 2x2 matrix, ends in a NULL dereference
with compression off and on: the second call looks up the other entry in row 1
at column 1, which is not there.  When the diagonal of row 1 is there, the
call returns and row 1 at column 2 and row 2 at column 1 hold different
records (2, which is freed, and 3). -/
theorem scenarioS5_replacement :
    run (createSparseMatrix initialState 2 1 false (1 / 10 ^ 12))
      [.setEntry 1 2 0 [1], .setEntry 1 2 0 [2]] = .error .nullDeref ∧
    run (createSparseMatrix initialState 2 1 true (1 / 10 ^ 12))
      [.setEntry 1 2 0 [1], .setEntry 1 2 0 [2]] = .error .nullDeref ∧
    (run (createSparseMatrix initialState 2 1 false (1 / 10 ^ 12))
      [.setDiagonalEntries, .setEntry 1 2 0 [1], .setEntry 1 2 0 [2]]).map
        (fun m => (m.sparseMatrix, m.heap.map (fun r => (r.value, r.freed)))) =
      .ok ([[], [⟨1, 3⟩, ⟨2, 2⟩], [⟨1, 3⟩, ⟨2, 1⟩]],
           [([0], false), ([0], false), ([1], true), ([2], false)]) := by
  refine ⟨?_, ?_, ?_⟩ <;> with_unfolding_all rfl

/-- C1 (the code at the failing input): on a 2x2 matrix without compression,
after `setDiagonalEntries(); setEntry(2,1,0,[5.0]); setEntry(2,1,0,[7.0])` the
diagonal key of row 2 points to the record of value 7 (its last set value is
0), the key of row 2 at column 1 still points to the freed record of value 5,
and `getmatrixsizes_` followed by `getmatrixpointers_` ends in a read of the
freed record. -/
theorem replaced_entry_extraction :
    (run (createSparseMatrix initialState 2 1 false (1 / 10 ^ 12))
      [.setDiagonalEntries, .setEntry 2 1 0 [5], .setEntry 2 1 0 [7]]).map
        (fun m => (m.sparseMatrix, m.heap.map (fun r => (r.value, r.freed)))) =
      .ok ([[], [⟨1, 0⟩, ⟨2, 3⟩], [⟨1, 2⟩, ⟨2, 3⟩]],
           [([0], false), ([0], false), ([5], true), ([7], false)]) ∧
    ((run (createSparseMatrix initialState 2 1 false (1 / 10 ^ 12))
      [.setDiagonalEntries, .setEntry 2 1 0 [5], .setEntry 2 1 0 [7]]).bind
        (fun m => (getmatrixsizes_ m).bind (fun r => getmatrixpointers_ r.1))) =
      .error .useAfterFree := by
  refine ⟨?_, ?_⟩ <;> with_unfolding_all rfl

/-- C4 (the code at the failing input): on a 3x3 matrix, after
`setEntry(1,3,0,[4.0])` the call `setEntry(3,1,0,[9.0])`, with both indices in
`1..3`, ends in a NULL dereference: the entry of row 1 at column 3 is found,
the second lookup is made in row 3 at column 3 and finds nothing. -/
theorem setEntry_null_dereference :
    entryExists (getOk initialState (run (createSparseMatrix initialState 3 1 false (1 / 10 ^ 12))
      [.setEntry 1 3 0 [4]])) 3 1 = .ok true ∧
    entryExists (getOk initialState (run (createSparseMatrix initialState 3 1 false (1 / 10 ^ 12))
      [.setEntry 1 3 0 [4]])) 3 3 = .ok false ∧
    run (createSparseMatrix initialState 3 1 false (1 / 10 ^ 12))
      [.setEntry 1 3 0 [4], .setEntry 3 1 0 [9]] = .error .nullDeref := by
  refine ⟨?_, ?_, ?_⟩ <;> with_unfolding_all rfl

/-! ## The traversals as folds over the list of positions -/

theorem DoForSL_eq_visitAll (f : entryKey → Nat → State → Except Fault State) (r : Nat) :
    ∀ (row : List entryKey) (m : State),
      DoForSL f row r m = visitAll f (row.map (fun ek => (r, ek))) m := by
  intro row
  induction row with
  | nil => intro m; rfl
  | cons x l ih =>
    intro m
    simp only [DoForSL, List.map_cons, visitAll]
    split
    · exact ih _
    · rfl

theorem visitAll_append (f : entryKey → Nat → State → Except Fault State) :
    ∀ (l1 l2 : List (Nat × entryKey)) (m : State),
      visitAll f (l1 ++ l2) m =
        match visitAll f l1 m with
        | .ok m1 => visitAll f l2 m1
        | .error e => .error e := by
  intro l1
  induction l1 with
  | nil => intro l2 m; rfl
  | cons x l ih =>
    intro l2 m
    simp only [List.cons_append, visitAll]
    split
    · exact ih _ _
    · rfl

theorem visitAll_preserves {β : Type} {f : entryKey → Nat → State → Except Fault State}
    (π : State → β) (hf : ∀ k a m m1, f k a m = .ok m1 → π m1 = π m) :
    ∀ (l : List (Nat × entryKey)) (m m1 : State), visitAll f l m = .ok m1 → π m1 = π m := by
  intro l
  induction l with
  | nil => intro m m1 h; simp [visitAll] at h; rw [h]
  | cons x l ih =>
    intro m m1 h
    simp only [visitAll] at h
    split at h
    · rename_i m2 h2
      rw [ih m2 m1 h, hf _ _ m m2 h2]
    · simp at h

theorem forRows_eq_visitAll {f : entryKey → Nat → State → Except Fault State}
    (hf : ∀ k a m m1, f k a m = .ok m1 → m1.sparseMatrix = m.sparseMatrix) :
    ∀ (n i : Nat) (m : State), 1 ≤ i → i + n ≤ m.sparseMatrix.length →
      forRows f n i m = visitAll f (flatFrom m.sparseMatrix n i) m := by
  intro n
  induction n with
  | zero => intro i m _ _; rfl
  | succ n ih =>
    intro i m hi hlen
    have hlt : i < m.sparseMatrix.length := by omega
    have hrow : getRow m i = .ok (m.sparseMatrix.getD i []) := by
      rw [getRow_eq_ok]
      exact ⟨hi, getElem?_of_lt_getD [] hlt⟩
    simp only [forRows, hrow, flatFrom, visitAll_append, DoForSL_eq_visitAll]
    split
    · rename_i m1 h1
      have hs := visitAll_preserves (fun s => s.sparseMatrix) hf _ _ _ h1
      simp only at hs
      rw [ih (i + 1) m1 (by omega) (by rw [hs]; omega), hs]
    · rfl

theorem mem_flatFrom {rows : List (List entryKey)} {r : Nat} {ek : entryKey} :
    ∀ (n i : Nat), (r, ek) ∈ flatFrom rows n i ↔ (i ≤ r ∧ r < i + n ∧ ek ∈ rows.getD r []) := by
  intro n
  induction n with
  | zero =>
    intro i
    simp only [flatFrom, List.not_mem_nil, false_iff]
    omega
  | succ n ih =>
    intro i
    simp only [flatFrom, List.mem_append, List.mem_map, Prod.mk.injEq, ih]
    constructor
    · rintro (⟨a, ha, rfl, rfl⟩ | ⟨h1, h2, h3⟩)
      · exact ⟨le_refl _, by omega, ha⟩
      · exact ⟨by omega, by omega, h3⟩
    · rintro ⟨h1, h2, h3⟩
      by_cases h : r = i
      · subst h
        exact Or.inl ⟨ek, h3, rfl, rfl⟩
      · exact Or.inr ⟨by omega, by omega, h3⟩

theorem flatFrom_sorted {rows : List (List entryKey)}
    (hs : ∀ r, RowSorted (rows.getD r [])) :
    ∀ (n i : Nat), (flatFrom rows n i).Pairwise posLt := by
  intro n
  induction n with
  | zero => intro i; simp [flatFrom]
  | succ n ih =>
    intro i
    simp only [flatFrom]
    rw [List.pairwise_append]
    refine ⟨?_, ih (i + 1), ?_⟩
    · rw [List.pairwise_map]
      exact (hs i).imp (fun h => Or.inr ⟨rfl, h⟩)
    · intro p hp q hq
      obtain ⟨a, _, rfl⟩ := List.mem_map.mp hp
      obtain ⟨r, ek⟩ := q
      have := (mem_flatFrom n (i + 1)).mp hq
      exact Or.inl (by show i < r; omega)

theorem assignEntryNumNoCompression_inv {ek : entryKey} {r : Nat} {m m1 : State}
    (h : assignEntryNumNoCompression ek r m = .ok m1) :
    (upper (r, ek) = true ∧ ∃ rec, m.heap[ek.info]? = some rec ∧ rec.freed = false ∧
        m1 = { m with heap := m.heap.set ek.info { rec with entryNum := some m.entryNumber },
                      entryNumber := m.entryNumber + 1 }) ∨
      (upper (r, ek) = false ∧ m1 = m) := by
  unfold assignEntryNumNoCompression at h
  split at h
  · rename_i hu
    split at h
    · simp at h
    · rename_i rec hrec
      simp only [Except.ok.injEq] at h
      obtain ⟨h1, h2⟩ := deref_eq_ok.mp hrec
      exact Or.inl ⟨by simp [upper]; exact hu, rec, h1, h2, h.symm⟩
  · rename_i hu
    simp only [Except.ok.injEq] at h
    exact Or.inr ⟨by simp [upper]; omega, h.symm⟩

theorem getElem?_set_self_of_lt {α : Type} {a : List α} {i : Nat} {x y : α}
    (h : a[i]? = some y) : (a.set i x)[i]? = some x := by
  have hlt : i < a.length := (List.getElem?_eq_some_iff.mp h).1
  simp [List.getElem?_set, hlt]

theorem assign_frame :
    ∀ (P : List (Nat × entryKey)) (m m1 : State),
      visitAll assignEntryNumNoCompression P m = .ok m1 →
      (∀ h : Nat, (m1.heap[h]?).map (·.freed) = (m.heap[h]?).map (·.freed)) ∧
      (∀ h : Nat, (∀ p ∈ P, upper p = true → p.2.info ≠ h) → m1.heap[h]? = m.heap[h]?) ∧
      m1.entryNumber = m.entryNumber + (P.filter upper).length := by
  intro P
  induction P with
  | nil =>
    intro m m1 h
    simp only [visitAll, Except.ok.injEq] at h
    subst h
    simp
  | cons p l ih =>
    intro m m1 h
    simp only [visitAll] at h
    split at h
    · rename_i m2 h2
      obtain ⟨a1, a2, a3⟩ := ih m2 m1 h
      rcases assignEntryNumNoCompression_inv h2 with ⟨hu, rec, hr1, hr2, rfl⟩ | ⟨hu, rfl⟩
      · refine ⟨?_, ?_, ?_⟩
        · intro x
          rw [a1 x]
          simp only [List.getElem?_set]
          split
          · rename_i e
            subst e
            split
            · simp [hr1]
            · rename_i hlt
              simp [List.getElem?_eq_none (not_lt.mp hlt)]
          · rfl
        · intro x hx
          rw [a2 x (fun q hq => hx q (List.mem_cons_of_mem _ hq))]
          have : p.2.info ≠ x := hx p (List.mem_cons_self _ _) hu
          simp [List.getElem?_set, this]
        · rw [a3]
          simp only [List.filter_cons, hu, if_true, List.length_cons]
          omega
      · refine ⟨a1, ?_, ?_⟩
        · intro x hx
          exact a2 x (fun q hq => hx q (List.mem_cons_of_mem _ hq))
        · rw [a3]
          simp [List.filter_cons, hu]
    · simp at h

theorem getEntryNumbers_inv {ek : entryKey} {r : Nat} {m m1 : State}
    (h : getEntryNumbers ek r m = .ok m1) :
    ∃ rec n, m.heap[ek.info]? = some rec ∧ rec.freed = false ∧ rec.entryNum = some n ∧
      m1 = { m with entryNumbers := m.entryNumbers ++ [n], entryCounter := m.entryCounter + 1 } := by
  unfold getEntryNumbers at h
  split at h
  · split at h
    · simp at h
    · rename_i rec hrec
      obtain ⟨h1, h2⟩ := deref_eq_ok.mp hrec
      split at h
      · simp at h
      · rename_i n hn
        simp only [Except.ok.injEq] at h
        exact ⟨rec, n, h1, h2, hn, h.symm⟩
  · simp at h

theorem pointers_spec :
    ∀ (P : List (Nat × entryKey)) (m m1 : State),
      visitAll getEntryNumbers P m = .ok m1 →
      m1.heap = m.heap ∧
      ∃ ns, m1.entryNumbers = m.entryNumbers ++ ns ∧ ns.length = P.length ∧
        ∀ (k : Nat) (p : Nat × entryKey), P[k]? = some p →
          ∃ rec n, m.heap[p.2.info]? = some rec ∧ rec.freed = false ∧
          rec.entryNum = some n ∧ ns[k]? = some n := by
  intro P
  induction P with
  | nil =>
    intro m m1 h
    simp only [visitAll, Except.ok.injEq] at h
    subst h
    exact ⟨rfl, [], by simp, rfl, fun k p hk => by simp at hk⟩
  | cons p0 l ih =>
    intro m m1 h
    simp only [visitAll] at h
    split at h
    · rename_i m2 h2
      obtain ⟨rec, n, hr1, hr2, hr3, rfl⟩ := getEntryNumbers_inv h2
      obtain ⟨a1, ns, a2, a3, a4⟩ := ih _ m1 h
      refine ⟨a1, n :: ns, by simp [a2], by simp [a3], ?_⟩
      intro k p hk
      cases k with
      | zero =>
        simp only [List.getElem?_cons_zero, Option.some.injEq] at hk
        subst hk
        exact ⟨rec, n, hr1, hr2, hr3, by simp⟩
      | succ k =>
        simp only [List.getElem?_cons_succ] at hk
        obtain ⟨rec1, n1, b1, b2, b3, b4⟩ := a4 k p hk
        exact ⟨rec1, n1, b1, b2, b3, by simpa using b4⟩
    · simp at h

/-! ## The sharing of records without compression -/

theorem rowSorted_unique {row : List entryKey} (hs : RowSorted row) {a b : entryKey}
    (ha : a ∈ row) (hb : b ∈ row) (hc : a.column = b.column) : a = b := by
  induction row with
  | nil => simp at ha
  | cons x l ih =>
    have hs2 := List.pairwise_cons.mp hs
    rcases List.mem_cons.mp ha with rfl | ha2
    · rcases List.mem_cons.mp hb with rfl | hb2
      · rfl
      · have := hs2.1 b hb2; omega
    · rcases List.mem_cons.mp hb with rfl | hb2
      · have := hs2.1 a ha2; omega
      · exact ih hs2.2 ha2 hb2

theorem mem_set_info {row : List entryKey} (hs : RowSorted row) {p : Nat} {ek : entryKey}
    (hp : row[p]? = some ek) (N : Nat) (x : entryKey) :
    x ∈ row.set p { ek with info := N } ↔
      x = ⟨ek.column, N⟩ ∨ (x ∈ row ∧ x.column ≠ ek.column) := by
  have hlt : p < row.length := (List.getElem?_eq_some_iff.mp hp).1
  have hek : ek ∈ row := List.mem_iff_getElem?.mpr ⟨p, hp⟩
  constructor
  · intro hx
    obtain ⟨n, hn⟩ := List.mem_iff_getElem?.mp hx
    rw [List.getElem?_set] at hn
    split at hn
    · rename_i e
      subst e
      simp only [hlt, if_true, Option.some.injEq] at hn
      exact Or.inl hn.symm
    · rename_i e
      right
      have hxm : x ∈ row := List.mem_iff_getElem?.mpr ⟨n, hn⟩
      refine ⟨hxm, ?_⟩
      intro hc
      have := rowSorted_unique hs hxm hek hc
      subst this
      have hnd : row.Nodup := hs.imp (fun h e => by subst e; omega)
      have hn2 : n < row.length := (List.getElem?_eq_some_iff.mp hn).1
      have e1 : row[n] = x := by
        have := List.getElem?_eq_getElem hn2
        rw [hn] at this; simpa using this.symm
      have e2 : row[p] = x := by
        have := List.getElem?_eq_getElem hlt
        rw [hp] at this; simpa using this.symm
      exact e ((hnd.getElem_inj_iff).mp (e2.trans e1.symm))
  · rintro (rfl | ⟨hx, hc⟩)
    · exact List.mem_iff_getElem?.mpr ⟨p, by simp [List.getElem?_set, hlt]⟩
    · obtain ⟨n, hn⟩ := List.mem_iff_getElem?.mp hx
      have hnp : p ≠ n := by
        intro e
        subst e
        rw [hp] at hn
        simp only [Option.some.injEq] at hn
        subst hn
        exact hc rfl
      exact List.mem_iff_getElem?.mpr ⟨n, by simp [List.getElem?_set, hnp, hn]⟩

theorem setInfo_mem {rows rows1 : List (List entryKey)} {r p N : Nat}
    (h : setInfo rows r p N = .ok rows1) (hs : RowSorted (rows.getD r [])) :
    ∃ ek, (rows.getD r [])[p]? = some ek ∧
      ∀ r1 x, x ∈ rows1.getD r1 [] ↔
        (r1 = r ∧ x = ⟨ek.column, N⟩) ∨
        (x ∈ rows.getD r1 [] ∧ ¬ (r1 = r ∧ x.column = ek.column)) := by
  obtain ⟨row, ek, h1, h2, rfl⟩ := setInfo_inv h
  have hrow : rows.getD r [] = row := getD_of_getElem? h1
  have hlt : r < rows.length := (List.getElem?_eq_some_iff.mp h1).1
  rw [hrow] at hs
  refine ⟨ek, by rw [hrow]; exact h2, ?_⟩
  intro r1 x
  rw [getD_set]
  by_cases e : r = r1
  · subst e
    rw [if_pos ⟨rfl, hlt⟩, mem_set_info hs h2, hrow]
    tauto
  · rw [if_neg (fun hh => e hh.1)]
    have : ¬ r1 = r := fun hh => e hh.symm
    tauto

theorem WF_rowSorted {m : State} (hw : WF m) (r : Nat) : RowSorted (rowOf m r) := by
  rw [rowSorted_iff]; exact hw.sorted r

theorem update_rows {m m1 : State} {i j p : Nat} {v : List ℚ} {rowj : List entryKey}
    (hw : WF m) (hrow : getRow m j = .ok rowj)
    (hp : SearchSL entryKeyCompare rowj ⟨i, 0⟩ = some p)
    (h : setEntryUpdate m i j p v = .ok m1) :
    ∃ entryMat m2, entryMat ∈ rowOf m j ∧ entryMat.column = i ∧
      releaseRecord m entryMat.info = .ok m2 ∧
      m1.heap = m2.heap ++ [{ value := v.take m2.matrixEntrySize, entryNum := none,
                              refCount := 1, freed := false }] ∧
      m1.compressionEnabled = m.compressionEnabled ∧
      m1.compressList = m2.compressList ∧
      ∀ r x, x ∈ rowOf m1 r ↔
        ((r = j ∨ r = i) ∧ x = ⟨i, m2.heap.length⟩) ∨
        (x ∈ rowOf m r ∧ ¬ (r = j ∧ x.column = i) ∧ ¬ (r = i ∧ x.column = i)) := by
  obtain ⟨rowi, rowj1, entryMat, m2, p2, rows1, rows2, hi, hj, hem, hrel, hlen, hp2, hr1, hr2,
    rfl⟩ := setEntryUpdate_inv h
  rw [hrow] at hj
  simp only [Except.ok.injEq] at hj
  subst hj
  have hfr := releaseRecord_frame hrel
  have hsm : m2.sparseMatrix = m.sparseMatrix := by rw [hfr]
  have hce : m2.compressionEnabled = m.compressionEnabled := by rw [hfr]
  obtain ⟨ej, _, _⟩ := getRow_rowOf hrow
  obtain ⟨ei, _, _⟩ := getRow_rowOf hi
  obtain ⟨ek, hek1, hek2⟩ := SearchSL_some hp
  rw [hem] at hek1
  simp only [Option.some.injEq] at hek1
  subst hek1
  simp only at hek2
  have hmemj : entryMat ∈ rowOf m j := by
    rw [ej]; exact List.mem_iff_getElem?.mpr ⟨p, hem⟩
  rw [hsm] at hr1
  obtain ⟨e1, he1, hmem1⟩ := setInfo_mem hr1 (WF_rowSorted hw j)
  have he1' : e1 = entryMat := by
    have : (rowOf m j)[p]? = some e1 := he1
    rw [ej, hem] at this
    simpa using this.symm
  subst he1'
  obtain ⟨_, hc1⟩ := setInfo_cols hr1
  have hs1 : RowSorted (rows1.getD i []) := by
    rw [rowSorted_iff, hc1 i]
    exact hw.sorted i
  obtain ⟨e2, he2, hmem2⟩ := setInfo_mem hr2 hs1
  obtain ⟨ek2, hk1, hk2⟩ := SearchSL_some hp2
  simp only at hk2
  have he2c : e2.column = i := by
    have a1 : ((rows1.getD i []).map (·.column))[p2]? = some e2.column := by
      rw [List.getElem?_map, he2]; rfl
    have a2 : ((m.sparseMatrix.getD i []).map (·.column))[p2]? = some ek2.column := by
      have : (rowOf m i)[p2]? = some ek2 := by rw [ei]; exact hk1
      simp only [rowOf] at this
      rw [List.getElem?_map, this]; rfl
    rw [hc1 i, a2] at a1
    simp only [Option.some.injEq] at a1
    rw [← a1, hk2]
  refine ⟨e1, m2, hmemj, hek2, hrel, rfl, hce, rfl, ?_⟩
  intro r x
  show x ∈ rows2.getD r [] ↔ _
  rw [hmem2 r x, hmem1 r x, he2c, hek2]
  simp only [rowOf]
  tauto

theorem insert_mem {m : State} (hw : WF m) {r c : Nat} (hfresh : c ∉ colsOf m r) (N : Nat)
    (x : entryKey) :
    x ∈ InsertSL entryKeyCompare (rowOf m r) ⟨c, N⟩ ↔ x = ⟨c, N⟩ ∨ x ∈ rowOf m r := by
  have hk : ∀ ek ∈ rowOf m r, ek.column ≠ c := by
    intro ek hek e
    exact hfresh (List.mem_map.mpr ⟨ek, hek, e⟩)
  obtain ⟨_, h2⟩ := InsertSL_fresh (k := ⟨c, N⟩) (WF_rowSorted hw r) hk
  rw [h2.mem_iff, List.mem_cons]

theorem insertPair_rows {m m1 : State} {i j : Nat} {v : List ℚ} (hw : WF m)
    (hij : i ≠ j) (hfresh : i ∉ colsOf m j)
    (h : setEntryInsertPair m i j v = .ok m1) :
    ∃ nr m2 info, entryKeyCreateInfo { m with ncon_row := nr } v = .ok (m2, info) ∧
      m1.heap = m2.heap ∧ m1.compressList = m2.compressList ∧
      m1.compressionEnabled = m.compressionEnabled ∧
      ∀ r x, x ∈ rowOf m1 r ↔
        x ∈ rowOf m r ∨ (r = i ∧ x = ⟨j, info⟩) ∨ (r = j ∧ x = ⟨i, info⟩) := by
  obtain ⟨m2, info, rowj, rowi, hi, hj, hc, hrj, hri, rfl⟩ := setEntryInsertPair_inv h
  have hfr := entryKeyCreateInfo_frame hc
  have hce : m2.compressionEnabled = m.compressionEnabled := by rw [hfr]
  obtain ⟨ej, hj1, hjl⟩ := getRow_rowOf hrj
  obtain ⟨hi1, hi2⟩ := getRow_eq_ok.mp hri
  simp only [List.getElem?_set, if_neg (Ne.symm hij)] at hi2
  have ei : rowOf m i = rowi := rowOf_eq_of_getElem? hi2
  have hil : i < m.sparseMatrix.length := (List.getElem?_eq_some_iff.mp hi2).1
  have hfi : j ∉ colsOf m i := fun hm => hfresh (hw.sym i j hm)
  refine ⟨_, m2, info, hc, rfl, rfl, hce, ?_⟩
  intro r x
  simp only [rowOf, getD_set, List.length_set, hil, hjl, and_true]
  by_cases e : i = r
  · subst e
    rw [if_pos rfl, ← ei, insert_mem hw hfi]
    simp only [rowOf]
    tauto
  · by_cases e2 : j = r
    · subst e2
      rw [if_neg e, if_pos rfl, ← ej, insert_mem hw hfresh]
      simp only [rowOf]
      tauto
    · rw [if_neg e, if_neg e2]
      have e3 : ¬ r = i := fun h => e h.symm
      have e4 : ¬ r = j := fun h => e2 h.symm
      tauto

theorem insertDiagonal_rows {m m1 : State} {i j : Nat} {v : List ℚ} (hw : WF m)
    (hij : i = j) (hfresh : i ∉ colsOf m j)
    (h : setEntryInsertDiagonal m i j v = .ok m1) :
    ∃ nr m2 info, entryKeyCreateInfo { m with ncon_row := nr } v = .ok (m2, info) ∧
      m1.heap = m2.heap ∧ m1.compressList = m2.compressList ∧
      m1.compressionEnabled = m.compressionEnabled ∧
      ∀ r x, x ∈ rowOf m1 r ↔ x ∈ rowOf m r ∨ (r = i ∧ x = ⟨i, info⟩) := by
  subst hij
  obtain ⟨m2, info, rowj, hi, hc, hrj, rfl⟩ := setEntryInsertDiagonal_inv h
  have hfr := entryKeyCreateInfo_frame hc
  have hce : m2.compressionEnabled = m.compressionEnabled := by rw [hfr]
  obtain ⟨ej, hj1, hjl⟩ := getRow_rowOf hrj
  refine ⟨_, m2, info, hc, rfl, rfl, hce, ?_⟩
  intro r x
  simp only [rowOf, getD_set, hjl, and_true]
  by_cases e : i = r
  · subst e
    rw [if_pos rfl, ← ej, insert_mem hw hfresh]
    simp only [rowOf]
    tauto
  · rw [if_neg e]
    have e3 : ¬ r = i := fun h => e h.symm
    tauto

theorem releaseRecord_plain {m m2 : State} {ec : Nat}
    (hc : m.compressionEnabled = false) (h : releaseRecord m ec = .ok m2) :
    ∃ rec, m.heap[ec]? = some rec ∧ rec.freed = false ∧
      m2.heap = m.heap.set ec { rec with freed := true } := by
  unfold releaseRecord at h
  rw [hc] at h
  simp only [Bool.false_eq_true, if_false] at h
  split at h
  · rename_i hp hf
    obtain ⟨rec, h1, h2, rfl⟩ := freeRecord_inv hf
    simp only [Except.ok.injEq] at h
    subst h
    exact ⟨rec, h1, h2, rfl⟩
  · simp at h

theorem getElem?_append_old {α : Type} {a : List α} {h : Nat} {x y : α}
    (hx : a[h]? = some x) : (a ++ [y])[h]? = some x := by
  have hlt : h < a.length := (List.getElem?_eq_some_iff.mp hx).1
  rw [List.getElem?_append_left hlt, hx]

theorem getElem?_append_new {α : Type} (a : List α) (y : α) :
    (a ++ [y])[a.length]? = some y := by
  simp

theorem mem_positions {m : State} (hw : WF m) {r : Nat} {ek : entryKey} :
    (r, ek) ∈ positions m ↔ ek ∈ rowOf m r := by
  unfold positions
  rw [mem_flatFrom]
  constructor
  · intro h; exact h.2.2
  · intro h
    refine ⟨?_, ?_, h⟩
    · by_contra h0
      have : r = 0 := by omega
      subst this
      have h1 := hw.row0
      simp only [colsOf, List.map_eq_nil_iff] at h1
      rw [h1] at h
      simp at h
    · by_contra h0
      have hge : m.sparseMatrix.length ≤ r := by rw [hw.len_rows]; omega
      simp only [rowOf, List.getD_eq_getElem?_getD, List.getElem?_eq_none hge] at h
      simp at h

theorem positions_sorted {m : State} (hw : WF m) : (positions m).Pairwise posLt :=
  flatFrom_sorted (fun r => WF_rowSorted hw r) _ _

theorem getmatrixpointers_inv {m m2 : State} (hlen : m.sparseMatrix.length = m.neq + 1)
    (h : getmatrixpointers_ m = .ok m2) :
    visitAll getEntryNumbers (positions m) { m with entryNumbers := [], entryCounter := 0 }
      = .ok m2 := by
  unfold getmatrixpointers_ at h
  rw [forRows_eq_visitAll (fun k a s s1 hh => by
    obtain ⟨_, _, _, _, _, rfl⟩ := getEntryNumbers_inv hh
    rfl) _ _ _ (le_refl 1) (by show 1 + m.neq ≤ m.sparseMatrix.length; omega)] at h
  unfold positions
  exact h

theorem getmatrixsizes_plain {m m1 : State} {nw nc nmax : Nat}
    (hlen : m.sparseMatrix.length = m.neq + 1) (hc : m.compressionEnabled = false)
    (h : getmatrixsizes_ m = .ok (m1, nw, nc, nmax)) :
    ∃ m2, visitAll assignEntryNumNoCompression (positions m)
        { m with ncon := nc, entryNumber := 1 } = .ok m2 ∧
      m1 = { m2 with num_written_coefs := m2.entryNumber - 1 } ∧ nw = m2.entryNumber - 1 := by
  obtain ⟨_, m2, h2, h3, h4⟩ := getmatrixsizes_inv h
  rw [if_neg (by rw [hc]; simp)] at h2
  rw [forRows_eq_visitAll (fun k a s s1 hh => by
    have := assignEntryNumNoCompression_matrixOf k a s s1 hh
    simp only [matrixOf, Prod.mk.injEq] at this
    exact this.1) _ _ _ (le_refl 1)
      (by show 1 + m.neq ≤ m.sparseMatrix.length; omega)] at h2
  refine ⟨m2, ?_, h3, h4⟩
  unfold positions
  exact h2

theorem verdictsAgree_spec {c : List ℚ → List ℚ → Int} {V : List (List ℚ)} {m : State}
    (h : verdictsAgree c V m = true) {a b : List ℚ} (ha : a ∈ V) (hb : b ∈ V) :
    entryComponentCompareLoop m.maximum m.epsilon a b m.matrixEntrySize 0 = .ok (c a b) := by
  unfold verdictsAgree at h
  rw [List.all_eq_true] at h
  have h1 := h a ha
  rw [List.all_eq_true] at h1
  have h2 := h1 b hb
  split at h2
  · rename_i x hx
    rw [hx]
    simp only [beq_iff_eq] at h2
    rw [h2]
  · simp at h2

theorem valueOf_of_getElem? {heap : List entryComponent} {h : Nat} {rec : entryComponent}
    (hr : heap[h]? = some rec) : valueOf heap h = rec.value := by
  simp [valueOf, hr]

theorem comparesAs_of_agree {c : List ℚ → List ℚ → Int} {V : List (List ℚ)} {m m0 : State}
    (hag : verdictsAgree c V m0 = true)
    (hp : m.maximum = m0.maximum ∧ m.epsilon = m0.epsilon ∧ m.matrixEntrySize = m0.matrixEntrySize)
    {L : List Nat} {key : List ℚ} (hkey : key ∈ V)
    (hrecs : ∀ h ∈ L, ∃ rec, m.heap[h]? = some rec ∧ rec.freed = false ∧ rec.value ∈ V) :
    ComparesAs c m L key := by
  intro x hx
  obtain ⟨rec, h1, h2, h3⟩ := hrecs x hx
  unfold entryComponentCompare
  rw [deref_eq_ok.mpr ⟨h1, h2⟩]
  simp only
  rw [hp.1, hp.2.1, hp.2.2, verdictsAgree_spec hag h3 hkey, valueOf_of_getElem? h1]

theorem SearchCL_spec {c : List ℚ → List ℚ → Int} {V : List (List ℚ)} (ord : WeakOrderOn c V)
    {m : State} {key : List ℚ} (hkey : key ∈ V) :
    ∀ (L : List Nat), ComparesAs c m L key →
      (∀ h ∈ L, valueOf m.heap h ∈ V) →
      L.Pairwise (fun a b => c (valueOf m.heap a) (valueOf m.heap b) < 0) →
      ∃ res, SearchCL m key L = .ok res ∧
        (∀ h, res = some h → h ∈ L ∧ c (valueOf m.heap h) key = 0) ∧
        (res = none → ∀ x ∈ L, c (valueOf m.heap x) key ≠ 0) := by
  intro L
  induction L with
  | nil =>
    intro _ _ _
    exact ⟨none, rfl, fun h hh => by simp at hh, fun _ x hx => by simp at hx⟩
  | cons x l ih =>
    intro hcmp hV hs
    have hs2 := List.pairwise_cons.mp hs
    have hx := hcmp x (List.mem_cons_self _ _)
    have hxV := hV x (List.mem_cons_self _ _)
    simp only [SearchCL, hx]
    by_cases hlt : c (valueOf m.heap x) key < 0
    · rw [if_pos hlt]
      obtain ⟨res, h1, h2, h3⟩ := ih (fun y hy => hcmp y (List.mem_cons_of_mem _ hy))
        (fun y hy => hV y (List.mem_cons_of_mem _ hy)) hs2.2
      refine ⟨res, h1, ?_, ?_⟩
      · intro h hh
        exact ⟨List.mem_cons_of_mem _ (h2 h hh).1, (h2 h hh).2⟩
      · intro hn y hy
        rcases List.mem_cons.mp hy with rfl | hy2
        · omega
        · exact h3 hn y hy2
    · rw [if_neg hlt]
      by_cases heq : c (valueOf m.heap x) key = 0
      · rw [if_pos heq]
        refine ⟨some x, rfl, ?_, fun hn => by simp at hn⟩
        intro h hh
        simp only [Option.some.injEq] at hh
        subst hh
        exact ⟨List.mem_cons_self _ _, heq⟩
      · rw [if_neg heq]
        refine ⟨none, rfl, fun h hh => by simp at hh, ?_⟩
        intro _ y hy
        rcases List.mem_cons.mp hy with rfl | hy2
        · exact heq
        · intro hy0
          have hyV := hV y (List.mem_cons_of_mem _ hy2)
          have := ord.lt_eq _ hxV _ hyV _ hkey (hs2.1 y hy2) hy0
          exact hlt this

theorem InsertCL_spec {c : List ℚ → List ℚ → Int} {V : List (List ℚ)} (ord : WeakOrderOn c V)
    {m : State} {key : List ℚ} {ec : Nat} (hkey : key ∈ V)
    (hec : valueOf m.heap ec = key) :
    ∀ (L : List Nat), ComparesAs c m L key →
      (∀ h ∈ L, valueOf m.heap h ∈ V) →
      L.Pairwise (fun a b => c (valueOf m.heap a) (valueOf m.heap b) < 0) →
      (∀ x ∈ L, c (valueOf m.heap x) key ≠ 0) →
      ∃ L1, InsertCL m key ec L = .ok L1 ∧ L1.Perm (ec :: L) ∧
        L1.Pairwise (fun a b => c (valueOf m.heap a) (valueOf m.heap b) < 0) := by
  intro L
  induction L with
  | nil =>
    intro _ _ _ _
    exact ⟨[ec], rfl, List.Perm.refl _, List.pairwise_singleton _ _⟩
  | cons x l ih =>
    intro hcmp hV hs hne
    have hs2 := List.pairwise_cons.mp hs
    have hx := hcmp x (List.mem_cons_self _ _)
    have hxV := hV x (List.mem_cons_self _ _)
    have hx0 := hne x (List.mem_cons_self _ _)
    simp only [InsertCL, hx]
    by_cases hlt : c (valueOf m.heap x) key < 0
    · rw [if_pos hlt]
      obtain ⟨L1, h1, h2, h3⟩ := ih (fun y hy => hcmp y (List.mem_cons_of_mem _ hy))
        (fun y hy => hV y (List.mem_cons_of_mem _ hy)) hs2.2
        (fun y hy => hne y (List.mem_cons_of_mem _ hy))
      rw [h1]
      refine ⟨x :: L1, rfl, (List.Perm.cons x h2).trans (List.Perm.swap ec x l), ?_⟩
      refine List.pairwise_cons.mpr ⟨?_, h3⟩
      intro y hy
      rcases List.mem_cons.mp (h2.mem_iff.mp hy) with rfl | hy2
      · rw [hec]; exact hlt
      · exact hs2.1 y hy2
    · rw [if_neg hlt, if_neg hx0]
      refine ⟨ec :: x :: l, rfl, List.Perm.refl _, ?_⟩
      refine List.pairwise_cons.mpr ⟨?_, hs⟩
      have hgt : 0 < c (valueOf m.heap x) key := by omega
      have hflip : c key (valueOf m.heap x) < 0 := ord.flip _ hxV _ hkey hgt
      intro y hy
      rw [hec]
      rcases List.mem_cons.mp hy with rfl | hy2
      · exact hflip
      · exact ord.lt_trans _ hkey _ hxV _ (hV y (List.mem_cons_of_mem _ hy2)) hflip (hs2.1 y hy2)

theorem entryKeyCreateInfo_compressed {m m2 : State} {v : List ℚ} {info : Nat}
    (hc : m.compressionEnabled = true) (h : entryKeyCreateInfo m v = .ok (m2, info)) :
    (∃ r, SearchCL m v m.compressList = .ok (some info) ∧ m.heap[info]? = some r ∧
        r.freed = false ∧
        m2.heap = m.heap.set info { r with refCount := r.refCount + 1 } ∧
        m2.compressList = m.compressList) ∨
    (SearchCL m v m.compressList = .ok none ∧ info = m.heap.length ∧
        m.matrixEntrySize ≤ v.length ∧
        m2.heap = m.heap ++ [{ value := v.take m.matrixEntrySize, entryNum := none,
                               refCount := 1, freed := false }] ∧
        InsertCL { m with heap := m2.heap } v info m.compressList = .ok m2.compressList) := by
  unfold entryKeyCreateInfo at h
  rw [if_pos hc] at h
  split at h
  · simp at h
  · rename_i ec hs
    split at h
    · rename_i r hr
      simp only [Except.ok.injEq, Prod.mk.injEq] at h
      obtain ⟨h1, h2⟩ := h
      subst h1 h2
      obtain ⟨a, b⟩ := deref_eq_ok.mp hr
      exact Or.inl ⟨r, hs, a, b, rfl, rfl⟩
    · simp at h
  · rename_i hs
    split at h
    · simp at h
    · rename_i m1 ec hcr
      obtain ⟨c1, c2, c3⟩ := entryComponentCreate_inv hcr
      subst c2 c3
      split at h
      · rename_i cl hcl
        simp only [Except.ok.injEq, Prod.mk.injEq] at h
        obtain ⟨h1, h2⟩ := h
        subst h1 h2
        exact Or.inr ⟨hs, rfl, c1, rfl, hcl⟩
      · simp at h

theorem valueOf_set_refCount (heap : List entryComponent) (h x : Nat) (r : entryComponent)
    (n : Int) (hr : heap[h]? = some r) :
    valueOf (heap.set h { r with refCount := n }) x = valueOf heap x := by
  have hlt : h < heap.length := (List.getElem?_eq_some_iff.mp hr).1
  by_cases e : h = x
  · subst e
    simp only [valueOf, hr, List.getElem?_set, hlt, if_true]
  · simp only [valueOf, List.getElem?_set, if_neg e]

theorem valueOf_append_old {heap : List entryComponent} {x : Nat} (y : entryComponent)
    (hx : x < heap.length) : valueOf (heap ++ [y]) x = valueOf heap x := by
  unfold valueOf
  rw [List.getElem?_append_left hx]

theorem valueOf_append_new (heap : List entryComponent) (y : entryComponent) :
    valueOf (heap ++ [y]) heap.length = y.value := by
  unfold valueOf
  rw [getElem?_append_new]

theorem indexed_createInfo {c : List ℚ → List ℚ → Int} {V : List (List ℚ)}
    (ord : WeakOrderOn c V) {m z m2 : State} {v : List ℚ} {info : Nat}
    (hc : m.compressionEnabled = true)
    (hrecs : ∀ h ∈ m.compressList, ∃ rec, m.heap[h]? = some rec ∧ rec.freed = false ∧
      rec.value ∈ V)
    (hsorted : m.compressList.Pairwise
      (fun a b => c (valueOf m.heap a) (valueOf m.heap b) < 0))
    (hag : verdictsAgree c V z = true)
    (hp : m.maximum = z.maximum ∧ m.epsilon = z.epsilon ∧
      m.matrixEntrySize = z.matrixEntrySize)
    (hv : v ∈ V) (hlen : v.length = m.matrixEntrySize)
    (h : entryKeyCreateInfo m v = .ok (m2, info)) :
    (∀ x, x ∈ m.compressList → valueOf m2.heap x = valueOf m.heap x) ∧
    (∀ h ∈ m2.compressList, ∃ rec, m2.heap[h]? = some rec ∧ rec.freed = false ∧
      rec.value ∈ V) ∧
    m2.compressList.Pairwise (fun a b => c (valueOf m2.heap a) (valueOf m2.heap b) < 0) ∧
    (∀ h ∈ m.compressList, h ∈ m2.compressList) ∧
    info ∈ m2.compressList ∧ c (valueOf m2.heap info) v = 0 := by
  have hvals : ∀ h ∈ m.compressList, valueOf m.heap h ∈ V := by
    intro h hh
    obtain ⟨rec, h1, _, h3⟩ := hrecs h hh
    rw [valueOf_of_getElem? h1]; exact h3
  have hcmp : ComparesAs c m m.compressList v := comparesAs_of_agree hag hp hv hrecs
  obtain ⟨res, hres, hsome, hnone⟩ := SearchCL_spec ord hv m.compressList hcmp hvals hsorted
  rcases entryKeyCreateInfo_compressed hc h with ⟨r, hs, hr1, hr2, hheap, hcl⟩ |
    ⟨hs, hinfo, hle, hheap, hins⟩
  · rw [hres] at hs
    simp only [Except.ok.injEq] at hs
    obtain ⟨hin, h0⟩ := hsome info hs
    have hval : ∀ x, valueOf m2.heap x = valueOf m.heap x := by
      intro x; rw [hheap]; exact valueOf_set_refCount _ _ _ _ _ hr1
    refine ⟨fun x _ => hval x, ?_, ?_, ?_, ?_, ?_⟩
    · intro h hh
      rw [hcl] at hh
      obtain ⟨rec, h1, h2, h3⟩ := hrecs h hh
      by_cases e : info = h
      · subst e
        rw [hr1] at h1
        simp only [Option.some.injEq] at h1
        refine ⟨{ r with refCount := r.refCount + 1 },
          by rw [hheap]; exact getElem?_set_self_of_lt hr1, hr2, ?_⟩
        show r.value ∈ V
        rw [h1]; exact h3
      · exact ⟨rec, by rw [hheap, List.getElem?_set, if_neg e]; exact h1, h2, h3⟩
    · rw [hcl]
      have : (fun a b => c (valueOf m2.heap a) (valueOf m2.heap b) < 0) =
          (fun a b => c (valueOf m.heap a) (valueOf m.heap b) < 0) := by
        funext a b; rw [hval a, hval b]
      rw [this]; exact hsorted
    · intro h hh; rw [hcl]; exact hh
    · rw [hcl]; exact hin
    · rw [hval]; exact h0
  · rw [hres] at hs
    simp only [Except.ok.injEq] at hs
    have hne := hnone hs
    have hlt : ∀ x ∈ m.compressList, x < m.heap.length := by
      intro x hx
      obtain ⟨rec, h1, _, _⟩ := hrecs x hx
      exact (List.getElem?_eq_some_iff.mp h1).1
    have hval : ∀ x, x ∈ m.compressList → valueOf m2.heap x = valueOf m.heap x := by
      intro x hx; rw [hheap]; exact valueOf_append_old _ (hlt x hx)
    have hnewval : valueOf m2.heap info = v := by
      rw [hheap, hinfo, valueOf_append_new]
      simp only
      rw [← hlen, List.take_length]
    have hrecs2 : ∀ h ∈ m.compressList, ∃ rec, m2.heap[h]? = some rec ∧ rec.freed = false ∧
        rec.value ∈ V := by
      intro h hh
      obtain ⟨rec, h1, h2, h3⟩ := hrecs h hh
      exact ⟨rec, by rw [hheap]; exact getElem?_append_old h1, h2, h3⟩
    have hcmp2 : ComparesAs c { m with heap := m2.heap } m.compressList v :=
      comparesAs_of_agree (m := { m with heap := m2.heap }) hag hp hv hrecs2
    have hsorted2 : m.compressList.Pairwise
        (fun a b => c (valueOf m2.heap a) (valueOf m2.heap b) < 0) := by
      refine hsorted.imp_of_mem ?_
      intro a b ha hb hab
      rw [hval a ha, hval b hb]; exact hab
    obtain ⟨L1, hL1, hperm, hs1⟩ := InsertCL_spec (m := { m with heap := m2.heap }) ord hv
      hnewval m.compressList hcmp2 (fun x hx => by
        show valueOf m2.heap x ∈ V
        rw [hval x hx]; exact hvals x hx) hsorted2 (fun x hx => by
        show c (valueOf m2.heap x) v ≠ 0
        rw [hval x hx]; exact hne x hx)
    rw [hL1] at hins
    simp only [Except.ok.injEq] at hins
    subst hins
    refine ⟨hval, ?_, hs1, ?_, ?_, ?_⟩
    · intro h hh
      rcases List.mem_cons.mp (hperm.mem_iff.mp hh) with rfl | hh2
      · refine ⟨_, by rw [hheap, hinfo]; exact getElem?_append_new _ _, rfl, ?_⟩
        simp only
        rw [← hlen, List.take_length]; exact hv
      · exact hrecs2 h hh2
    · intro h hh
      exact hperm.mem_iff.mpr (List.mem_cons_of_mem _ hh)
    · exact hperm.mem_iff.mpr (List.mem_cons_self _ _)
    · rw [hnewval]; exact ord.refl v hv

theorem indexed_insert {c : List ℚ → List ℚ → Int} {V : List (List ℚ)}
    {gv : Nat → Nat → Option (List ℚ)} {m m1 : State} {i j info : Nat} {v : List ℚ}
    (hinv : Indexed c V gv m)
    (hfresh : i ∉ colsOf m j) (hfi : j ∉ colsOf m i)
    (hrows : ∀ r x, x ∈ rowOf m1 r ↔
      x ∈ rowOf m r ∨ (r = i ∧ x = ⟨j, info⟩) ∨ (r = j ∧ x = ⟨i, info⟩))
    (hv : v ∈ V)
    (hold : ∀ x, x ∈ m.compressList → valueOf m1.heap x = valueOf m.heap x)
    (hrecs1 : ∀ h ∈ m1.compressList, ∃ rec, m1.heap[h]? = some rec ∧ rec.freed = false ∧
      rec.value ∈ V)
    (hsorted1 : m1.compressList.Pairwise
      (fun a b => c (valueOf m1.heap a) (valueOf m1.heap b) < 0))
    (hsub : ∀ h ∈ m.compressList, h ∈ m1.compressList)
    (hin : info ∈ m1.compressList) (hinfo : c (valueOf m1.heap info) v = 0) :
    Indexed c V (fun r k => if (r = i ∧ k = j) ∨ (r = j ∧ k = i) then some v else gv r k)
      m1 := by
  have hnj : ∀ x, x ∈ rowOf m j → x.column ≠ i := fun x hx e =>
    hfresh (List.mem_map.mpr ⟨x, hx, e⟩)
  have hni : ∀ x, x ∈ rowOf m i → x.column ≠ j := fun x hx e =>
    hfi (List.mem_map.mpr ⟨x, hx, e⟩)
  refine ⟨hrecs1, hsorted1, ?_, ?_⟩
  · intro r x hx
    rcases (hrows r x).mp hx with h | ⟨_, rfl⟩ | ⟨_, rfl⟩
    · exact hsub _ (hinv.posIn r x h)
    · exact hin
    · exact hin
  · intro r x hx
    rcases (hrows r x).mp hx with h | ⟨rfl, rfl⟩ | ⟨rfl, rfl⟩
    · obtain ⟨v0, h1, h2, h3⟩ := hinv.ghost r x h
      have hcond : ¬ ((r = i ∧ x.column = j) ∨ (r = j ∧ x.column = i)) := by
        rintro (⟨rfl, e⟩ | ⟨rfl, e⟩)
        · exact hni x h e
        · exact hnj x h e
      refine ⟨v0, by simp only [if_neg hcond]; exact h1, h2, ?_⟩
      rw [hold _ (hinv.posIn r x h)]; exact h3
    · exact ⟨v, by simp, hv, hinfo⟩
    · exact ⟨v, by simp, hv, hinfo⟩

theorem indexed_setEntryBody {c : List ℚ → List ℚ → Int} {V : List (List ℚ)}
    {gv : Nat → Nat → Option (List ℚ)} (ord : WeakOrderOn c V) {m m1 : State} {i j : Nat}
    {v : List ℚ} (hw : WF m) (hc : m.compressionEnabled = true) (hinv : Indexed c V gv m)
    (hex : entryExists m i j = .ok false) (hv : v ∈ V) (hlen : v.length = m.matrixEntrySize)
    (h : setEntryBody m i j v = .ok m1) (hag : verdictsAgree c V m1 = true) :
    Indexed c V (fun r k => if (r = i ∧ k = j) ∨ (r = j ∧ k = i) then some v else gv r k)
      m1 := by
  obtain ⟨rowj0, hrow0, hsearch⟩ := entryExists_false hex
  have hfresh : i ∉ colsOf m j := search_none_not_mem hw hrow0 hsearch
  have hfi : j ∉ colsOf m i := fun hm => hfresh (hw.sym i j hm)
  have hpar := setEntryBody_paramsOf h
  simp only [paramsOf, Prod.mk.injEq] at hpar
  obtain ⟨-, hp2, -, hp4, hp5, -⟩ := hpar
  obtain ⟨rowj, hrow, hcase⟩ := setEntryBody_inv h
  rw [hrow0] at hrow
  simp only [Except.ok.injEq] at hrow
  subst hrow
  rcases hcase with ⟨p, hp, _⟩ | ⟨_, _, _, rfl⟩ | ⟨_, hij, _, hpair⟩ | ⟨_, hij, hd⟩
  · rw [hsearch] at hp; simp at hp
  · refine ⟨hinv.recs, hinv.sortedL, hinv.posIn, ?_⟩
    intro r x hx
    obtain ⟨v0, h1, h2, h3⟩ := hinv.ghost r x hx
    have hcond : ¬ ((r = i ∧ x.column = j) ∨ (r = j ∧ x.column = i)) := by
      rintro (⟨rfl, e⟩ | ⟨rfl, e⟩)
      · exact hfi (List.mem_map.mpr ⟨x, hx, e⟩)
      · exact hfresh (List.mem_map.mpr ⟨x, hx, e⟩)
    exact ⟨v0, by simp only [if_neg hcond]; exact h1, h2, h3⟩
  · obtain ⟨nr, m2, info, hci, hheap, hcl, _, hrows⟩ := insertPair_rows hw hij hfresh hpair
    obtain ⟨a1, a2, a3, a4, a5, a6⟩ := indexed_createInfo ord
      (m := { m with ncon_row := nr }) (z := m1) hc hinv.recs hinv.sortedL hag
      ⟨hp5.symm, hp4.symm, hp2.symm⟩ hv hlen hci
    rw [← hheap] at a1 a2 a3 a6
    rw [← hcl] at a2 a3 a4 a5
    exact indexed_insert hinv hfresh hfi hrows hv a1 a2 a3 a4 a5 a6
  · obtain ⟨nr, m2, info, hci, hheap, hcl, _, hrows⟩ := insertDiagonal_rows hw hij hfresh hd
    obtain ⟨a1, a2, a3, a4, a5, a6⟩ := indexed_createInfo ord
      (m := { m with ncon_row := nr }) (z := m1) hc hinv.recs hinv.sortedL hag
      ⟨hp5.symm, hp4.symm, hp2.symm⟩ hv hlen hci
    rw [← hheap] at a1 a2 a3 a6
    rw [← hcl] at a2 a3 a4 a5
    subst hij
    refine indexed_insert (i := i) (j := i) hinv hfresh hfresh ?_ hv a1 a2 a3 a4 a5 a6
    intro r x
    rw [hrows r x]
    tauto

theorem indexed_setEntry {c : List ℚ → List ℚ → Int} {V : List (List ℚ)}
    {gv : Nat → Nat → Option (List ℚ)} (ord : WeakOrderOn c V) {m m1 : State} {i j : Nat}
    {vol : ℚ} {v : List ℚ} (hw : WF m) (hc : m.compressionEnabled = true)
    (hinv : Indexed c V gv m)
    (hex : entryExists m i j = .ok false) (hv : v ∈ V) (hlen : v.length = m.matrixEntrySize)
    (h : setEntry m i j vol v = .ok m1) (hag : verdictsAgree c V m1 = true) :
    Indexed c V (fun r k => if (r = i ∧ k = j) ∨ (r = j ∧ k = i) then some v else gv r k)
      m1 := by
  obtain ⟨v2, mx, _, _, _, _, hvl, _, hb⟩ := setEntry_inv h
  have hw0 : WF { m with voronoiVolume := v2, maximum := mx } :=
    WF_of_same_cols hw rfl rfl hvl rfl (fun _ => rfl)
  have hinv0 : Indexed c V gv { m with voronoiVolume := v2, maximum := mx } :=
    ⟨hinv.recs, hinv.sortedL, hinv.posIn, hinv.ghost⟩
  have hex0 : entryExists { m with voronoiVolume := v2, maximum := mx } i j = .ok false := hex
  exact indexed_setEntryBody ord hw0 hc hinv0 hex0 hv hlen hb hag

theorem insertOnlyRun_cons {c : List ℚ → List ℚ → Int} {V : List (List ℚ)} {m : State}
    {call : Call} {cs : List Call} (h : insertOnlyRun c V m (call :: cs) = true) :
    ∃ i j vol v, call = .setEntry i j vol v ∧ entryExists m i j = .ok false ∧
      v.length = m.matrixEntrySize ∧
      ∀ m1, setEntry m i j vol v = .ok m1 →
        verdictsAgree c V m1 = true ∧ insertOnlyRun c V m1 cs = true := by
  cases call with
  | setDiagonalEntries => simp [insertOnlyRun] at h
  | setEntry i j vol v =>
    simp only [insertOnlyRun, Bool.and_eq_true, decide_eq_true_eq] at h
    obtain ⟨⟨h1, h2⟩, h4⟩ := h
    refine ⟨i, j, vol, v, rfl, ?_, h2, ?_⟩
    · split at h1
      · rename_i b hb
        simp only [Bool.not_eq_true'] at h1
        rw [hb, h1]
      · simp at h1
    · intro m1 hm1
      rw [hm1] at h4
      simpa using h4

theorem indexed_run {c : List ℚ → List ℚ → Int} {V : List (List ℚ)} (ord : WeakOrderOn c V) :
    ∀ (cs : List Call), (∀ v ∈ callValues cs, v ∈ V) →
      ∀ (gv : Nat → Nat → Option (List ℚ)) (m m1 : State), WF m →
      m.compressionEnabled = true → Indexed c V gv m → insertOnlyRun c V m cs = true →
      run m cs = .ok m1 → Indexed c V (recordCalls gv cs) m1 := by
  intro cs
  induction cs with
  | nil =>
    intro _ gv m m1 _ _ hinv _ h
    simp only [run, Except.ok.injEq] at h
    subst h
    exact hinv
  | cons call cs ih =>
    intro hV gv m m1 hw hc hinv hio h
    obtain ⟨i, j, vol, v, rfl, hex, hlen, hnext⟩ := insertOnlyRun_cons hio
    have hv : v ∈ V := hV v (by simp [callValues])
    have hV2 : ∀ w ∈ callValues cs, w ∈ V := fun w hw2 =>
      hV w (by simp only [callValues, List.mem_cons]; exact Or.inr hw2)
    simp only [run, step] at h
    split at h
    · rename_i m2 h2
      obtain ⟨hag, hio2⟩ := hnext m2 h2
      have hinv2 := indexed_setEntry ord hw hc hinv hex hv hlen h2 hag
      exact ih hV2 _ m2 m1 (WF_setEntry hw h2) ((setEntry_neq h2).2.2.1.trans hc) hinv2
        hio2 h
    · simp at h

theorem Indexed_create (c : List ℚ → List ℚ → Int) (V : List (List ℚ))
    (gv : Nat → Nat → Option (List ℚ)) (g : State) (neq es : Nat) (b : Bool) (eps : ℚ) :
    Indexed c V gv (createSparseMatrix g neq es b eps) where
  recs := fun h hh => by simp [createSparseMatrix] at hh
  sortedL := by simp [createSparseMatrix]
  posIn := fun r ek h => by rw [rowOf_create] at h; simp at h
  ghost := fun r ek h => by rw [rowOf_create] at h; simp at h

theorem final_verdictsAgree {c : List ℚ → List ℚ → Int} {V : List (List ℚ)} :
    ∀ (cs : List Call) (call : Call) (m m1 : State),
      insertOnlyRun c V m (call :: cs) = true → run m (call :: cs) = .ok m1 →
      verdictsAgree c V m1 = true := by
  intro cs
  induction cs with
  | nil =>
    intro call m m1 hio h
    obtain ⟨i, j, vol, v, rfl, _, _, hnext⟩ := insertOnlyRun_cons hio
    simp only [run, step] at h
    split at h
    · rename_i m2 h2
      simp only [Except.ok.injEq] at h
      subst h
      exact (hnext m2 h2).1
    · simp at h
  | cons c2 cs ih =>
    intro call m m1 hio h
    obtain ⟨i, j, vol, v, rfl, _, _, hnext⟩ := insertOnlyRun_cons hio
    rw [run] at h
    simp only [step] at h
    split at h
    · rename_i m2 h2
      exact ih c2 m2 m1 (hnext m2 h2).2 h
    · simp at h

theorem sorted_index_inj {c : List ℚ → List ℚ → Int} {f : Nat → List ℚ} :
    ∀ (L : List Nat),
      (∀ a ∈ L, ∀ b ∈ L, c (f a) (f b) = 0 → c (f b) (f a) = 0) →
      L.Pairwise (fun a b => c (f a) (f b) < 0) →
      ∀ a ∈ L, ∀ b ∈ L, c (f a) (f b) = 0 → a = b := by
  intro L
  induction L with
  | nil => intro _ _ a ha; simp at ha
  | cons x l ih =>
    intro hsym hs a ha b hb h0
    have hs2 := List.pairwise_cons.mp hs
    rcases List.mem_cons.mp ha with rfl | ha2
    · rcases List.mem_cons.mp hb with rfl | hb2
      · rfl
      · have := hs2.1 b hb2; omega
    · rcases List.mem_cons.mp hb with rfl | hb2
      · have := hs2.1 a ha2
        have := hsym _ ha _ hb h0
        omega
      · exact ih (fun p hp q hq => hsym p (List.mem_cons_of_mem _ hp) q
          (List.mem_cons_of_mem _ hq)) hs2.2 a ha2 b hb2 h0

/-- C8 (amended): with compression on, for a run of `setEntry` calls none of
which targets a position that exists already and on whose values the tolerance
comparator gives after every call the same verdicts `c`, these forming a strict
weak order on the values of the run, when `getmatrixsizes_` and `getmatrixpointers_` return, two stored
positions get the same entry number from `matPointers` as soon as the
comparator, with the maxima current at `getmatrixsizes_`, finds equivalent the
values set at the two positions, or the values of the records they point to. -/
theorem dedup_shares_entryNum (g : State) (neq es : Nat) (eps : ℚ) (calls : List Call)
    (c : List ℚ → List ℚ → Int) (m m1 m2 : State) (nw ncoefs ncon_max : Nat)
    (hrun : run (createSparseMatrix g neq es true eps) calls = .ok m)
    (hio : insertOnlyRun c (callValues calls) (createSparseMatrix g neq es true eps) calls
      = true)
    (ord : WeakOrderOn c (callValues calls))
    (hs : getmatrixsizes_ m = .ok (m1, nw, ncoefs, ncon_max))
    (hp : getmatrixpointers_ m1 = .ok m2)
    (k1 k2 : Nat) (p1 p2 : Nat × entryKey) (v1 v2 : List ℚ)
    (hk1 : (positions m)[k1]? = some p1) (hk2 : (positions m)[k2]? = some p2)
    (hv1 : setValue calls p1.1 p1.2.column = some v1)
    (hv2 : setValue calls p2.1 p2.2.column = some v2)
    (heq : entryComponentCompareLoop m.maximum m.epsilon v1 v2 m.matrixEntrySize 0 = .ok 0 ∨
      entryComponentCompareLoop m.maximum m.epsilon (valueOf m.heap p1.2.info)
        (valueOf m.heap p2.2.info) m.matrixEntrySize 0 = .ok 0) :
    ∃ n, m2.entryNumbers[k1]? = some n ∧ m2.entryNumbers[k2]? = some n := by
  have hw := WF_run _ _ _ (WF_create g neq es true eps) hrun
  have hinv : Indexed c (callValues calls) (setValue calls) m :=
    indexed_run ord calls (fun _ h => h) (fun _ _ => none) _ m (WF_create g neq es true eps)
      rfl (Indexed_create c _ _ g neq es true eps) hio hrun
  have hag : verdictsAgree c (callValues calls) m = true := by
    cases calls with
    | nil => simp [setValue, recordCalls] at hv1
    | cons call cs => exact final_verdictsAgree cs call _ m hio hrun
  have hm1 : p1.2 ∈ rowOf m p1.1 := (mem_positions hw).mp (List.mem_iff_getElem?.mpr ⟨k1, hk1⟩)
  have hm2 : p2.2 ∈ rowOf m p2.1 := (mem_positions hw).mp (List.mem_iff_getElem?.mpr ⟨k2, hk2⟩)
  obtain ⟨w1, g1, gV1, gc1⟩ := hinv.ghost _ _ hm1
  obtain ⟨w2, g2, gV2, gc2⟩ := hinv.ghost _ _ hm2
  rw [hv1] at g1
  rw [hv2] at g2
  simp only [Option.some.injEq] at g1 g2
  subst g1 g2
  have hin1 := hinv.posIn _ _ hm1
  have hin2 := hinv.posIn _ _ hm2
  have hval : ∀ h ∈ m.compressList, valueOf m.heap h ∈ callValues calls := by
    intro h hh
    obtain ⟨rec, h1, _, h3⟩ := hinv.recs h hh
    rw [valueOf_of_getElem? h1]; exact h3
  have hrv1 := hval _ hin1
  have hrv2 := hval _ hin2
  have hrec0 : c (valueOf m.heap p1.2.info) (valueOf m.heap p2.2.info) = 0 := by
    rcases heq with h | h
    · rw [verdictsAgree_spec hag gV1 gV2] at h
      simp only [Except.ok.injEq] at h
      have a1 := ord.eq_trans _ hrv1 _ gV1 _ gV2 gc1 h
      have a2 := ord.symm _ hrv2 _ gV2 gc2
      exact ord.eq_trans _ hrv1 _ gV2 _ hrv2 a1 a2
    · rw [verdictsAgree_spec hag hrv1 hrv2] at h
      simpa using h
  -- both keys point to records of the index, which holds no two equivalent records
  have hsame : p1.2.info = p2.2.info :=
    sorted_index_inj (f := valueOf m.heap) m.compressList
      (fun a ha b hb h => ord.symm _ (hval a ha) _ (hval b hb) h) hinv.sortedL
      _ hin1 _ hin2 hrec0
  have hmo := getmatrixsizes_matrixOf hs
  simp only [matrixOf, Prod.mk.injEq] at hmo
  obtain ⟨hsm, hneq, -⟩ := hmo
  have hpos : positions m1 = positions m := by simp only [positions, hsm, hneq]
  have hptr := getmatrixpointers_inv (by rw [hsm, hneq]; exact hw.len_rows) hp
  rw [hpos] at hptr
  obtain ⟨-, ns, hns, -, hread⟩ := pointers_spec _ _ _ hptr
  simp only [List.nil_append] at hns
  obtain ⟨r1, n1, a1, -, a3, a4⟩ := hread k1 p1 hk1
  obtain ⟨r2, n2, b1, -, b3, b4⟩ := hread k2 p2 hk2
  simp only at a1 b1
  rw [hsame, b1] at a1
  simp only [Option.some.injEq] at a1
  subst a1
  rw [a3] at b3
  simp only [Option.some.injEq] at b3
  subst b3
  exact ⟨n1, by rw [hns]; exact a4, by rw [hns]; exact b4⟩

/-- C8 (counterexample): with compression on and `epsilon = 1/10`, after
`setEntry(1,2,0,[1])`, `setEntry(1,3,0,[2])`, `setEntry(2,3,0,[100])` the
positions `(1,2)` and `(1,3)` carry the values 1 and 2, which the comparator
finds equivalent with the maxima current at `getmatrixsizes_`
(`|1 - 2| <= 100 * 1/10`), and `matPointers` gives them the entry numbers 1
and 2. -/
theorem dedup_fails_when_maxima_grow :
    run (createSparseMatrix initialState 3 1 true (1 / 10)) callsDrift = .ok scenarioDrift ∧
    getmatrixsizes_ scenarioDrift = .ok (scenarioDriftSized, 3, 6, 2) ∧
    getmatrixpointers_ scenarioDriftSized = .ok scenarioDriftPointers ∧
    (positions scenarioDrift)[0]? = some (1, ⟨2, 0⟩) ∧
    (positions scenarioDrift)[1]? = some (1, ⟨3, 1⟩) ∧
    setValue callsDrift 1 2 = some [1] ∧ setValue callsDrift 1 3 = some [2] ∧
    valueOf scenarioDrift.heap 0 = [1] ∧ valueOf scenarioDrift.heap 1 = [2] ∧
    entryComponentCompareLoop scenarioDrift.maximum scenarioDrift.epsilon [1] [2]
      scenarioDrift.matrixEntrySize 0 = .ok 0 ∧
    scenarioDriftPointers.entryNumbers[0]? = some 1 ∧
    scenarioDriftPointers.entryNumbers[1]? = some 2 := by
  refine ⟨?_, ?_, ?_, ?_, ?_, ?_, ?_, ?_, ?_, ?_, ?_, ?_⟩ <;> with_unfolding_all rfl

theorem scenarioStable_order : WeakOrderOn verdictStable (callValues callsStable) where
  refl := by with_unfolding_all decide
  symm := by with_unfolding_all decide
  flip := by with_unfolding_all decide
  lt_trans := by with_unfolding_all decide
  lt_eq := by with_unfolding_all decide
  eq_trans := by with_unfolding_all decide

theorem dedup_shares_entryNum_witness :
    ∃ n, scenarioStablePointers.entryNumbers[0]? = some n ∧
      scenarioStablePointers.entryNumbers[3]? = some n :=
  dedup_shares_entryNum initialState 3 1 (1 / 10 ^ 9) callsStable verdictStable
    scenarioStable scenarioStableSized scenarioStablePointers 2 6 2
    (by with_unfolding_all rfl) (by with_unfolding_all rfl) scenarioStable_order
    (by with_unfolding_all rfl) (by with_unfolding_all rfl)
    0 3 (1, ⟨2, 0⟩) (2, ⟨3, 0⟩) [1] [1 + 1 / 10 ^ 12]
    (by with_unfolding_all rfl) (by with_unfolding_all rfl)
    (by with_unfolding_all rfl) (by with_unfolding_all rfl)
    (Or.inl (by with_unfolding_all rfl))

/-! ## The occupied columns and the diagonal indices -/

theorem getColumnNumber_ok (ek : entryKey) (r : Nat) (m : State)
    (hcap : m.columnCounter < m.ncon) (hr1 : 1 ≤ r) (hr2 : r ≤ m.diagonalIndices.length) :
    getColumnNumber ek r m = .ok { m with
      occupiedColumns := m.occupiedColumns ++ [ek.column],
      diagonalIndices := (if r = ek.column then
        m.diagonalIndices.set (r - 1) (some m.columnCounter) else m.diagonalIndices),
      columnCounter := m.columnCounter + 1 } := by
  unfold getColumnNumber
  rw [if_pos hcap]
  by_cases h : r = ek.column
  · have h0 : ¬ r = 0 := by omega
    have hst : store m.diagonalIndices (r - 1) (some m.columnCounter) =
        .ok (m.diagonalIndices.set (r - 1) (some m.columnCounter)) :=
      store_eq_ok.mpr ⟨by omega, rfl⟩
    simp only [if_pos h, if_neg h0, hst]
  · simp only [if_neg h]

theorem getColumnNumber_rows (k : entryKey) (a : Nat) (m m1 : State)
    (h : getColumnNumber k a m = .ok m1) : m1.sparseMatrix = m.sparseMatrix := by
  unfold getColumnNumber at h
  split at h
  · split at h
    · split at h
      · simp at h
      · split at h
        · simp at h; subst h; rfl
        · simp at h
    · simp at h; subst h; rfl
  · simp at h

theorem columns_spec :
    ∀ (P : List (Nat × entryKey)) (m : State),
      m.columnCounter + P.length ≤ m.ncon →
      (∀ p ∈ P, 1 ≤ p.1 ∧ p.1 ≤ m.diagonalIndices.length) →
      ∃ m1, visitAll getColumnNumber P m = .ok m1 ∧
        m1.occupiedColumns = m.occupiedColumns ++ P.map (fun p => p.2.column) ∧
        m1.diagonalIndices.length = m.diagonalIndices.length ∧
        (∀ i : Nat, (∀ p ∈ P, p.2.column = p.1 → p.1 - 1 ≠ i) →
          m1.diagonalIndices[i]? = m.diagonalIndices[i]?) ∧
        (∀ (k : Nat) (p : Nat × entryKey), P[k]? = some p → p.2.column = p.1 →
          (∀ (k1 : Nat) (p1 : Nat × entryKey), k < k1 → P[k1]? = some p1 →
            p1.2.column = p1.1 → p1.1 ≠ p.1) →
          m1.diagonalIndices[p.1 - 1]? = some (some (m.columnCounter + k))) := by
  intro P
  induction P with
  | nil =>
    intro m _ _
    exact ⟨m, rfl, by simp, rfl, fun _ _ => rfl, fun k p hk => by simp at hk⟩
  | cons p0 l ih =>
    intro m hcap hrow
    simp only [List.length_cons] at hcap
    obtain ⟨hp1, hp2⟩ := hrow p0 (List.mem_cons_self _ _)
    have hstep := getColumnNumber_ok p0.2 p0.1 m (by omega) hp1 hp2
    have hlen : (if p0.1 = p0.2.column then
        m.diagonalIndices.set (p0.1 - 1) (some m.columnCounter)
        else m.diagonalIndices).length = m.diagonalIndices.length := by
      split <;> simp
    obtain ⟨m1, a1, a2, a3, a4, a5⟩ := ih { m with
        occupiedColumns := m.occupiedColumns ++ [p0.2.column],
        diagonalIndices := (if p0.1 = p0.2.column then
          m.diagonalIndices.set (p0.1 - 1) (some m.columnCounter) else m.diagonalIndices),
        columnCounter := m.columnCounter + 1 }
      (by show m.columnCounter + 1 + l.length ≤ m.ncon; omega)
      (fun p hp => by
        show 1 ≤ p.1 ∧ p.1 ≤ (if p0.1 = p0.2.column then
          m.diagonalIndices.set (p0.1 - 1) (some m.columnCounter) else m.diagonalIndices).length
        rw [hlen]
        exact hrow p (List.mem_cons_of_mem _ hp))
    refine ⟨m1, ?_, ?_, ?_, ?_, ?_⟩
    · simp only [visitAll, hstep]
      exact a1
    · rw [a2]
      simp
    · rw [a3]
      exact hlen
    · intro i hi
      rw [a4 i (fun p hp => hi p (List.mem_cons_of_mem _ hp))]
      show (if p0.1 = p0.2.column then
        m.diagonalIndices.set (p0.1 - 1) (some m.columnCounter) else m.diagonalIndices)[i]? = _
      split
      · rename_i e
        have := hi p0 (List.mem_cons_self _ _) e.symm
        simp [List.getElem?_set, this]
      · rfl
    · intro k p hk hd hlast
      cases k with
      | zero =>
        simp only [List.getElem?_cons_zero, Option.some.injEq] at hk
        subst hk
        rw [a4 (p0.1 - 1) (fun q hq hqd he => by
          obtain ⟨n, hn⟩ := List.mem_iff_getElem?.mp hq
          have h1 := hlast (n + 1) q (by omega) (by simpa using hn) hqd
          have h2 := (hrow q (List.mem_cons_of_mem _ hq)).1
          omega)]
        show (if p0.1 = p0.2.column then
          m.diagonalIndices.set (p0.1 - 1) (some m.columnCounter) else m.diagonalIndices)[p0.1 - 1]? = _
        rw [if_pos hd.symm]
        have hlt : p0.1 - 1 < m.diagonalIndices.length := by omega
        simp [List.getElem?_set, hlt]
      | succ k =>
        simp only [List.getElem?_cons_succ] at hk
        rw [a5 k p hk hd (fun k1 p1 hlt hk1 hd1 =>
          hlast (k1 + 1) p1 (by omega) (by simpa using hk1) hd1)]
        show some (some (m.columnCounter + 1 + k)) = _
        congr 2
        omega

theorem flatFrom_length (rows : List (List entryKey)) :
    ∀ (n i : Nat), (flatFrom rows n i).length =
      ∑ k in Finset.Ico i (i + n), (rows.getD k []).length := by
  intro n
  induction n with
  | zero => intro i; simp [flatFrom]
  | succ n ih =>
    intro i
    have hlt : i < i + (n + 1) := by omega
    have hI : i + 1 + n = i + (n + 1) := by omega
    rw [Finset.sum_eq_sum_Ico_succ_bot hlt, ← hI]
    simp [flatFrom, ih]

theorem flatFrom_columns (rows : List (List entryKey)) :
    ∀ (n i : Nat), (flatFrom rows n i).map (fun p => p.2.column) =
      ((List.range' i n).map (fun r => (rows.getD r []).map (·.column))).flatten := by
  intro n
  induction n with
  | zero => intro i; simp [flatFrom]
  | succ n ih =>
    intro i
    simp [flatFrom, List.range'_succ, ih, Function.comp_def]

theorem flatFrom_slice (rows : List (List entryKey)) :
    ∀ (n i r : Nat), i ≤ r → r < i + n →
      ((flatFrom rows n i).drop (∑ k in Finset.Ico i r, (rows.getD k []).length)).take
        (rows.getD r []).length = (rows.getD r []).map (fun ek => (r, ek)) := by
  intro n
  induction n with
  | zero => intro i r h1 h2; omega
  | succ n ih =>
    intro i r h1 h2
    simp only [flatFrom]
    by_cases h : r = i
    · subst h
      simp
    · have hlt : i < r := by omega
      rw [Finset.sum_eq_sum_Ico_succ_bot hlt]
      have e : ((rows.getD i []).map (fun ek => (i, ek))).length = (rows.getD i []).length := by
        simp
      rw [← e, List.drop_append, ih (i + 1) r (by omega) (by omega)]

theorem getmatrixsizes_field {m m1 : State} {nw nc nmax : Nat}
    (h : getmatrixsizes_ m = .ok (m1, nw, nc, nmax)) : m1.ncon = nc := by
  obtain ⟨_, m2, hm2, rfl, _⟩ := getmatrixsizes_inv h
  show m2.ncon = nc
  split at hm2
  · have := DoForSL_preserves (fun s => s.ncon) (fun k a s s1 h => by
      unfold assignEntryNumCompression at h
      split at h
      · simp at h
      · simp at h; subst h; rfl) _ _ _ _ hm2
    exact this
  · have := forRows_preserves (fun s => s.ncon) (fun k a s s1 h => by
      unfold assignEntryNumNoCompression at h
      split at h
      · split at h
        · simp at h
        · simp at h; subst h; rfl
      · simp at h; subst h; rfl) _ _ _ _ hm2
    exact this

/-- On a matrix with sorted rows whose field `ncon` holds the number of stored
keys, `getoccupiedcolumns_` returns: the columns are those of the positions in
traversal order, and the diagonal index of a row that holds its diagonal is
the rank of the diagonal position. -/
theorem getoccupiedcolumns_spec {m : State} (hlen : m.sparseMatrix.length = m.neq + 1)
    (hs : (positions m).Pairwise posLt) (hn : m.ncon = (positions m).length) :
    ∃ m2, getoccupiedcolumns_ m = .ok m2 ∧
      m2.occupiedColumns = (positions m).map (fun p => p.2.column) ∧
      m2.ncon_row = m.ncon_row ∧
      ∀ (k : Nat) (p : Nat × entryKey), (positions m)[k]? = some p → p.2.column = p.1 →
        m2.diagonalIndices[p.1 - 1]? = some (some k) := by
  have hrows : ∀ p ∈ positions m, 1 ≤ p.1 ∧ p.1 ≤ m.neq := by
    intro p hp
    obtain ⟨r, ek⟩ := p
    have := (mem_flatFrom m.neq 1).mp hp
    exact ⟨this.1, by omega⟩
  obtain ⟨m2, a1, a2, _, _, a5⟩ := columns_spec (positions m)
    { m with columnCounter := 0, occupiedColumns := [],
             diagonalIndices := List.replicate m.neq none }
    (by show 0 + (positions m).length ≤ m.ncon; omega)
    (fun p hp => by simpa using hrows p hp)
  refine ⟨m2, ?_, by simpa using a2, ?_, ?_⟩
  · unfold getoccupiedcolumns_
    rw [forRows_eq_visitAll getColumnNumber_rows m.neq 1 _ (le_refl 1)
      (by show 1 + m.neq ≤ m.sparseMatrix.length; rw [hlen]; omega)]
    exact a1
  · have h := visitAll_preserves (fun s => s.ncon_row) (fun k a s s1 h => by
      unfold getColumnNumber at h
      split at h
      · split at h
        · split at h
          · simp at h
          · split at h
            · simp at h; subst h; rfl
            · simp at h
        · simp at h; subst h; rfl
      · simp at h) _ _ _ a1
    exact h
  · intro k p hk hd
    have := a5 k p hk hd (fun k1 p1 hlt hk1 hd1 he => by
      have hlt1 : k1 < (positions m).length := (List.getElem?_eq_some_iff.mp hk1).1
      have hlt0 : k < (positions m).length := (List.getElem?_eq_some_iff.mp hk).1
      have hp := List.pairwise_iff_getElem.mp hs k k1 hlt0 hlt1 hlt
      rw [(List.getElem?_eq_some_iff.mp hk).2, (List.getElem?_eq_some_iff.mp hk1).2] at hp
      unfold posLt at hp
      omega)
    simpa using this

/-- After `getmatrixsizes_` on a matrix built by a run, the stored positions
are those of the matrix, in sorted order, and `ncon` is their number. -/
theorem sized_positions {g : State} {neq es : Nat} {c : Bool} {eps : ℚ}
    {calls : List Call} {m m1 : State} {nw ncoefs nmax : Nat}
    (hrun : run (createSparseMatrix g neq es c eps) calls = .ok m)
    (hs : getmatrixsizes_ m = .ok (m1, nw, ncoefs, nmax)) :
    WF m ∧ m.neq = neq ∧ m1.neq = neq ∧ m1.sparseMatrix.length = m1.neq + 1 ∧
      m1.ncon_row = m.ncon_row ∧
      positions m1 = positions m ∧ (positions m).Pairwise posLt ∧
      m1.ncon = (positions m).length ∧ ncoefs = (positions m).length := by
  have hw := WF_run _ _ _ (WF_create g neq es c eps) hrun
  have hn : m.neq = neq := (run_neq _ _ _ hrun).1
  have hm := getmatrixsizes_matrixOf hs
  simp only [matrixOf, Prod.mk.injEq] at hm
  obtain ⟨hrows, hneq, hrow, -⟩ := hm
  have hnc : ncoefs = (positions m).length := by
    rw [(getmatrixsizes_ncon hs).1]
    unfold positions
    rw [flatFrom_length]
    have hI : Finset.Ico 1 (1 + m.neq) = Finset.Icc 1 m.neq := by
      ext k; simp; omega
    rw [hI]
    apply Finset.sum_congr rfl
    intro i _
    rw [hw.count, colsOf, List.length_map, rowOf]
  refine ⟨hw, hn, by rw [hneq, hn], by rw [hrows, hneq, hw.len_rows], hrow, ?_,
    positions_sorted hw, ?_, hnc⟩
  · unfold positions
    rw [hrows, hneq]
  · rw [getmatrixsizes_field hs, hnc]

theorem colsOf_range {m : State} (hw : WF m) {r x : Nat} (h : x ∈ colsOf m r) :
    1 ≤ x ∧ x ≤ m.neq := by
  have h1 := hw.sym r x h
  constructor
  · by_contra h0
    have : x = 0 := by omega
    subst this
    rw [hw.row0] at h1
    simp at h1
  · by_contra h0
    have hlen : m.sparseMatrix.length ≤ x := by rw [hw.len_rows]; omega
    simp [colsOf, rowOf, List.getD_eq_getElem?_getD, List.getElem?_eq_none hlen] at h1

/-- C12: on a matrix built by `createSparseMatrix` and a sequence of calls of
the assembly interface, after `getmatrixsizes_` the routine
`getoccupiedcolumns_` returns; its array has exactly `ncon` cells, it is the
concatenation for the rows `1..neq` in ascending order of the columns of each
row, the columns of each row are strictly ascending, and every cell lies in
`1..neq`. -/
theorem occupiedColumns_row_major (g : State) (neq es : Nat) (c : Bool) (eps : ℚ)
    (calls : List Call) (m m1 : State) (nw ncoefs ncon_max : Nat)
    (hrun : run (createSparseMatrix g neq es c eps) calls = .ok m)
    (hs : getmatrixsizes_ m = .ok (m1, nw, ncoefs, ncon_max)) :
    ∃ m2, getoccupiedcolumns_ m1 = .ok m2 ∧
      m2.occupiedColumns.length = ncoefs ∧
      m2.occupiedColumns = ((List.range' 1 neq).map (colsOf m)).flatten ∧
      (∀ i, (colsOf m i).Pairwise (· < ·)) ∧
      (∀ x ∈ m2.occupiedColumns, 1 ≤ x ∧ x ≤ neq) := by
  obtain ⟨hw, hn, hn1, hlen, -, hpos, hsort, hnc, hco⟩ := sized_positions hrun hs
  obtain ⟨m2, a1, a2, -, -⟩ := getoccupiedcolumns_spec hlen (by rw [hpos]; exact hsort)
    (by rw [hpos]; exact hnc)
  rw [hpos] at a2
  have hflat : m2.occupiedColumns = ((List.range' 1 neq).map (colsOf m)).flatten := by
    rw [a2]
    unfold positions
    rw [flatFrom_columns, hn]
    rfl
  refine ⟨m2, a1, by rw [a2, List.length_map, hco], hflat, hw.sorted, ?_⟩
  intro x hx
  rw [hflat, List.mem_flatten] at hx
  obtain ⟨l, hl, hxl⟩ := hx
  obtain ⟨r, -, rfl⟩ := List.mem_map.mp hl
  have := colsOf_range hw hxl
  omega

theorem occupiedColumns_row_major_witness :
    ∃ m2, getoccupiedcolumns_ scenarioS2Sized = .ok m2 ∧
      m2.occupiedColumns.length = 4 ∧
      m2.occupiedColumns = ((List.range' 1 2).map (colsOf scenarioS2)).flatten ∧
      (∀ i, (colsOf scenarioS2 i).Pairwise (· < ·)) ∧
      (∀ x ∈ m2.occupiedColumns, 1 ≤ x ∧ x ≤ 2) :=
  occupiedColumns_row_major initialState 2 1 false (1 / 10 ^ 12)
    [.setEntry 1 2 (1 / 2) [2], .setDiagonalEntries] scenarioS2 _ 3 4 2
    scenarioS2_run scenarioS2_sizes

theorem scenarioS2_columns :
    getoccupiedcolumns_ scenarioS2Sized = .ok scenarioS2Columns ∧
      scenarioS2Columns.occupiedColumns = [1, 2, 1, 2] ∧
      scenarioS2Columns.diagonalIndices = [some 0, some 3] := by
  refine ⟨?_, ?_, ?_⟩ <;> with_unfolding_all rfl

theorem getentriesperrow_spec (m : State) (hlen : m.ncon_row.length = m.neq + 1) :
    ∃ b, getentriesperrow_ m = .ok { m with ncon_row := b } ∧ b.length = m.neq + 1 ∧
      ∀ k, k ≤ m.neq →
        b[k]? = some (m.neq + 1 + ∑ j in Finset.Icc 1 k, m.ncon_row.getD j 0) := by
  have hst : store m.ncon_row 0 (m.neq + 1) = .ok (m.ncon_row.set 0 (m.neq + 1)) :=
    store_eq_ok.mpr ⟨by omega, rfl⟩
  obtain ⟨b, hb, hbl, hlow, hstep⟩ :=
    entriesPerRowLoop_spec m.neq 1 (m.ncon_row.set 0 (m.neq + 1)) (le_refl 1)
      (by simp; omega)
  have hbl2 : b.length = m.neq + 1 := by simpa [hlen] using hbl
  have hold : ∀ k, 1 ≤ k → (m.ncon_row.set 0 (m.neq + 1)).getD k 0 = m.ncon_row.getD k 0 := by
    intro k hk
    rw [getD_set]
    have : ¬ (0 = k ∧ 0 < m.ncon_row.length) := by omega
    simp [this]
  have hb0 : b.getD 0 0 = m.neq + 1 := by
    rw [hlow 0 (by omega), getD_set]
    have : 0 < m.ncon_row.length := by omega
    simp [this]
  have hstep2 : ∀ k, 1 ≤ k → k < 1 + m.neq →
      b.getD k 0 = b.getD (k - 1) 0 + m.ncon_row.getD k 0 := by
    intro k h1 h2
    rw [hstep k h1 h2, hold k h1]
  refine ⟨b, ?_, hbl2, ?_⟩
  · simp only [getentriesperrow_, hst, hb]
  · intro k hk
    have hlt : k < b.length := by omega
    rw [List.getElem?_eq_getElem hlt]
    have := prefix_total m.ncon_row b hstep2 k hk
    rw [List.getD_eq_getElem?_getD, List.getElem?_eq_getElem hlt, hb0] at this
    simpa using this

/-- C11: on a matrix built by `createSparseMatrix` and a sequence of calls of
the assembly interface, after `getmatrixsizes_` the routines
`getentriesperrow_` and `getoccupiedcolumns_` return, and for every row `i` in
`1..neq`, with `a = ncon_row[i-1]` and `b = ncon_row[i]` of the prefix array,
the columns of row `i` are the cells of `occupiedColumns` at the 0-based
indices `a-(neq+1) .. b-(neq+1)-1`; in the concatenation of the prefix array
and `occupiedColumns` they are the cells at the 1-based positions `a+1 .. b`. -/
theorem occupiedColumns_slices (g : State) (neq es : Nat) (c : Bool) (eps : ℚ)
    (calls : List Call) (m m1 : State) (nw ncoefs ncon_max : Nat)
    (hrun : run (createSparseMatrix g neq es c eps) calls = .ok m)
    (hs : getmatrixsizes_ m = .ok (m1, nw, ncoefs, ncon_max)) :
    ∃ m2 m3, getentriesperrow_ m1 = .ok m2 ∧ getoccupiedcolumns_ m2 = .ok m3 ∧
      m3.ncon_row.length = neq + 1 ∧
      ∀ i, 1 ≤ i → i ≤ neq →
        ∃ a b, m3.ncon_row[i - 1]? = some a ∧ m3.ncon_row[i]? = some b ∧
          neq + 1 ≤ a ∧ a ≤ b ∧ b - (neq + 1) ≤ m3.occupiedColumns.length ∧
          colsOf m i = (m3.occupiedColumns.drop (a - (neq + 1))).take (b - a) ∧
          colsOf m i = ((m3.ncon_row ++ m3.occupiedColumns).drop a).take (b - a) := by
  obtain ⟨hw, hn, hn1, hlen, hrow, hpos, hsort, hnc, hco⟩ := sized_positions hrun hs
  obtain ⟨b, hb, hbl, hpre⟩ := getentriesperrow_spec m1 (by rw [hrow, hn1, hw.len_ncon, hn])
  have hpos2 : positions { m1 with ncon_row := b } = positions m := hpos
  obtain ⟨m3, a1, a2, a3, -⟩ := getoccupiedcolumns_spec (m := { m1 with ncon_row := b }) hlen
    (by rw [hpos2]; exact hsort) (by rw [hpos2]; exact hnc)
  rw [hpos2] at a2
  have a3 : m3.ncon_row = b := a3
  rw [hn1] at hbl hpre
  refine ⟨_, m3, hb, a1, by rw [a3, hbl], ?_⟩
  intro i hi1 hi2
  have hsum : ∀ k, ∑ j in Finset.Icc 1 k, m1.ncon_row.getD j 0 =
      ∑ j in Finset.Ico 1 (k + 1), (m.sparseMatrix.getD j []).length := by
    intro k
    have hI : Finset.Ico 1 (k + 1) = Finset.Icc 1 k := by
      ext j; simp; omega
    rw [hI, hrow]
    apply Finset.sum_congr rfl
    intro j _
    rw [hw.count, colsOf, List.length_map, rowOf]
  have hlast : ∑ j in Finset.Ico 1 (i + 1), (m.sparseMatrix.getD j []).length =
      ∑ j in Finset.Ico 1 i, (m.sparseMatrix.getD j []).length +
        (m.sparseMatrix.getD i []).length := by
    rw [Finset.sum_Ico_succ_top hi1]
  have hslice := flatFrom_slice m.sparseMatrix m.neq 1 i hi1 (by omega)
  have htot : ∑ j in Finset.Ico 1 (i + 1), (m.sparseMatrix.getD j []).length ≤
      (positions m).length := by
    unfold positions
    rw [flatFrom_length]
    apply Finset.sum_le_sum_of_subset
    intro j hj
    simp only [Finset.mem_Ico] at hj ⊢
    omega
  have hcols : colsOf m i = (m3.occupiedColumns.drop
      (∑ j in Finset.Ico 1 i, (m.sparseMatrix.getD j []).length)).take
        (m.sparseMatrix.getD i []).length := by
    rw [a2, ← List.map_drop, ← List.map_take]
    unfold positions
    rw [hslice, colsOf, rowOf, List.map_map]
    rfl
  have hi0 : i - 1 + 1 = i := by omega
  refine ⟨_, _, by rw [a3]; exact hpre (i - 1) (by omega), by rw [a3]; exact hpre i hi2,
    by omega, ?_, ?_, ?_, ?_⟩
  · rw [hsum, hsum, hi0, hlast]
    omega
  · rw [hsum, a2, List.length_map]
    omega
  · rw [hsum, hsum, hi0, hlast, hcols]
    congr 2 <;> omega
  · rw [hsum, hsum, hi0, hlast, hcols]
    have e : neq + 1 + ∑ j in Finset.Ico 1 i, (m.sparseMatrix.getD j []).length =
        m3.ncon_row.length + ∑ j in Finset.Ico 1 i, (m.sparseMatrix.getD j []).length := by
      rw [a3, hbl]
    rw [e, List.drop_append]
    congr 1
    omega

theorem scenarioS2_prefix :
    getentriesperrow_ scenarioS2Sized = .ok scenarioS2Prefix ∧
      getoccupiedcolumns_ scenarioS2Prefix = .ok scenarioS2PrefixColumns ∧
      scenarioS2PrefixColumns.ncon_row = [3, 5, 7] ∧
      scenarioS2PrefixColumns.occupiedColumns = [1, 2, 1, 2] := by
  refine ⟨?_, ?_, ?_, ?_⟩ <;> with_unfolding_all rfl

theorem occupiedColumns_slices_witness :
    ∃ m2 m3, getentriesperrow_ scenarioS2Sized = .ok m2 ∧ getoccupiedcolumns_ m2 = .ok m3 ∧
      m3.ncon_row.length = 2 + 1 ∧
      ∀ i, 1 ≤ i → i ≤ 2 →
        ∃ a b, m3.ncon_row[i - 1]? = some a ∧ m3.ncon_row[i]? = some b ∧
          2 + 1 ≤ a ∧ a ≤ b ∧ b - (2 + 1) ≤ m3.occupiedColumns.length ∧
          colsOf scenarioS2 i = (m3.occupiedColumns.drop (a - (2 + 1))).take (b - a) ∧
          colsOf scenarioS2 i = ((m3.ncon_row ++ m3.occupiedColumns).drop a).take (b - a) :=
  occupiedColumns_slices initialState 2 1 false (1 / 10 ^ 12)
    [.setEntry 1 2 (1 / 2) [2], .setDiagonalEntries] scenarioS2 _ 3 4 2
    scenarioS2_run scenarioS2_sizes

/-! ## The Voronoi volumes and the running maxima -/

theorem addVolume_getD {a b : List ℚ} {i : Nat} {x : ℚ} (h : addVolume a i x = .ok b) :
    ∀ k, 1 ≤ k → b.getD (k - 1) 0 = a.getD (k - 1) 0 + if i = k then x else 0 := by
  intro k hk
  unfold addVolume at h
  split at h
  · simp at h
  · rename_i h0
    split at h
    · rename_i y hy
      simp only [Except.ok.injEq] at h
      subst h
      rw [idx_eq_ok] at hy
      have hlt : i - 1 < a.length := (List.getElem?_eq_some_iff.mp hy).1
      rw [getD_set]
      by_cases e : i = k
      · subst e
        rw [getD_of_getElem? hy]
        simp [hlt]
      · have : ¬ (i - 1 = k - 1 ∧ i - 1 < a.length) := by omega
        simp [this, e]
    · simp at h

theorem setEntry_volume {m m1 : State} {i j : Nat} {vol : ℚ} {v : List ℚ}
    (h : setEntry m i j vol v = .ok m1) :
    ∀ k, 1 ≤ k → m1.voronoiVolume.getD (k - 1) 0 =
      m.voronoiVolume.getD (k - 1) 0 + ((if i = k then vol else 0) + if j = k then vol else 0) := by
  intro k hk
  unfold setEntry at h
  split at h
  · simp at h
  · rename_i v1 h1
    split at h
    · simp at h
    · rename_i v2 h2
      split at h
      · simp at h
      · rename_i mx h3
        have hp := setEntryBody_paramsOf h
        simp only [paramsOf, Prod.mk.injEq] at hp
        rw [hp.2.2.2.2.2, addVolume_getD h2 k hk, addVolume_getD h1 k hk]
        ring

theorem setDiagonalEntriesLoop_volume :
    ∀ (n i : Nat) (m m1 : State), setDiagonalEntriesLoop n i m = .ok m1 →
      ∀ k, 1 ≤ k → m1.voronoiVolume.getD (k - 1) 0 = m.voronoiVolume.getD (k - 1) 0 := by
  intro n
  induction n with
  | zero =>
    intro i m m1 h
    simp [setDiagonalEntriesLoop] at h
    rw [← h]; simp
  | succ n ih =>
    intro i m m1 h k hk
    simp only [setDiagonalEntriesLoop] at h
    split at h
    · simp at h
    · split at h
      · rename_i m2 h2
        rw [ih (i + 1) m2 m1 h k hk, setEntry_volume h2 k hk]
        simp
      · simp at h

theorem run_volume : ∀ (cs : List Call) (m m1 : State), run m cs = .ok m1 →
    ∀ k, 1 ≤ k → m1.voronoiVolume.getD (k - 1) 0 = m.voronoiVolume.getD (k - 1) 0 + volumeOf cs k := by
  intro cs
  induction cs with
  | nil =>
    intro m m1 h k _
    simp [run] at h
    rw [← h]; simp [volumeOf]
  | cons c cs ih =>
    intro m m1 h k hk
    simp only [run] at h
    split at h
    · rename_i m2 h2
      rw [ih m2 m1 h k hk]
      cases c with
      | setEntry i j vol v =>
        rw [setEntry_volume h2 k hk]
        simp only [volumeOf]
        ring
      | setDiagonalEntries =>
        rw [setDiagonalEntriesLoop_volume _ _ _ _ h2 k hk]
        simp only [volumeOf]
    · simp at h

/-- C14: after `createSparseMatrix` and any sequence of calls of the assembly
interface that returns, for every `k` in `1..neq` the cell `voronoiVolume[k-1]`
is the sum over the `setEntry` calls of `vol*([i = k] + [j = k])`, whatever
branch each call took (insertion, replacement or suppression). -/
theorem voronoiVolume_accumulates (g : State) (neq es : Nat) (c : Bool) (eps : ℚ)
    (calls : List Call) (m : State) (k : Nat)
    (hrun : run (createSparseMatrix g neq es c eps) calls = .ok m)
    (hk1 : 1 ≤ k) (hk2 : k ≤ neq) :
    m.voronoiVolume[k - 1]? = some (volumeOf calls k) := by
  have hw := WF_run _ _ _ (WF_create g neq es c eps) hrun
  have hn : m.neq = neq := (run_neq _ _ _ hrun).1
  have hlt : k - 1 < m.voronoiVolume.length := by rw [hw.len_vol]; omega
  have h := run_volume _ _ _ hrun k hk1
  have h0 : (createSparseMatrix g neq es c eps).voronoiVolume.getD (k - 1) 0 = 0 := by
    simp only [createSparseMatrix, List.getD_eq_getElem?_getD]
    cases e : (List.replicate (1 + neq) (0 : ℚ))[k - 1]? with
    | none => rfl
    | some x =>
      have := List.mem_iff_getElem?.mpr ⟨_, e⟩
      rw [List.mem_replicate] at this
      simp [this.2]
  rw [h0, zero_add, List.getD_eq_getElem?_getD, List.getElem?_eq_getElem hlt] at h
  rw [List.getElem?_eq_getElem hlt]
  simpa using h

theorem scenarioVolumes_run :
    run (createSparseMatrix initialState 2 1 false (1 / 10 ^ 9)) callsVolumes =
      .ok scenarioVolumes := by
  with_unfolding_all rfl

theorem voronoiVolume_accumulates_witness :
    scenarioVolumes.voronoiVolume[1 - 1]? = some (volumeOf callsVolumes 1) :=
  voronoiVolume_accumulates initialState 2 1 false (1 / 10 ^ 9) callsVolumes scenarioVolumes 1
    scenarioVolumes_run (by decide) (by decide)

theorem scenarioVolumes_values :
    scenarioVolumes.voronoiVolume = [21 / 8, 9 / 8, 0] ∧
      volumeOf callsVolumes 1 = 21 / 8 ∧ scenarioVolumes.maximum = [2, 1 / 10 ^ 30, 1 / 10 ^ 30, 1 / 10 ^ 30] ∧
      colsOf scenarioVolumes 1 = [1, 2] := by
  refine ⟨?_, ?_, ?_, ?_⟩ <;> with_unfolding_all rfl

theorem setEntry_maximum_getD {m m1 : State} {i j : Nat} {vol : ℚ} {v : List ℚ}
    (h : setEntry m i j vol v = .ok m1) :
    m1.maximum.length = m.maximum.length ∧
    ∀ k, m1.maximum.getD k 0 =
      if k < m.matrixEntrySize then max (m.maximum.getD k 0) |v.getD k 0|
      else m.maximum.getD k 0 := by
  have hu := setEntry_maximum h
  rcases updateMaximum_inv v _ _ _ _ hu with ⟨a, b⟩ | hz
  · obtain ⟨mx1, h1, h2, h3⟩ := updateMaximum_spec v m.matrixEntrySize 0 m.maximum a b
    rw [hu] at h1
    simp only [Except.ok.injEq] at h1
    subst h1
    refine ⟨h2, ?_⟩
    intro k
    rw [h3 k]
    simp
  · rw [hz] at hu
    simp only [updateMaximum, Except.ok.injEq] at hu
    rw [← hu, hz]
    simp

theorem setDiagonalEntriesLoop_maximum :
    ∀ (n i : Nat) (m m1 : State), MaxNonneg m → setDiagonalEntriesLoop n i m = .ok m1 →
      m1.maximum.length = m.maximum.length ∧
      ∀ k, m1.maximum.getD k 0 = m.maximum.getD k 0 := by
  intro n
  induction n with
  | zero =>
    intro i m m1 _ h
    simp [setDiagonalEntriesLoop] at h
    rw [← h]; simp
  | succ n ih =>
    intro i m m1 hm h
    simp only [setDiagonalEntriesLoop] at h
    split at h
    · simp at h
    · split at h
      · rename_i m2 h2
        obtain ⟨a1, a2⟩ := ih (i + 1) m2 m1 (MaxNonneg_setEntry hm h2) h
        obtain ⟨b1, b2⟩ := setEntry_maximum_getD h2
        refine ⟨a1.trans b1, ?_⟩
        intro k
        rw [a2 k, b2 k]
        have hz : (List.replicate 4 (0 : ℚ)).getD k 0 = 0 := by
          simp only [List.getD_eq_getElem?_getD]
          cases e : (List.replicate 4 (0 : ℚ))[k]? with
          | none => rfl
          | some x =>
            have := List.mem_iff_getElem?.mpr ⟨_, e⟩
            rw [List.mem_replicate] at this
            simp [this.2]
        rw [hz, abs_zero, max_eq_left (hm k)]
        simp
      · simp at h

theorem run_maximum : ∀ (cs : List Call) (m m1 : State), MaxNonneg m → run m cs = .ok m1 →
    m1.maximum.length = m.maximum.length ∧
    ∀ k, k < m.matrixEntrySize → m1.maximum.getD k 0 = maximumOf cs k (m.maximum.getD k 0) := by
  intro cs
  induction cs with
  | nil =>
    intro m m1 _ h
    simp [run] at h
    rw [← h]; simp [maximumOf]
  | cons c cs ih =>
    intro m m1 hm h
    simp only [run] at h
    split at h
    · rename_i m2 h2
      have hes := (step_neq h2).2.1
      cases c with
      | setEntry i j vol v =>
        obtain ⟨a1, a2⟩ := ih m2 m1 (MaxNonneg_setEntry hm h2) h
        obtain ⟨b1, b2⟩ := setEntry_maximum_getD h2
        refine ⟨a1.trans b1, ?_⟩
        intro k hk
        rw [a2 k (by rw [hes]; exact hk), b2 k, if_pos hk]
        rfl
      | setDiagonalEntries =>
        obtain ⟨a1, a2⟩ := ih m2 m1 (MaxNonneg_setDiagonalEntriesLoop _ _ _ _ hm h2) h
        obtain ⟨b1, b2⟩ := setDiagonalEntriesLoop_maximum _ _ _ _ hm h2
        refine ⟨a1.trans b1, ?_⟩
        intro k hk
        rw [a2 k (by rw [hes]; exact hk), b2 k]
        rfl
    · simp at h

/-- C15: after `createSparseMatrix` and any sequence of calls of the assembly
interface that returns, for every component `c` below `matrixEntrySize` (and
below 4, the size of the array `maximum`) the cell `maximum[c]` is the running
maximum, from the initial `1e-30`, of `|v[c]|` over all values passed to
`setEntry`, whatever branch each call took; and no later `setEntry` call
decreases any cell of `maximum`. -/
theorem maximum_is_running_max (g : State) (neq es : Nat) (b : Bool) (eps : ℚ)
    (calls : List Call) (m : State) (c : Nat)
    (hrun : run (createSparseMatrix g neq es b eps) calls = .ok m)
    (hc : c < m.matrixEntrySize) (hc4 : c < 4) :
    m.maximum[c]? = some (maximumOf calls c (1 / 10 ^ 30)) ∧
    (1 : ℚ) / 10 ^ 30 ≤ maximumOf calls c (1 / 10 ^ 30) ∧
    ∀ i j vol v m1, setEntry m i j vol v = .ok m1 →
      ∀ k, m.maximum.getD k 0 ≤ m1.maximum.getD k 0 := by
  have hes := (run_neq _ _ _ hrun).2.1
  obtain ⟨h1, h2⟩ := run_maximum _ _ _ (MaxNonneg_create g neq es b eps) hrun
  have hlen : m.maximum.length = 4 := by
    rw [h1]; simp [createSparseMatrix]
  have hlt : c < m.maximum.length := by omega
  have h0 : (createSparseMatrix g neq es b eps).maximum.getD c 0 = 1 / 10 ^ 30 := by
    simp only [createSparseMatrix, List.getD_eq_getElem?_getD]
    have hl : c < (List.replicate 4 ((1 : ℚ) / 10 ^ 30)).length := by
      rw [List.length_replicate]; exact hc4
    rw [List.getElem?_eq_getElem hl, List.getElem_replicate]
    rfl
  have h3 := h2 c (by rw [← hes]; exact hc)
  rw [h0, List.getD_eq_getElem?_getD, List.getElem?_eq_getElem hlt] at h3
  have hmono : ∀ (cs : List Call) (x : ℚ), x ≤ maximumOf cs c x := by
    intro cs
    induction cs with
    | nil => intro x; exact le_refl x
    | cons a cs ih =>
      intro x
      cases a with
      | setEntry i j vol v => exact le_trans (le_max_left _ _) (ih _)
      | setDiagonalEntries => exact ih x
  refine ⟨?_, hmono calls _, ?_⟩
  · rw [List.getElem?_eq_getElem hlt]
    simpa using h3
  · intro i j vol v m1 hs k
    rw [(setEntry_maximum_getD hs).2 k]
    split
    · exact le_max_left _ _
    · exact le_refl _

theorem maximum_is_running_max_witness :
    scenarioVolumes.maximum[0]? = some (maximumOf callsVolumes 0 (1 / 10 ^ 30)) ∧
    (1 : ℚ) / 10 ^ 30 ≤ maximumOf callsVolumes 0 (1 / 10 ^ 30) ∧
    ∀ i j vol v m1, setEntry scenarioVolumes i j vol v = .ok m1 →
      ∀ k, scenarioVolumes.maximum.getD k 0 ≤ m1.maximum.getD k 0 :=
  maximum_is_running_max initialState 2 1 false (1 / 10 ^ 9) callsVolumes scenarioVolumes 0
    scenarioVolumes_run (by with_unfolding_all decide) (by decide)

theorem scenarioVolumes_maximum : maximumOf callsVolumes 0 (1 / 10 ^ 30) = 2 := by
  with_unfolding_all rfl

/-! ## The diagnostic of the negative coefficients -/

/-- C19 (the code at the failing input): with compression on, the replacement
of the existing entry `(1,1)` by
the value `[2]`, which the index holds already for `(2,2)`, does not go through
the index: the record at `(1,1)` is a new record (handle 2) that is neither
the record of the index (handle 1) nor a member of the index, it has no entry
number after `getmatrixsizes_`, and `getmatrixpointers_` faults on it. -/
theorem compressed_replacement_bypasses_index :
    run (createSparseMatrix initialState 2 1 true (1 / 10 ^ 9)) callsReplaceCompressed =
      .ok scenarioReplaceCompressed ∧
    entryExists (getOk initialState (run (createSparseMatrix initialState 2 1 true (1 / 10 ^ 9))
      [.setEntry 1 1 0 [1], .setEntry 2 2 0 [2]])) 1 1 = .ok true ∧
    rowOf scenarioReplaceCompressed 1 = [⟨1, 2⟩] ∧
    rowOf scenarioReplaceCompressed 2 = [⟨2, 1⟩] ∧
    scenarioReplaceCompressed.compressList = [1] ∧
    2 ∉ scenarioReplaceCompressed.compressList ∧
    valueOf scenarioReplaceCompressed.heap 1 = [2] ∧
    valueOf scenarioReplaceCompressed.heap 2 = [2] ∧
    getmatrixsizes_ scenarioReplaceCompressed = .ok (scenarioReplaceCompressedSized, 1, 2, 1) ∧
    (scenarioReplaceCompressedSized.heap[2]?).map (·.entryNum) = some none ∧
    getmatrixpointers_ scenarioReplaceCompressedSized = .error .indeterminate := by
  refine ⟨?_, ?_, ?_, ?_, ?_, ?_, ?_, ?_, ?_, ?_, ?_⟩ <;>
    first | with_unfolding_all rfl | with_unfolding_all decide

/-! ## The reference counts of the shared-value index -/

theorem positions_nodup {m : State} (hw : WF m) : (positions m).Nodup := by
  refine (positions_sorted hw).imp ?_
  intro p q h e
  subst e
  unfold posLt at h
  omega

theorem positions_insert_diagonal {m m1 : State} {i k : Nat} (hw : WF m) (hw1 : WF m1)
    (hfresh : i ∉ colsOf m i)
    (hrows : ∀ r x, x ∈ rowOf m1 r ↔ x ∈ rowOf m r ∨ (r = i ∧ x = ⟨i, k⟩)) :
    (positions m1).Perm ((i, ⟨i, k⟩) :: positions m) := by
  rw [List.perm_ext_iff_of_nodup (positions_nodup hw1)]
  · rintro ⟨r, x⟩
    rw [mem_positions hw1, hrows, List.mem_cons, mem_positions hw]
    simp only [Prod.mk.injEq]
    tauto
  · refine List.nodup_cons.mpr ⟨?_, positions_nodup hw⟩
    rw [mem_positions hw]
    intro h
    exact hfresh (List.mem_map.mpr ⟨_, h, rfl⟩)

theorem positions_insert_pair {m m1 : State} {i j info : Nat} (hw : WF m) (hw1 : WF m1)
    (hij : i ≠ j) (hfresh : i ∉ colsOf m j) (hfi : j ∉ colsOf m i)
    (hrows : ∀ r x, x ∈ rowOf m1 r ↔
      x ∈ rowOf m r ∨ (r = i ∧ x = ⟨j, info⟩) ∨ (r = j ∧ x = ⟨i, info⟩)) :
    (positions m1).Perm ((i, ⟨j, info⟩) :: (j, ⟨i, info⟩) :: positions m) := by
  rw [List.perm_ext_iff_of_nodup (positions_nodup hw1)]
  · rintro ⟨r, x⟩
    rw [mem_positions hw1, hrows, List.mem_cons, List.mem_cons, mem_positions hw]
    simp only [Prod.mk.injEq]
    tauto
  · refine List.nodup_cons.mpr ⟨?_, List.nodup_cons.mpr ⟨?_, positions_nodup hw⟩⟩
    · rw [List.mem_cons, mem_positions hw]
      rintro (h | h)
      · simp only [Prod.mk.injEq] at h
        exact hij h.1
      · exact hfi (List.mem_map.mpr ⟨_, h, rfl⟩)
    · rw [mem_positions hw]
      intro h
      exact hfresh (List.mem_map.mpr ⟨_, h, rfl⟩)

theorem countP_insert {m m1 : State} {i j info : Nat} (hw : WF m) (hw1 : WF m1)
    (hfresh : i ∉ colsOf m j) (hfi : j ∉ colsOf m i)
    (hrows : ∀ r x, x ∈ rowOf m1 r ↔
      x ∈ rowOf m r ∨ (r = i ∧ x = ⟨j, info⟩) ∨ (r = j ∧ x = ⟨i, info⟩))
    (q : Nat × entryKey → Bool) :
    (positions m1).countP q = (positions m).countP q +
      if i = j then (if q (i, ⟨i, info⟩) then 1 else 0)
      else (if q (i, ⟨j, info⟩) then 1 else 0) + (if q (j, ⟨i, info⟩) then 1 else 0) := by
  by_cases hij : i = j
  · subst hij
    have hp := positions_insert_diagonal (k := info) hw hw1 hfresh (fun r x => by
      rw [hrows]; tauto)
    rw [hp.countP_eq, List.countP_cons, if_pos rfl]
  · have hp := positions_insert_pair hw hw1 hij hfresh hfi hrows
    rw [hp.countP_eq, List.countP_cons, List.countP_cons, if_neg hij]
    omega

theorem refs_insert {m m1 : State} {i j info : Nat} (hw : WF m) (hw1 : WF m1)
    (hfresh : i ∉ colsOf m j) (hfi : j ∉ colsOf m i)
    (hrows : ∀ r x, x ∈ rowOf m1 r ↔
      x ∈ rowOf m r ∨ (r = i ∧ x = ⟨j, info⟩) ∨ (r = j ∧ x = ⟨i, info⟩)) (h : Nat) :
    upperRefs m1 h = upperRefs m h + (if info = h then 1 else 0) ∧
    allRefs m1 h + diagonalRefs m1 h =
      allRefs m h + diagonalRefs m h + (if info = h then 2 else 0) := by
  unfold upperRefs allRefs diagonalRefs
  rw [countP_insert hw hw1 hfresh hfi hrows, countP_insert hw hw1 hfresh hfi hrows,
    countP_insert hw hw1 hfresh hfi hrows]
  by_cases hij : i = j
  · subst hij
    by_cases e : info = h
    · simp [upper, e]; omega
    · simp [e]
  · have hji : ¬ j = i := fun e => hij e.symm
    by_cases e : info = h
    · by_cases hlt : i < j
      · have h1 : ¬ j ≤ i := by omega
        simp [upper, e, hlt.le, h1, hij, hji]; omega
      · have h1 : j ≤ i := by omega
        have h2 : ¬ i ≤ j := by omega
        simp [upper, e, h1, h2, hij, hji]; omega
    · simp [e, hij]

theorem InsertCL_mem {m : State} {key : List ℚ} {ec : Nat} :
    ∀ (L L1 : List Nat), InsertCL m key ec L = .ok L1 → ∀ h ∈ L1, h = ec ∨ h ∈ L := by
  intro L
  induction L with
  | nil =>
    intro L1 h x hx
    simp only [InsertCL, Except.ok.injEq] at h
    subst h
    simp at hx
    exact Or.inl hx
  | cons y l ih =>
    intro L1 h x hx
    simp only [InsertCL] at h
    split at h
    · simp at h
    · split at h
      · split at h
        · rename_i l1 hl1
          simp only [Except.ok.injEq] at h
          subst h
          rcases List.mem_cons.mp hx with rfl | hx1
          · exact Or.inr (List.mem_cons_self _ _)
          · rcases ih l1 hl1 x hx1 with e | e
            · exact Or.inl e
            · exact Or.inr (List.mem_cons_of_mem _ e)
        · simp at h
      · split at h
        · simp only [Except.ok.injEq] at h
          subst h
          exact Or.inr hx
        · simp only [Except.ok.injEq] at h
          subst h
          rcases List.mem_cons.mp hx with rfl | hx1
          · exact Or.inl rfl
          · exact Or.inr hx1

theorem refCounted_insert {m m1 : State} {i j info : Nat} (hw : WF m) (hw1 : WF m1)
    (hinv : RefCounted m) (hfresh : i ∉ colsOf m j) (hfi : j ∉ colsOf m i)
    (hrows : ∀ r x, x ∈ rowOf m1 r ↔
      x ∈ rowOf m r ∨ (r = i ∧ x = ⟨j, info⟩) ∨ (r = j ∧ x = ⟨i, info⟩))
    (hcase : (∃ r, m.heap[info]? = some r ∧
        m1.heap = m.heap.set info { r with refCount := r.refCount + 1 } ∧
        m1.compressList = m.compressList) ∨
      (info = m.heap.length ∧ ∃ rec, rec.refCount = 1 ∧ m1.heap = m.heap ++ [rec] ∧
        ∀ h ∈ m1.compressList, h = info ∨ h ∈ m.compressList)) :
    RefCounted m1 := by
  have hzero : ∀ h, m.heap.length ≤ h → upperRefs m h = 0 ∧ allRefs m h = 0 ∧
      diagonalRefs m h = 0 := by
    intro h hh
    have hno : ∀ p ∈ positions m, p.2.info ≠ h := by
      rintro ⟨r, x⟩ hp e
      have := hinv.inRange r x ((mem_positions hw).mp hp)
      simp only at e
      omega
    unfold upperRefs allRefs diagonalRefs
    refine ⟨?_, ?_, ?_⟩ <;>
    · rw [List.countP_eq_zero]
      intro p hp
      simp [hno p hp]
  rcases hcase with ⟨r, hr, hheap, hcl⟩ | ⟨hinfo, rec, hrc, hheap, hcl⟩
  · have hlt : info < m.heap.length := (List.getElem?_eq_some_iff.mp hr).1
    refine ⟨?_, ?_⟩
    · intro r1 ek hek
      rw [hheap, List.length_set]
      rcases (hrows r1 ek).mp hek with h1 | ⟨_, rfl⟩ | ⟨_, rfl⟩
      · exact hinv.inRange r1 ek h1
      · exact hlt
      · exact hlt
    · intro h hh
      rw [hcl] at hh
      obtain ⟨rec0, h0, h1, h2⟩ := hinv.counts h hh
      obtain ⟨e1, e2⟩ := refs_insert hw hw1 hfresh hfi hrows h
      by_cases e : info = h
      · subst e
        rw [hr] at h0
        simp only [Option.some.injEq] at h0
        subst h0
        refine ⟨{ r with refCount := r.refCount + 1 }, ?_, ?_, ?_⟩
        · rw [hheap]
          exact getElem?_set_self_of_lt hr
        · show r.refCount + 1 = _
          rw [e1, h1]
          simp
        · show 2 * (r.refCount + 1) = _
          have : ((allRefs m1 info + diagonalRefs m1 info : Nat) : Int) =
              ((allRefs m info + diagonalRefs m info + 2 : Nat) : Int) := by
            rw [e2]; simp
          push_cast at this
          linarith
      · refine ⟨rec0, ?_, ?_, ?_⟩
        · rw [hheap, List.getElem?_set]
          simp [e, h0]
        · rw [e1, h1]
          simp [e]
        · have : ((allRefs m1 h + diagonalRefs m1 h : Nat) : Int) =
              ((allRefs m h + diagonalRefs m h : Nat) : Int) := by
            rw [e2]; simp [e]
          push_cast at this
          linarith
  · refine ⟨?_, ?_⟩
    · intro r1 ek hek
      rw [hheap, List.length_append, List.length_singleton]
      rcases (hrows r1 ek).mp hek with h1 | ⟨_, rfl⟩ | ⟨_, rfl⟩
      · have := hinv.inRange r1 ek h1
        omega
      · show info < _
        omega
      · show info < _
        omega
    · intro h hh
      obtain ⟨e1, e2⟩ := refs_insert hw hw1 hfresh hfi hrows h
      rcases hcl h hh with e | hold
      · subst e
        obtain ⟨z1, z2, z3⟩ := hzero h (by omega)
        refine ⟨rec, ?_, ?_, ?_⟩
        · rw [hheap, hinfo]
          simp
        · rw [e1, z1, hrc]
          simp
        · have : ((allRefs m1 h + diagonalRefs m1 h : Nat) : Int) =
              ((allRefs m h + diagonalRefs m h + 2 : Nat) : Int) := by
            rw [e2]; simp
          rw [z2, z3] at this
          push_cast at this
          rw [hrc]
          linarith
      · obtain ⟨rec0, h0, h1, h2⟩ := hinv.counts h hold
        have hlt : h < m.heap.length := (List.getElem?_eq_some_iff.mp h0).1
        have e : ¬ info = h := by omega
        refine ⟨rec0, ?_, ?_, ?_⟩
        · rw [hheap, List.getElem?_append_left hlt]
          exact h0
        · rw [e1, h1]
          simp [e]
        · have : ((allRefs m1 h + diagonalRefs m1 h : Nat) : Int) =
              ((allRefs m h + diagonalRefs m h : Nat) : Int) := by
            rw [e2]; simp [e]
          push_cast at this
          linarith

theorem refCounted_createInfo {m m2 : State} {v : List ℚ} {info : Nat}
    (hc : m.compressionEnabled = true) (h : entryKeyCreateInfo m v = .ok (m2, info)) :
    (∃ r, m.heap[info]? = some r ∧
        m2.heap = m.heap.set info { r with refCount := r.refCount + 1 } ∧
        m2.compressList = m.compressList) ∨
      (info = m.heap.length ∧ ∃ rec, rec.refCount = 1 ∧ m2.heap = m.heap ++ [rec] ∧
        ∀ h ∈ m2.compressList, h = info ∨ h ∈ m.compressList) := by
  rcases entryKeyCreateInfo_compressed hc h with ⟨r, -, h1, -, h2, h3⟩ | ⟨-, h1, -, h2, h3⟩
  · exact Or.inl ⟨r, h1, h2, h3⟩
  · exact Or.inr ⟨h1, _, rfl, h2, InsertCL_mem _ _ h3⟩

theorem refCounted_setEntryBody {m m1 : State} {i j : Nat} {v : List ℚ} (hw : WF m)
    (hc : m.compressionEnabled = true) (hinv : RefCounted m)
    (hex : entryExists m i j = .ok false) (h : setEntryBody m i j v = .ok m1) :
    RefCounted m1 := by
  have hw1 := WF_setEntryBody hw h
  obtain ⟨rowj0, hrow0, hsearch⟩ := entryExists_false hex
  have hfresh : i ∉ colsOf m j := search_none_not_mem hw hrow0 hsearch
  have hfi : j ∉ colsOf m i := fun hm => hfresh (hw.sym i j hm)
  obtain ⟨rowj, hrow, hcase⟩ := setEntryBody_inv h
  rw [hrow0] at hrow
  simp only [Except.ok.injEq] at hrow
  subst hrow
  rcases hcase with ⟨p, hp, _⟩ | ⟨_, _, _, rfl⟩ | ⟨_, hij, _, hpair⟩ | ⟨_, hij, hd⟩
  · rw [hsearch] at hp; simp at hp
  · exact hinv
  · obtain ⟨nr, m2, info, hci, hheap, hcl, _, hrows⟩ := insertPair_rows hw hij hfresh hpair
    have hcase := refCounted_createInfo (m := { m with ncon_row := nr }) hc hci
    rw [← hheap, ← hcl] at hcase
    exact refCounted_insert hw hw1 hinv hfresh hfi hrows hcase
  · obtain ⟨nr, m2, info, hci, hheap, hcl, _, hrows⟩ := insertDiagonal_rows hw hij hfresh hd
    have hcase := refCounted_createInfo (m := { m with ncon_row := nr }) hc hci
    rw [← hheap, ← hcl] at hcase
    subst hij
    refine refCounted_insert (i := i) (j := i) hw hw1 hinv hfresh hfresh ?_ hcase
    intro r x
    rw [hrows r x]
    tauto

theorem refCounted_setEntry {m m1 : State} {i j : Nat} {vol : ℚ} {v : List ℚ} (hw : WF m)
    (hc : m.compressionEnabled = true) (hinv : RefCounted m)
    (hex : entryExists m i j = .ok false) (h : setEntry m i j vol v = .ok m1) :
    RefCounted m1 := by
  obtain ⟨v2, mx, _, _, _, _, hvl, _, hb⟩ := setEntry_inv h
  have hw0 : WF { m with voronoiVolume := v2, maximum := mx } :=
    WF_of_same_cols hw rfl rfl hvl rfl (fun _ => rfl)
  have hinv0 : RefCounted { m with voronoiVolume := v2, maximum := mx } :=
    ⟨hinv.inRange, hinv.counts⟩
  have hex0 : entryExists { m with voronoiVolume := v2, maximum := mx } i j = .ok false := hex
  exact refCounted_setEntryBody hw0 hc hinv0 hex0 hb

theorem freshRun_cons {m : State} {call : Call} {cs : List Call}
    (h : freshRun m (call :: cs) = true) :
    ∃ i j vol v, call = .setEntry i j vol v ∧ entryExists m i j = .ok false ∧
      ∀ m1, setEntry m i j vol v = .ok m1 → freshRun m1 cs = true := by
  cases call with
  | setDiagonalEntries => simp [freshRun] at h
  | setEntry i j vol v =>
    simp only [freshRun, Bool.and_eq_true] at h
    obtain ⟨h1, h4⟩ := h
    refine ⟨i, j, vol, v, rfl, ?_, ?_⟩
    · split at h1
      · rename_i b hb
        simp only [Bool.not_eq_true'] at h1
        rw [hb, h1]
      · simp at h1
    · intro m1 hm1
      rw [hm1] at h4
      simpa using h4

theorem refCounted_run :
    ∀ (cs : List Call) (m m1 : State), WF m → m.compressionEnabled = true → RefCounted m →
      freshRun m cs = true → run m cs = .ok m1 → RefCounted m1 := by
  intro cs
  induction cs with
  | nil =>
    intro m m1 _ _ hinv _ h
    simp only [run, Except.ok.injEq] at h
    subst h
    exact hinv
  | cons call cs ih =>
    intro m m1 hw hc hinv hio h
    obtain ⟨i, j, vol, v, rfl, hex, hnext⟩ := freshRun_cons hio
    simp only [run, step] at h
    split at h
    · rename_i m2 h2
      exact ih m2 m1 (WF_setEntry hw h2) ((setEntry_neq h2).2.2.1.trans hc)
        (refCounted_setEntry hw hc hinv hex h2) (hnext m2 h2) h
    · simp at h

theorem RefCounted_create (g : State) (neq es : Nat) (b : Bool) (eps : ℚ) :
    RefCounted (createSparseMatrix g neq es b eps) where
  inRange := fun r ek h => by rw [rowOf_create] at h; simp at h
  counts := fun h hh => by simp [createSparseMatrix] at hh

/-- C20 (counterexample): with compression on, after the one call
`setEntry(1,2,0,[1])` the record of the index has `refCount = 1` although the
two positions `(1,2)` and `(2,1)` point to it. -/
theorem refCount_counts_pair_once :
    run (createSparseMatrix initialState 2 1 true (1 / 10 ^ 9)) callsPair = .ok scenarioPair ∧
    scenarioPair.compressList = [0] ∧
    (scenarioPair.heap[0]?).map (·.refCount) = some 1 ∧
    positions scenarioPair = [(1, ⟨2, 0⟩), (2, ⟨1, 0⟩)] ∧
    allRefs scenarioPair 0 = 2 := by
  refine ⟨?_, ?_, ?_, ?_, ?_⟩ <;> with_unfolding_all rfl

/-- C20 (amended): with compression on, after `createSparseMatrix` and any
sequence of `setEntry` calls that returns and in which no call targets a
position that exists already, every record of the index has `refCount` equal
to the number of positions with `column >= row` that point to it: a diagonal
position counts once and the two positions of a symmetric pair count once
together, so twice the `refCount` is the number of positions plus the number of
diagonal positions that point to the record. -/
theorem refCount_counts_upper_positions (g : State) (neq es : Nat) (eps : ℚ)
    (calls : List Call) (m : State)
    (hrun : run (createSparseMatrix g neq es true eps) calls = .ok m)
    (hfresh : freshRun (createSparseMatrix g neq es true eps) calls = true) :
    ∀ h ∈ m.compressList, ∃ rec, m.heap[h]? = some rec ∧
      rec.refCount = (upperRefs m h : Int) ∧
      2 * rec.refCount = (allRefs m h : Int) + (diagonalRefs m h : Int) :=
  (refCounted_run calls _ m (WF_create g neq es true eps) rfl
    (RefCounted_create g neq es true eps) hfresh hrun).counts

theorem refCount_counts_upper_positions_witness :
    ∃ rec, scenarioStable.heap[0]? = some rec ∧
      rec.refCount = (upperRefs scenarioStable 0 : Int) ∧
      2 * rec.refCount = (allRefs scenarioStable 0 : Int) + (diagonalRefs scenarioStable 0 : Int) :=
  refCount_counts_upper_positions initialState 3 1 (1 / 10 ^ 9) callsStable scenarioStable
    (by with_unfolding_all rfl) (by with_unfolding_all rfl) 0 (by with_unfolding_all decide)

theorem scenarioStable_refCount :
    scenarioStable.compressList = [0, 1] ∧
      (scenarioStable.heap[0]?).map (·.refCount) = some 2 ∧
      upperRefs scenarioStable 0 = 2 ∧ allRefs scenarioStable 0 = 4 := by
  refine ⟨?_, ?_, ?_, ?_⟩ <;> with_unfolding_all rfl

/-! ## The diagonal placeholders -/

theorem entryKeyCreateInfo_plain_value {m m2 : State} {v : List ℚ} {info : Nat}
    (hc : m.compressionEnabled = false) (h : entryKeyCreateInfo m v = .ok (m2, info)) :
    info = m.heap.length ∧
      m2.heap = m.heap ++ [{ value := v.take m.matrixEntrySize, entryNum := none,
                             refCount := 1, freed := false }] := by
  unfold entryKeyCreateInfo at h
  rw [if_neg (by rw [hc]; simp)] at h
  unfold entryComponentCreate at h
  split at h
  · simp at h
  · simp only [Except.ok.injEq, Prod.mk.injEq] at h
    obtain ⟨h1, h2⟩ := h
    subst h1
    exact ⟨h2.symm, rfl⟩

/-- One call `setEntry(r,r,_,v)`: afterwards row `r` holds one diagonal key,
all other keys are as before; without compression the diagonal key points to a
new record with the value `v`, and only the record of the old diagonal key has
changed. -/
theorem diagonal_step {m m1 : State} {r : Nat} {vol : ℚ} {v : List ℚ} (hw : WF m)
    (h : setEntry m r r vol v = .ok m1) :
    ∃ info, (∀ r1 x, x ∈ rowOf m1 r1 ↔
        ((r1 = r ∧ x = ⟨r, info⟩) ∨ (x ∈ rowOf m r1 ∧ ¬ (r1 = r ∧ x.column = r)))) ∧
      (m.compressionEnabled = false → info = m.heap.length ∧
        m1.heap.length = m.heap.length + 1 ∧
        m1.heap[m.heap.length]? = some { value := v.take m.matrixEntrySize, entryNum := none,
                                         refCount := 1, freed := false } ∧
        ∀ h : Nat, h < m.heap.length → (∀ x ∈ rowOf m r, x.column = r → x.info ≠ h) →
          m1.heap[h]? = m.heap[h]?) := by
  obtain ⟨v2, mx, _, _, _, _, hvl, _, hb⟩ := setEntry_inv h
  have hw0 : WF { m with voronoiVolume := v2, maximum := mx } :=
    WF_of_same_cols hw rfl rfl hvl rfl (fun _ => rfl)
  obtain ⟨rowj, hrow, hcase⟩ := setEntryBody_inv hb
  rcases hcase with ⟨p, hp, hu⟩ | ⟨_, hij, _, _⟩ | ⟨_, hij, _, _⟩ | ⟨hn, _, hd⟩
  · obtain ⟨entryMat, m2, hem, hcol, hrel, hheap, _, _, hrows⟩ := update_rows hw0 hrow hp hu
    have hem : entryMat ∈ rowOf m r := hem
    refine ⟨m2.heap.length, ?_, ?_⟩
    · intro r1 x
      rw [hrows r1 x]
      show _ ∨ (x ∈ rowOf m r1 ∧ _) ↔ _
      tauto
    · intro hc
      obtain ⟨rec, hr1, hr2, hh⟩ := releaseRecord_plain
        (m := { m with voronoiVolume := v2, maximum := mx }) hc hrel
      have hr1 : m.heap[entryMat.info]? = some rec := hr1
      have hh : m2.heap = m.heap.set entryMat.info { rec with freed := true } := hh
      have hes : m2.matrixEntrySize = m.matrixEntrySize := by
        have := releaseRecord_frame hrel
        rw [this]
      have hlen : m2.heap.length = m.heap.length := by rw [hh, List.length_set]
      refine ⟨hlen, by rw [hheap, List.length_append, hlen]; rfl, ?_, ?_⟩
      · rw [hheap, ← hlen, hes]
        simp
      · intro h0 hlt hno
        rw [hheap, List.getElem?_append_left (by omega), hh, List.getElem?_set]
        have := hno entryMat hem hcol
        simp [this]
  · exact absurd rfl hij
  · exact absurd rfl hij
  · have hfresh : r ∉ colsOf { m with voronoiVolume := v2, maximum := mx } r :=
      search_none_not_mem hw0 hrow hn
    have hfresh1 : r ∉ colsOf m r := hfresh
    obtain ⟨nr, m2, info, hci, hheap, _, _, hrows⟩ := insertDiagonal_rows hw0 rfl hfresh hd
    refine ⟨info, ?_, ?_⟩
    · intro r1 x
      rw [hrows r1 x]
      show (x ∈ rowOf m r1 ∨ _) ↔ _
      constructor
      · rintro (h1 | h1)
        · refine Or.inr ⟨h1, ?_⟩
          rintro ⟨rfl, e⟩
          exact hfresh1 (List.mem_map.mpr ⟨x, h1, e⟩)
        · exact Or.inl h1
      · rintro (h1 | h1)
        · exact Or.inr h1
        · exact Or.inl h1.1
    · intro hc
      obtain ⟨e1, e2⟩ := entryKeyCreateInfo_plain_value
        (m := { m with voronoiVolume := v2, maximum := mx, ncon_row := nr }) hc hci
      have e2 : m2.heap = m.heap ++ [{ value := v.take m.matrixEntrySize, entryNum := none,
                                       refCount := 1, freed := false }] := e2
      refine ⟨e1, by rw [hheap, e2]; simp, ?_, ?_⟩
      · rw [hheap, e2]
        simp
      · intro h0 hlt _
        rw [hheap, e2, List.getElem?_append_left hlt]

/-- The keys after the loop of `setDiagonalEntries` over the rows
`i, ..., i+n-1`: each of these rows holds its diagonal, and every other key is
as before. -/
theorem diagonal_loop_rows :
    ∀ (n i : Nat) (m m1 : State), WF m → setDiagonalEntriesLoop n i m = .ok m1 →
      (∀ r x, x.column ≠ r → (x ∈ rowOf m1 r ↔ x ∈ rowOf m r)) ∧
      (∀ r x, ¬ (i ≤ r ∧ r < i + n) → (x ∈ rowOf m1 r ↔ x ∈ rowOf m r)) ∧
      (∀ r, i ≤ r → r < i + n → r ∈ colsOf m1 r) := by
  intro n
  induction n with
  | zero =>
    intro i m m1 _ h
    simp only [setDiagonalEntriesLoop, Except.ok.injEq] at h
    subst h
    exact ⟨fun _ _ _ => Iff.rfl, fun _ _ _ => Iff.rfl, fun r h1 h2 => by omega⟩
  | succ n ih =>
    intro i m m1 hw h
    simp only [setDiagonalEntriesLoop] at h
    split at h
    · simp at h
    · split at h
      · rename_i m2 h2
        obtain ⟨info, hrows, -⟩ := diagonal_step hw h2
        obtain ⟨a1, a2, a3⟩ := ih (i + 1) m2 m1 (WF_setEntry hw h2) h
        refine ⟨?_, ?_, ?_⟩
        · intro r x hx
          rw [a1 r x hx, hrows r x]
          constructor
          · rintro (⟨e1, e2⟩ | ⟨h1, _⟩)
            · exact absurd (by rw [e2, e1]) hx
            · exact h1
          · intro h1
            exact Or.inr ⟨h1, fun e => hx (by rw [e.2, e.1])⟩
        · intro r x hr
          rw [a2 r x (by omega), hrows r x]
          constructor
          · rintro (⟨rfl, _⟩ | ⟨h1, _⟩)
            · omega
            · exact h1
          · intro h1
            exact Or.inr ⟨h1, fun e => hr ⟨by omega, by omega⟩⟩
        · intro r hr1 hr2
          by_cases e : r = i
          · subst e
            have hmem : (⟨r, info⟩ : entryKey) ∈ rowOf m1 r := by
              rw [a2 r _ (by omega), hrows r _]
              exact Or.inl ⟨rfl, rfl⟩
            exact List.mem_map.mpr ⟨_, hmem, rfl⟩
          · exact a3 r (by omega) (by omega)
      · simp at h

/-- With compression on nothing more can be said of the record at `(i,i)`:
here `setDiagonalEntries` gives the missing diagonal `(1,1)` the record 0 of
`(1,3)`, and the replacement of the diagonal `(2,2)` then deletes from the
compress list the first record equivalent to the old value, which is that
record 0: `(1,1)` ends on a freed record outside the list. -/
theorem diagonal_placeholder_with_compression :
    run (createSparseMatrix initialState 3 1 true (1 / 10)) callsSmallFirst =
      .ok scenarioSmallFirst ∧
    scenarioSmallFirst.compressList = [0, 1, 2] ∧
    setDiagonalEntries scenarioSmallFirst = .ok scenarioSmallFirstDiagonal ∧
    rowOf scenarioSmallFirstDiagonal 1 = [⟨1, 0⟩, ⟨2, 2⟩, ⟨3, 0⟩] ∧
    rowOf scenarioSmallFirstDiagonal 2 = [⟨1, 2⟩, ⟨2, 3⟩] ∧
    rowOf scenarioSmallFirstDiagonal 3 = [⟨1, 0⟩, ⟨3, 1⟩] ∧
    (scenarioSmallFirstDiagonal.heap[0]?).map (fun r => (r.value, r.freed)) =
      some ([1 / 1000], true) ∧
    scenarioSmallFirstDiagonal.compressList = [1, 2] := by
  refine ⟨?_, ?_, ?_, ?_, ?_, ?_, ?_, ?_⟩ <;> with_unfolding_all rfl

/-! ## The stored columns only grow -/

theorem cols_mono_setEntryBody {m m1 : State} {i j : Nat} {v : List ℚ} (hw : WF m)
    (h : setEntryBody m i j v = .ok m1) :
    ∀ r c, c ∈ colsOf m r → c ∈ colsOf m1 r := by
  obtain ⟨rowj, hrow, hcase⟩ := setEntryBody_inv h
  intro r c hc
  obtain ⟨x, hx, rfl⟩ := List.mem_map.mp hc
  rcases hcase with ⟨p, hp, hu⟩ | ⟨_, _, _, rfl⟩ | ⟨hn, hij, _, hpair⟩ | ⟨hn, hij, hd⟩
  · obtain ⟨entryMat, m2, _, _, _, _, _, _, hrows⟩ := update_rows hw hrow hp hu
    by_cases e : (r = j ∧ x.column = i) ∨ (r = i ∧ x.column = i)
    · have hmem : (⟨i, m2.heap.length⟩ : entryKey) ∈ rowOf m1 r := by
        rw [hrows]
        exact Or.inl ⟨by tauto, rfl⟩
      have hcol : x.column = i := by tauto
      exact List.mem_map.mpr ⟨_, hmem, hcol.symm⟩
    · have hmem : x ∈ rowOf m1 r := by
        rw [hrows]
        exact Or.inr ⟨hx, by tauto, by tauto⟩
      exact List.mem_map.mpr ⟨x, hmem, rfl⟩
  · exact hc
  · have hfresh := search_none_not_mem hw hrow hn
    obtain ⟨_, _, _, _, _, _, _, hrows⟩ := insertPair_rows hw hij hfresh hpair
    exact List.mem_map.mpr ⟨x, (hrows r x).mpr (Or.inl hx), rfl⟩
  · have hfresh := search_none_not_mem hw hrow hn
    obtain ⟨_, _, _, _, _, _, _, hrows⟩ := insertDiagonal_rows hw hij hfresh hd
    exact List.mem_map.mpr ⟨x, (hrows r x).mpr (Or.inl hx), rfl⟩

theorem cols_mono_setEntry {m m1 : State} {i j : Nat} {vol : ℚ} {v : List ℚ} (hw : WF m)
    (h : setEntry m i j vol v = .ok m1) :
    ∀ r c, c ∈ colsOf m r → c ∈ colsOf m1 r := by
  obtain ⟨v2, mx, _, _, _, _, hvl, _, hb⟩ := setEntry_inv h
  have hw0 : WF { m with voronoiVolume := v2, maximum := mx } :=
    WF_of_same_cols hw rfl rfl hvl rfl (fun _ => rfl)
  exact fun r c hc => cols_mono_setEntryBody hw0 hb r c hc

theorem cols_mono_step {m m1 : State} {call : Call} (hw : WF m) (h : step m call = .ok m1) :
    ∀ r c, c ∈ colsOf m r → c ∈ colsOf m1 r := by
  cases call with
  | setEntry i j vol v => exact cols_mono_setEntry hw h
  | setDiagonalEntries =>
    obtain ⟨a1, a2, a3⟩ := diagonal_loop_rows _ _ _ _ hw h
    intro r c hc
    obtain ⟨x, hx, rfl⟩ := List.mem_map.mp hc
    by_cases e : x.column = r
    · by_cases hr : 1 ≤ r ∧ r < 1 + m.neq
      · rw [e]
        exact a3 r hr.1 hr.2
      · exact List.mem_map.mpr ⟨x, (a2 r x hr).mpr hx, rfl⟩
    · exact List.mem_map.mpr ⟨x, (a1 r x e).mpr hx, rfl⟩

theorem cols_mono_run : ∀ (cs : List Call) (m m1 : State), WF m → run m cs = .ok m1 →
    ∀ r c, c ∈ colsOf m r → c ∈ colsOf m1 r := by
  intro cs
  induction cs with
  | nil =>
    intro m m1 _ h
    simp only [run, Except.ok.injEq] at h
    subst h
    exact fun _ _ hc => hc
  | cons call cs ih =>
    intro m m1 hw h r c hc
    simp only [run] at h
    split at h
    · rename_i m2 h2
      exact ih m2 m1 (WF_step hw h2) h r c (cols_mono_step hw h2 r c hc)
    · simp at h

/-- Once `setDiagonalEntries` has been called in a run, every row holds its
diagonal. -/
theorem diagonal_present : ∀ (cs : List Call) (m m1 : State), WF m → run m cs = .ok m1 →
    Call.setDiagonalEntries ∈ cs → ∀ r, 1 ≤ r → r ≤ m.neq → r ∈ colsOf m1 r := by
  intro cs
  induction cs with
  | nil => intro m m1 _ _ hmem; simp at hmem
  | cons call cs ih =>
    intro m m1 hw h hmem r hr1 hr2
    simp only [run] at h
    split at h
    · rename_i m2 h2
      by_cases e : call = Call.setDiagonalEntries
      · subst e
        obtain ⟨_, _, a3⟩ := diagonal_loop_rows _ _ _ _ hw h2
        exact cols_mono_run cs m2 m1 (WF_step hw h2) h r r (a3 r hr1 (by omega))
      · have hmem2 : Call.setDiagonalEntries ∈ cs := by
          rcases List.mem_cons.mp hmem with h0 | h0
          · exact absurd h0.symm e
          · exact h0
        exact ih m2 m1 (WF_step hw h2) h hmem2 r hr1 (by rw [(step_neq h2).1]; exact hr2)
    · simp at h

/-- C13: on a matrix built by `createSparseMatrix` and a sequence of calls of
the assembly interface, after `getmatrixsizes_` the routine
`getoccupiedcolumns_` returns, and for every row `i` in `1..neq` that holds its
diagonal entry the cell `diagonals[i-1]` is an index `d` with `0 <= d < ncon`
and `occupiedColumns[d] = i`; every row holds its diagonal entry once
`setDiagonalEntries` has been called. -/
theorem diagonals_point_at_diagonal (g : State) (neq es : Nat) (c : Bool) (eps : ℚ)
    (calls : List Call) (m m1 : State) (nw ncoefs ncon_max : Nat)
    (hrun : run (createSparseMatrix g neq es c eps) calls = .ok m)
    (hs : getmatrixsizes_ m = .ok (m1, nw, ncoefs, ncon_max)) :
    ∃ m2, getoccupiedcolumns_ m1 = .ok m2 ∧
      (∀ i, 1 ≤ i → i ≤ neq → i ∈ colsOf m i →
        ∃ d, m2.diagonalIndices[i - 1]? = some (some d) ∧ d < ncoefs ∧
          m2.occupiedColumns[d]? = some i) ∧
      (Call.setDiagonalEntries ∈ calls → ∀ i, 1 ≤ i → i ≤ neq → i ∈ colsOf m i) := by
  obtain ⟨hw, hn, hn1, hlen, -, hpos, hsort, hnc, hco⟩ := sized_positions hrun hs
  obtain ⟨m2, a1, a2, -, a4⟩ := getoccupiedcolumns_spec hlen (by rw [hpos]; exact hsort)
    (by rw [hpos]; exact hnc)
  rw [hpos] at a2 a4
  refine ⟨m2, a1, ?_, ?_⟩
  · intro i hi1 hi2 hd
    obtain ⟨x, hx, hcol⟩ := List.mem_map.mp hd
    have hp : (i, x) ∈ positions m := (mem_positions hw).mpr hx
    obtain ⟨d, hd⟩ := List.mem_iff_getElem?.mp hp
    have hlt : d < (positions m).length := (List.getElem?_eq_some_iff.mp hd).1
    refine ⟨d, a4 d (i, x) hd hcol, by omega, ?_⟩
    rw [a2, List.getElem?_map, hd]
    simp [hcol]
  · intro hmem i hi1 hi2
    have hw0 := WF_create g neq es c eps
    exact diagonal_present calls _ m hw0 hrun hmem i hi1 hi2

theorem diagonals_point_at_diagonal_witness :
    ∃ m2, getoccupiedcolumns_ scenarioS2Sized = .ok m2 ∧
      (∀ i, 1 ≤ i → i ≤ 2 → i ∈ colsOf scenarioS2 i →
        ∃ d, m2.diagonalIndices[i - 1]? = some (some d) ∧ d < 4 ∧
          m2.occupiedColumns[d]? = some i) ∧
      (Call.setDiagonalEntries ∈ [Call.setEntry 1 2 (1 / 2) [2], Call.setDiagonalEntries] →
        ∀ i, 1 ≤ i → i ≤ 2 → i ∈ colsOf scenarioS2 i) :=
  diagonals_point_at_diagonal initialState 2 1 false (1 / 10 ^ 12)
    [.setEntry 1 2 (1 / 2) [2], .setDiagonalEntries] scenarioS2 _ 3 4 2
    scenarioS2_run scenarioS2_sizes

/-! ## Scenarios S2 and S3 -/

/-- C22 (counterexample): in scenario S2 `getmatrixsizes_` gives `ncon = 4`,
and the array that `getentriesperrow_` returns is not `[3,3,5]`. -/
theorem scenarioS2_prefix_differs :
    run (createSparseMatrix initialState 2 1 false (1 / 10 ^ 12))
      [.setEntry 1 2 (1 / 2) [2], .setDiagonalEntries] = .ok scenarioS2 ∧
    getmatrixsizes_ scenarioS2 = .ok (scenarioS2Sized, 3, 4, 2) ∧
    getentriesperrow_ scenarioS2Sized = .ok scenarioS2Prefix ∧
    scenarioS2Prefix.ncon_row ≠ [3, 3, 5] := by
  refine ⟨?_, ?_, ?_, ?_⟩ <;> first | with_unfolding_all rfl | with_unfolding_all decide

/-- C22 (amended): in scenario S2 `getmatrixsizes_` gives `ncon = 4`, the rows
1 and 2 hold two keys each, and `getentriesperrow_` returns the prefix array
`[3,5,7]`. -/
theorem scenarioS2_prefix_array :
    run (createSparseMatrix initialState 2 1 false (1 / 10 ^ 12))
      [.setEntry 1 2 (1 / 2) [2], .setDiagonalEntries] = .ok scenarioS2 ∧
    scenarioS2.ncon_row = [0, 2, 2] ∧
    colsOf scenarioS2 1 = [1, 2] ∧ colsOf scenarioS2 2 = [1, 2] ∧
    getmatrixsizes_ scenarioS2 = .ok (scenarioS2Sized, 3, 4, 2) ∧
    scenarioS2Sized.ncon = 4 ∧
    getentriesperrow_ scenarioS2Sized = .ok scenarioS2Prefix ∧
    scenarioS2Prefix.ncon_row = [3, 5, 7] := by
  refine ⟨?_, ?_, ?_, ?_, ?_, ?_, ?_, ?_⟩ <;> with_unfolding_all rfl

/-- C23: in scenario S3 the compress list holds exactly two records, one with
the value `0` and one with the value `1`, `getmatrixsizes_` returns
`num_written_coefs = 2`, and `getmatrixpointers_` gives the positions `(1,2)`,
`(2,1)`, `(2,3)` and `(3,2)` the same entry number. -/
theorem scenarioS3_shares_entryNum :
    run (createSparseMatrix initialState 3 1 true (1 / 10 ^ 9)) callsS3 = .ok scenarioS3 ∧
    scenarioS3.compressList = [1, 0] ∧
    valueOf scenarioS3.heap 1 = [0] ∧ valueOf scenarioS3.heap 0 = [1] ∧
    positions scenarioS3 =
      [(1, ⟨1, 1⟩), (1, ⟨2, 0⟩), (2, ⟨1, 0⟩), (2, ⟨2, 1⟩), (2, ⟨3, 0⟩), (3, ⟨2, 0⟩),
       (3, ⟨3, 1⟩)] ∧
    getmatrixsizes_ scenarioS3 = .ok (scenarioS3Sized, 2, 7, 3) ∧
    scenarioS3Sized.num_written_coefs = 2 ∧
    getmatrixpointers_ scenarioS3Sized = .ok scenarioS3Pointers ∧
    scenarioS3Pointers.entryNumbers = [1, 2, 2, 1, 2, 2, 1] := by
  refine ⟨?_, ?_, ?_, ?_, ?_, ?_, ?_, ?_, ?_⟩ <;> with_unfolding_all rfl

/-! ## Two calls of `getentriesperrow_` -/

/-- C24: on every matrix with `neq >= 1` whose array `ncon_row` has `neq+1`
cells, two consecutive calls of `getentriesperrow_` return, and the second
array differs from the first: its cell 1 is the first array's cell 1 plus
`neq+1`, so the difference `ncon_row[1] - ncon_row[0]` of the second array is
the first array's cell 1 and no longer the count of row 1. -/
theorem getentriesperrow_not_reentrant (m : State) (hlen : m.ncon_row.length = m.neq + 1)
    (hneq : 1 ≤ m.neq) :
    ∃ m1 m2 a, getentriesperrow_ m = .ok m1 ∧ getentriesperrow_ m1 = .ok m2 ∧
      m1.ncon_row[1]? = some a ∧ m2.ncon_row[1]? = some (a + (m.neq + 1)) ∧
      m2.ncon_row ≠ m1.ncon_row ∧
      m2.ncon_row[0]? = some (m.neq + 1) ∧
      a = m.neq + 1 + m.ncon_row.getD 1 0 ∧
      a + (m.neq + 1) - (m.neq + 1) ≠ m.ncon_row.getD 1 0 := by
  obtain ⟨b, hb, hbl, hpre⟩ := getentriesperrow_spec m hlen
  obtain ⟨b2, hb2, hbl2, hpre2⟩ := getentriesperrow_spec { m with ncon_row := b }
    (by show b.length = m.neq + 1; exact hbl)
  have h1 := hpre 1 hneq
  have h2 := hpre2 1 hneq
  have h0 := hpre2 0 (Nat.zero_le _)
  have hI : Finset.Icc 1 1 = {1} := by ext k; simp
  simp only [hI, Finset.sum_singleton] at h1 h2
  have hI0 : Finset.Icc 1 0 = (∅ : Finset Nat) := by ext k; simp
  simp only [hI0, Finset.sum_empty, Nat.add_zero] at h0
  have hg : b.getD 1 0 = m.neq + 1 + m.ncon_row.getD 1 0 := getD_of_getElem? h1
  refine ⟨_, _, m.neq + 1 + m.ncon_row.getD 1 0, hb, hb2, h1, ?_, ?_, h0, rfl, by omega⟩
  · show b2[1]? = _
    rw [h2]
    show some (m.neq + 1 + b.getD 1 0) = _
    rw [hg]
    congr 1
    omega
  · show b2 ≠ b
    intro e
    rw [e, h1] at h2
    have h3 : b.getD 1 0 = m.neq + 1 + m.ncon_row.getD 1 0 := hg
    simp only [Option.some.injEq] at h2
    have h4 : m.neq + 1 + m.ncon_row.getD 1 0 = m.neq + 1 + b.getD 1 0 := h2
    omega

theorem getentriesperrow_not_reentrant_witness :
    ∃ m1 m2 a, getentriesperrow_ scenarioS2Sized = .ok m1 ∧ getentriesperrow_ m1 = .ok m2 ∧
      m1.ncon_row[1]? = some a ∧ m2.ncon_row[1]? = some (a + (scenarioS2Sized.neq + 1)) ∧
      m2.ncon_row ≠ m1.ncon_row ∧
      m2.ncon_row[0]? = some (scenarioS2Sized.neq + 1) ∧
      a = scenarioS2Sized.neq + 1 + scenarioS2Sized.ncon_row.getD 1 0 ∧
      a + (scenarioS2Sized.neq + 1) - (scenarioS2Sized.neq + 1) ≠
        scenarioS2Sized.ncon_row.getD 1 0 :=
  getentriesperrow_not_reentrant scenarioS2Sized (by with_unfolding_all rfl)
    (by with_unfolding_all decide)

theorem scenarioS2_second_prefix :
    getentriesperrow_ scenarioS2Prefix =
      .ok { scenarioS2Prefix with ncon_row := [3, 8, 15] } := by
  with_unfolding_all rfl

/-! ## The number of written coefficients without compression -/

theorem pattern_nodup {m : State} (hw : WF m) : (pattern m).Nodup := by
  unfold pattern
  rw [List.Nodup, List.pairwise_map]
  refine (positions_sorted hw).imp ?_
  intro p q h e
  simp only [Prod.mk.injEq] at e
  unfold posLt at h
  omega

theorem mem_pattern {m : State} (hw : WF m) {r c : Nat} :
    (r, c) ∈ pattern m ↔ c ∈ colsOf m r := by
  unfold pattern colsOf
  simp only [List.mem_map, Prod.mk.injEq]
  constructor
  · rintro ⟨⟨r1, ek⟩, hp, rfl, rfl⟩
    exact ⟨ek, (mem_positions hw).mp hp, rfl⟩
  · rintro ⟨ek, hek, rfl⟩
    exact ⟨(r, ek), (mem_positions hw).mpr hek, rfl, rfl⟩

theorem pattern_count {m : State} (hw : WF m) (f : Nat × Nat → Bool) :
    ((positions m).filter (fun p => f (p.1, p.2.column))).length =
      ((pattern m).toFinset.filter (fun q => f q = true)).card := by
  have h1 : ((positions m).filter (fun p => f (p.1, p.2.column))).length =
      ((pattern m).filter f).length := by
    unfold pattern
    rw [List.filter_map, List.length_map]
    rfl
  rw [h1, ← List.toFinset_card_of_nodup ((pattern_nodup hw).filter _), List.toFinset_filter]

/-- In a symmetric pattern, twice the number of positions with
`column >= row` is the number of positions plus the number of diagonal
positions. -/
theorem upper_count {m : State} (hw : WF m) :
    2 * ((positions m).filter upper).length = (positions m).length + diagonalCount m := by
  have hup : ((positions m).filter upper).length =
      ((pattern m).toFinset.filter (fun q => decide (q.1 ≤ q.2) = true)).card := by
    rw [← pattern_count hw (fun q => decide (q.1 ≤ q.2))]
    rfl
  have hall : (positions m).length = (pattern m).toFinset.card := by
    rw [List.toFinset_card_of_nodup (pattern_nodup hw), pattern, List.length_map]
  have hmem : ∀ r c, (r, c) ∈ (pattern m).toFinset ↔ c ∈ colsOf m r := by
    intro r c
    rw [List.mem_toFinset, mem_pattern hw]
  set S := (pattern m).toFinset with hS
  have hlt : (S.filter (fun q => q.1 < q.2)).card = (S.filter (fun q => q.2 < q.1)).card := by
    apply Finset.card_bij (fun q _ => (q.2, q.1))
    · rintro ⟨r, c⟩ hq
      simp only [Finset.mem_filter] at hq ⊢
      exact ⟨(hmem c r).mpr (hw.sym r c ((hmem r c).mp hq.1)), hq.2⟩
    · rintro ⟨r, c⟩ _ ⟨r1, c1⟩ _ e
      simp only [Prod.mk.injEq] at e ⊢
      exact ⟨e.2, e.1⟩
    · rintro ⟨r, c⟩ hq
      simp only [Finset.mem_filter] at hq
      refine ⟨(c, r), ?_, rfl⟩
      simp only [Finset.mem_filter]
      exact ⟨(hmem c r).mpr (hw.sym r c ((hmem r c).mp hq.1)), hq.2⟩
  have hdiag : (S.filter (fun q => q.1 = q.2)).card = diagonalCount m := by
    unfold diagonalCount
    symm
    apply Finset.card_bij (fun i _ => (i, i))
    · intro i hi
      simp only [Finset.mem_filter, Finset.mem_Icc] at hi ⊢
      obtain ⟨⟨h1, h2⟩, h3⟩ := hi
      rw [entryExists_eq hw i h1 h2] at h3
      simp only [getOk, decide_eq_true_eq] at h3
      exact ⟨(hmem i i).mpr h3, trivial⟩
    · intro i _ j _ e
      simp only [Prod.mk.injEq] at e
      exact e.1
    · rintro ⟨r, c⟩ hq
      simp only [Finset.mem_filter] at hq
      obtain ⟨h1, h2⟩ := hq
      have h2 : r = c := h2
      subst h2
      have hmemr := (hmem r r).mp h1
      have hr := colsOf_range hw hmemr
      refine ⟨r, ?_, rfl⟩
      simp only [Finset.mem_filter, Finset.mem_Icc]
      refine ⟨hr, ?_⟩
      rw [entryExists_eq hw r hr.1 hr.2]
      simp [getOk, hmemr]
  have hsplit1 : S.card = (S.filter (fun q => q.1 ≤ q.2)).card +
      (S.filter (fun q => ¬ q.1 ≤ q.2)).card :=
    (Finset.filter_card_add_filter_neg_card_eq_card _).symm
  have hsplit2 : (S.filter (fun q => q.1 ≤ q.2)).card =
      (S.filter (fun q => q.1 < q.2)).card + (S.filter (fun q => q.1 = q.2)).card := by
    rw [← Finset.card_union_of_disjoint]
    · congr 1
      ext ⟨r, c⟩
      simp only [Finset.mem_filter, Finset.mem_union]
      constructor
      · rintro ⟨h1, h2⟩
        rcases Nat.lt_or_ge r c with h | h
        · exact Or.inl ⟨h1, h⟩
        · exact Or.inr ⟨h1, by omega⟩
      · rintro (⟨h1, h2⟩ | ⟨h1, h2⟩)
        · exact ⟨h1, by omega⟩
        · exact ⟨h1, by omega⟩
    · rw [Finset.disjoint_filter]
      intro q _ h1 h2
      omega
  have hneg : (S.filter (fun q => ¬ q.1 ≤ q.2)).card = (S.filter (fun q => q.2 < q.1)).card := by
    congr 1
    ext ⟨r, c⟩
    simp only [Finset.mem_filter, not_le]
  have hup2 : ((positions m).filter upper).length = (S.filter (fun q => q.1 ≤ q.2)).card := by
    rw [hup]
    congr 1
    ext ⟨r, c⟩
    simp only [Finset.mem_filter, decide_eq_true_eq]
  rw [hup2, hall, hsplit1, hneg, ← hlt, ← hdiag, hsplit2]
  omega

/-- C26: on a matrix built without compression by `createSparseMatrix` and a
sequence of calls of the assembly interface that returns, when
`getmatrixsizes_` returns, `2 * num_written_coefs = ncon + d` where `d` is the
number of rows `i` in `1..neq` with `entryExists(i,i)`; `num_written_coefs` is
the number of stored positions with `column >= row`. -/
theorem written_coefs_relation (g : State) (neq es : Nat) (eps : ℚ)
    (calls : List Call) (m m1 : State) (nw ncoefs ncon_max : Nat)
    (hrun : run (createSparseMatrix g neq es false eps) calls = .ok m)
    (hs : getmatrixsizes_ m = .ok (m1, nw, ncoefs, ncon_max)) :
    2 * nw = ncoefs + diagonalCount m ∧
    nw = ((positions m).filter upper).length ∧
    m1.num_written_coefs = nw ∧ m1.ncon = ncoefs := by
  obtain ⟨hw, _, _, _, _, _, _, hnc, hco⟩ := sized_positions hrun hs
  have hc : m.compressionEnabled = false := (run_neq _ _ _ hrun).2.2.1
  obtain ⟨m2, hm2, hm1, hnw⟩ := getmatrixsizes_plain hw.len_rows hc hs
  obtain ⟨_, _, a3⟩ := assign_frame _ _ _ hm2
  have a3 : m2.entryNumber = 1 + ((positions m).filter upper).length := a3
  have hnw2 : nw = ((positions m).filter upper).length := by omega
  refine ⟨?_, hnw2, ?_, by rw [hnc, hco]⟩
  · rw [hnw2, hco]
    exact upper_count hw
  · rw [hm1, hnw]

theorem written_coefs_relation_witness :
    2 * 3 = 4 + diagonalCount scenarioS2 ∧
    3 = ((positions scenarioS2).filter upper).length ∧
    scenarioS2Sized.num_written_coefs = 3 ∧ scenarioS2Sized.ncon = 4 :=
  written_coefs_relation initialState 2 1 (1 / 10 ^ 12)
    [.setEntry 1 2 (1 / 2) [2], .setDiagonalEntries] scenarioS2 _ 3 4 2
    scenarioS2_run scenarioS2_sizes

/-! ## The slot written by a replacement -/

/-- C25: on a matrix built without compression, when `setEntry(i,j,_,v)` with
`i ≠ j` returns on a matrix that holds column `i` in row `j` and the diagonal
of row `i`, the record `old` of the key of row `j` at column `i` is freed, one
new record with the value `v` is installed in row `j` at column `i` and in row
`i` at column `i`, every other key is as before, in particular the key of row
`i` at column `j`, which on an undamaged matrix points to the freed record
`old`. -/
theorem replacement_writes_diagonal_slot (g : State) (neq es : Nat) (eps : ℚ)
    (calls : List Call) (m m1 : State) (i j : Nat) (vol : ℚ) (v : List ℚ)
    (hrun : run (createSparseMatrix g neq es false eps) calls = .ok m)
    (hij : i ≠ j) (hji : i ∈ colsOf m j) (hii : i ∈ colsOf m i)
    (hset : setEntry m i j vol v = .ok m1) :
    ∃ old rec, (⟨i, old⟩ : entryKey) ∈ rowOf m j ∧
      m.heap[old]? = some rec ∧ rec.freed = false ∧
      m1.heap[old]? = some { rec with freed := true } ∧
      m1.heap[m.heap.length]? = some { value := v.take m.matrixEntrySize, entryNum := none,
                                       refCount := 1, freed := false } ∧
      (∀ x, x ∈ rowOf m1 j → x.column = i → x = ⟨i, m.heap.length⟩) ∧
      (⟨i, m.heap.length⟩ : entryKey) ∈ rowOf m1 j ∧
      (∀ x, x ∈ rowOf m1 i → x.column = i → x = ⟨i, m.heap.length⟩) ∧
      (⟨i, m.heap.length⟩ : entryKey) ∈ rowOf m1 i ∧
      (∀ r x, ¬ (r = j ∧ x.column = i) → ¬ (r = i ∧ x.column = i) →
        (x ∈ rowOf m1 r ↔ x ∈ rowOf m r)) ∧
      (∀ x, x ∈ rowOf m i → x.column = j → x ∈ rowOf m1 i) ∧
      (Clean m → (⟨j, old⟩ : entryKey) ∈ rowOf m1 i) := by
  have hw := WF_run _ _ _ (WF_create g neq es false eps) hrun
  have hc : m.compressionEnabled = false := (run_neq _ _ _ hrun).2.2.1
  obtain ⟨v2, mx, _, _, _, _, hvl, _, hb⟩ := setEntry_inv hset
  have hw0 : WF { m with voronoiVolume := v2, maximum := mx } :=
    WF_of_same_cols hw rfl rfl hvl rfl (fun _ => rfl)
  obtain ⟨rowj, hrow, hcase⟩ := setEntryBody_inv hb
  have hnone : SearchSL entryKeyCompare rowj ⟨i, 0⟩ ≠ none := fun hn =>
    search_none_not_mem hw0 hrow hn hji
  rcases hcase with ⟨p, hp, hu⟩ | ⟨hn, _⟩ | ⟨hn, _⟩ | ⟨hn, _⟩
  · obtain ⟨entryMat, m2, hem, hcol, hrel, hheap, _, _, hrows⟩ := update_rows hw0 hrow hp hu
    have hem : entryMat ∈ rowOf m j := hem
    obtain ⟨rec, hr1, hr2, hh⟩ := releaseRecord_plain
      (m := { m with voronoiVolume := v2, maximum := mx }) hc hrel
    have hr1 : m.heap[entryMat.info]? = some rec := hr1
    have hh : m2.heap = m.heap.set entryMat.info { rec with freed := true } := hh
    have hes : m2.matrixEntrySize = m.matrixEntrySize := by
      have := releaseRecord_frame hrel
      rw [this]
    have hlen : m2.heap.length = m.heap.length := by rw [hh, List.length_set]
    have hlt : entryMat.info < m.heap.length := (List.getElem?_eq_some_iff.mp hr1).1
    have hrows2 : ∀ r x, x ∈ rowOf m1 r ↔
        (((r = j ∨ r = i) ∧ x = ⟨i, m.heap.length⟩) ∨
          (x ∈ rowOf m r ∧ ¬ (r = j ∧ x.column = i) ∧ ¬ (r = i ∧ x.column = i))) := by
      intro r x
      rw [hrows r x, hlen]
      rfl
    have hkey : entryMat = ⟨i, entryMat.info⟩ := by
      cases entryMat
      simp only at hcol
      subst hcol
      rfl
    refine ⟨entryMat.info, rec, by rw [← hkey]; exact hem, hr1, hr2, ?_, ?_, ?_, ?_, ?_, ?_,
      ?_, ?_, ?_⟩
    · rw [hheap, List.getElem?_append_left (by omega), hh]
      exact getElem?_set_self_of_lt hr1
    · rw [hheap, ← hlen, hes]
      simp
    · intro x hx hxc
      rcases (hrows2 j x).mp hx with ⟨_, e⟩ | ⟨_, hne, _⟩
      · exact e
      · exact absurd ⟨rfl, hxc⟩ hne
    · exact (hrows2 j _).mpr (Or.inl ⟨Or.inl rfl, rfl⟩)
    · intro x hx hxc
      rcases (hrows2 i x).mp hx with ⟨_, e⟩ | ⟨_, _, hne⟩
      · exact e
      · exact absurd ⟨rfl, hxc⟩ hne
    · exact (hrows2 i _).mpr (Or.inl ⟨Or.inr rfl, rfl⟩)
    · intro r x h1 h2
      rw [hrows2 r x]
      constructor
      · rintro (⟨hr, rfl⟩ | ⟨hx, _, _⟩)
        · rcases hr with rfl | rfl
          · exact absurd ⟨rfl, rfl⟩ h1
          · exact absurd ⟨rfl, rfl⟩ h2
        · exact hx
      · intro hx
        exact Or.inr ⟨hx, h1, h2⟩
    · intro x hx hxc
      rw [hrows2 i x]
      refine Or.inr ⟨hx, ?_, ?_⟩
      · rintro ⟨e, _⟩
        exact hij e
      · rintro ⟨_, e⟩
        rw [hxc] at e
        exact hij e.symm
    · intro hclean
      obtain ⟨x, hx, hxc⟩ := List.mem_map.mp (hw.sym j i hji)
      have hshare := hclean.mirror j entryMat x hem (by rw [hcol]; exact hx) hxc
      have hxe : x = ⟨j, entryMat.info⟩ := by
        cases x
        simp only at hxc hshare
        subst hxc
        rw [hshare]
      rw [← hxe, hrows2 i x]
      refine Or.inr ⟨hx, ?_, ?_⟩
      · rintro ⟨e, _⟩
        exact hij e
      · rintro ⟨_, e⟩
        rw [hxc] at e
        exact hij e.symm
  · exact absurd hn hnone
  · exact absurd hn hnone
  · exact absurd hn hnone

theorem scenarioS2_replaced :
    setEntry scenarioS2 1 2 0 [7] = .ok scenarioS2Replaced ∧
      rowOf scenarioS2 1 = [⟨1, 1⟩, ⟨2, 0⟩] ∧ rowOf scenarioS2 2 = [⟨1, 0⟩, ⟨2, 2⟩] ∧
      rowOf scenarioS2Replaced 1 = [⟨1, 3⟩, ⟨2, 0⟩] ∧
      rowOf scenarioS2Replaced 2 = [⟨1, 3⟩, ⟨2, 2⟩] ∧
      (scenarioS2Replaced.heap[0]?).map (·.freed) = some true ∧
      valueOf scenarioS2Replaced.heap 3 = [7] := by
  refine ⟨?_, ?_, ?_, ?_, ?_, ?_, ?_⟩ <;> with_unfolding_all rfl

theorem replacement_writes_diagonal_slot_witness :
    ∃ old rec, (⟨1, old⟩ : entryKey) ∈ rowOf scenarioS2 2 ∧
      scenarioS2.heap[old]? = some rec ∧ rec.freed = false ∧
      scenarioS2Replaced.heap[old]? = some { rec with freed := true } ∧
      scenarioS2Replaced.heap[scenarioS2.heap.length]? =
        some { value := ([7] : List ℚ).take scenarioS2.matrixEntrySize, entryNum := none,
               refCount := 1, freed := false } ∧
      (∀ x, x ∈ rowOf scenarioS2Replaced 2 → x.column = 1 → x = ⟨1, scenarioS2.heap.length⟩) ∧
      (⟨1, scenarioS2.heap.length⟩ : entryKey) ∈ rowOf scenarioS2Replaced 2 ∧
      (∀ x, x ∈ rowOf scenarioS2Replaced 1 → x.column = 1 → x = ⟨1, scenarioS2.heap.length⟩) ∧
      (⟨1, scenarioS2.heap.length⟩ : entryKey) ∈ rowOf scenarioS2Replaced 1 ∧
      (∀ r x, ¬ (r = 2 ∧ x.column = 1) → ¬ (r = 1 ∧ x.column = 1) →
        (x ∈ rowOf scenarioS2Replaced r ↔ x ∈ rowOf scenarioS2 r)) ∧
      (∀ x, x ∈ rowOf scenarioS2 1 → x.column = 2 → x ∈ rowOf scenarioS2Replaced 1) ∧
      (Clean scenarioS2 → (⟨2, old⟩ : entryKey) ∈ rowOf scenarioS2Replaced 1) :=
  replacement_writes_diagonal_slot initialState 2 1 (1 / 10 ^ 12)
    [.setEntry 1 2 (1 / 2) [2], .setDiagonalEntries] scenarioS2 scenarioS2Replaced 1 2 0 [7]
    scenarioS2_run (by decide) (by with_unfolding_all decide) (by with_unfolding_all decide)
    scenarioS2_replaced.1

/-! ## The records of the compress list -/

theorem DeleteCL_spec {m : State} {key : List ℚ} :
    ∀ (L cl : List Nat) (r : Option Nat), DeleteCL m key L = .ok (cl, r) →
      cl.Sublist L ∧ ∀ x, r = some x → x ∈ L ∧ (L.Nodup → x ∉ cl) := by
  intro L
  induction L with
  | nil =>
    intro cl r h
    simp only [DeleteCL, Except.ok.injEq, Prod.mk.injEq] at h
    obtain ⟨rfl, rfl⟩ := h
    exact ⟨List.Sublist.refl _, fun x hx => by simp at hx⟩
  | cons y l ih =>
    intro cl r h
    simp only [DeleteCL] at h
    split at h
    · simp at h
    · split at h
      · split at h
        · rename_i l1 r1 hl1
          simp only [Except.ok.injEq, Prod.mk.injEq] at h
          obtain ⟨rfl, rfl⟩ := h
          obtain ⟨a1, a2⟩ := ih l1 r1 hl1
          refine ⟨a1.cons₂ y, ?_⟩
          intro x hx
          obtain ⟨b1, b2⟩ := a2 x hx
          refine ⟨List.mem_cons_of_mem _ b1, ?_⟩
          intro hnd
          rw [List.nodup_cons] at hnd
          intro hmem
          rcases List.mem_cons.mp hmem with e | e
          · subst e
            exact hnd.1 b1
          · exact b2 hnd.2 e
        · simp at h
      · split at h
        · simp only [Except.ok.injEq, Prod.mk.injEq] at h
          obtain ⟨rfl, rfl⟩ := h
          refine ⟨List.sublist_cons_self _ _, ?_⟩
          intro x hx
          simp only [Option.some.injEq] at hx
          subst hx
          exact ⟨List.mem_cons_self _ _, fun hnd => (List.nodup_cons.mp hnd).1⟩
        · simp only [Except.ok.injEq, Prod.mk.injEq] at h
          obtain ⟨rfl, rfl⟩ := h
          exact ⟨List.Sublist.refl _, fun x hx => by simp at hx⟩

theorem InsertCL_nodup {m : State} {key : List ℚ} {ec : Nat} :
    ∀ (L L1 : List Nat), InsertCL m key ec L = .ok L1 → L.Nodup → ec ∉ L → L1.Nodup := by
  intro L
  induction L with
  | nil =>
    intro L1 h _ _
    simp only [InsertCL, Except.ok.injEq] at h
    subst h
    simp
  | cons y l ih =>
    intro L1 h hnd hec
    simp only [InsertCL] at h
    rw [List.nodup_cons] at hnd
    split at h
    · simp at h
    · split at h
      · split at h
        · rename_i l1 hl1
          simp only [Except.ok.injEq] at h
          subst h
          have hec2 : ec ∉ l := fun e => hec (List.mem_cons_of_mem _ e)
          refine List.nodup_cons.mpr ⟨?_, ih l1 hl1 hnd.2 hec2⟩
          intro hy
          rcases InsertCL_mem l l1 hl1 y hy with e | e
          · exact hec (by rw [e]; exact List.mem_cons_self _ _)
          · exact hnd.1 e
        · simp at h
      · split at h
        · simp only [Except.ok.injEq] at h
          subst h
          exact List.nodup_cons.mpr hnd
        · simp only [Except.ok.injEq] at h
          subst h
          exact List.nodup_cons.mpr ⟨hec, List.nodup_cons.mpr hnd⟩

theorem releaseCompressed_inv {m m1 : State} {ec : Nat}
    (h : releaseCompressed m ec = .ok m1) :
    ∃ r, m.heap[ec]? = some r ∧ r.freed = false ∧
      ((∃ cl res, DeleteCL m r.value m.compressList = .ok (cl, res) ∧ m1.compressList = cl ∧
          ((res = none ∧ m1.heap = m.heap) ∨
            ∃ x rec, res = some x ∧ m.heap[x]? = some rec ∧ rec.freed = false ∧
              m1.heap = m.heap.set x { rec with freed := true })) ∨
        (m1.compressList = m.compressList ∧
          m1.heap = m.heap.set ec { r with refCount := r.refCount - 1 })) := by
  unfold releaseCompressed at h
  split at h
  · simp at h
  · rename_i r hr
    obtain ⟨hr1, hr2⟩ := deref_eq_ok.mp hr
    refine ⟨r, hr1, hr2, ?_⟩
    split at h
    · split at h
      · simp at h
      · rename_i cl hd
        simp only [Except.ok.injEq] at h
        subst h
        exact Or.inl ⟨cl, none, hd, rfl, Or.inl ⟨rfl, rfl⟩⟩
      · rename_i cl x hd
        split at h
        · rename_i hp hf
          simp only [Except.ok.injEq] at h
          subst h
          obtain ⟨rec, b1, b2, b3⟩ := freeRecord_inv hf
          exact Or.inl ⟨cl, some x, hd, rfl, Or.inr ⟨x, rec, rfl, b1, b2, b3⟩⟩
        · simp at h
    · simp only [Except.ok.injEq] at h
      subst h
      exact Or.inr ⟨rfl, rfl⟩

theorem indexOK_release {m m1 : State} {ec : Nat} (hinv : IndexOK m)
    (h : releaseCompressed m ec = .ok m1) :
    IndexOK m1 ∧ m1.heap.length = m.heap.length := by
  have hfr := releaseCompressed_frame h
  have hes : m1.matrixEntrySize = m.matrixEntrySize := by rw [hfr]
  obtain ⟨r, hr1, hr2, hcase⟩ := releaseCompressed_inv h
  rcases hcase with ⟨cl, res, hd, hcl, hres⟩ | ⟨hcl, hheap⟩
  · obtain ⟨hsub, hfound⟩ := DeleteCL_spec _ _ _ hd
    rcases hres with ⟨rfl, hheap⟩ | ⟨x, rec, rfl, hx1, hx2, hheap⟩
    · refine ⟨⟨by rw [hcl]; exact hinv.nodup.sublist hsub, ?_⟩, by rw [hheap]⟩
      intro h0 hh
      rw [hcl] at hh
      rw [hheap, hes]
      exact hinv.recs h0 (hsub.subset hh)
    · refine ⟨⟨by rw [hcl]; exact hinv.nodup.sublist hsub, ?_⟩, by rw [hheap, List.length_set]⟩
      intro h0 hh
      rw [hcl] at hh
      have hne : x ≠ h0 := by
        intro e
        subst e
        exact (hfound x rfl).2 hinv.nodup hh
      obtain ⟨rec0, c1, c2, c3⟩ := hinv.recs h0 (hsub.subset hh)
      refine ⟨rec0, ?_, c2, by rw [hes]; exact c3⟩
      rw [hheap, List.getElem?_set]
      simp [hne, c1]
  · refine ⟨⟨by rw [hcl]; exact hinv.nodup, ?_⟩, by rw [hheap, List.length_set]⟩
    intro h0 hh
    rw [hcl] at hh
    obtain ⟨rec0, c1, c2, c3⟩ := hinv.recs h0 hh
    by_cases e : ec = h0
    · subst e
      rw [hr1] at c1
      simp only [Option.some.injEq] at c1
      subst c1
      refine ⟨{ r with refCount := r.refCount - 1 }, ?_, c2, by rw [hes]; exact c3⟩
      rw [hheap]
      exact getElem?_set_self_of_lt hr1
    · refine ⟨rec0, ?_, c2, by rw [hes]; exact c3⟩
      rw [hheap, List.getElem?_set]
      simp [e, c1]

theorem indexOK_createInfo {m m2 : State} {v : List ℚ} {info : Nat}
    (hc : m.compressionEnabled = true) (hinv : IndexOK m)
    (h : entryKeyCreateInfo m v = .ok (m2, info)) : IndexOK m2 := by
  have hfr := entryKeyCreateInfo_frame h
  have hes : m2.matrixEntrySize = m.matrixEntrySize := by rw [hfr]
  rcases entryKeyCreateInfo_compressed hc h with ⟨r, -, h1, h1f, h2, h3⟩ | ⟨-, h1, hlen, h2, h3⟩
  · refine ⟨by rw [h3]; exact hinv.nodup, ?_⟩
    intro h0 hh
    rw [h3] at hh
    obtain ⟨rec0, c1, c2, c3⟩ := hinv.recs h0 hh
    by_cases e : info = h0
    · subst e
      rw [h1] at c1
      simp only [Option.some.injEq] at c1
      subst c1
      refine ⟨{ r with refCount := r.refCount + 1 }, ?_, c2, by rw [hes]; exact c3⟩
      rw [h2]
      exact getElem?_set_self_of_lt h1
    · refine ⟨rec0, ?_, c2, by rw [hes]; exact c3⟩
      rw [h2, List.getElem?_set]
      simp [e, c1]
  · have hnot : info ∉ m.compressList := by
      intro hh
      obtain ⟨rec0, c1, _, _⟩ := hinv.recs info hh
      have := (List.getElem?_eq_some_iff.mp c1).1
      omega
    refine ⟨InsertCL_nodup _ _ h3 hinv.nodup hnot, ?_⟩
    intro h0 hh
    rcases InsertCL_mem _ _ h3 h0 hh with e | e
    · subst e
      refine ⟨{ value := v.take m.matrixEntrySize, entryNum := none, refCount := 1,
                freed := false }, by rw [h2, h1]; simp, rfl, ?_⟩
      rw [hes]
      simp only [List.length_take]
      omega
    · obtain ⟨rec0, c1, c2, c3⟩ := hinv.recs h0 e
      have hlt := (List.getElem?_eq_some_iff.mp c1).1
      exact ⟨rec0, by rw [h2, List.getElem?_append_left hlt]; exact c1, c2, by rw [hes]; exact c3⟩

theorem indexOK_setEntryBody {m m1 : State} {i j : Nat} {v : List ℚ}
    (hc : m.compressionEnabled = true) (hinv : IndexOK m)
    (h : setEntryBody m i j v = .ok m1) : IndexOK m1 := by
  obtain ⟨rowj, _, hcase⟩ := setEntryBody_inv h
  rcases hcase with ⟨p, _, hu⟩ | ⟨_, _, _, rfl⟩ | ⟨_, _, _, hpair⟩ | ⟨_, _, hd⟩
  · obtain ⟨rowi, rowj, entryMat, m2, p2, rows1, rows2, _, _, _, hrel, _, _, _, _, rfl⟩ :=
      setEntryUpdate_inv hu
    unfold releaseRecord at hrel
    rw [if_pos hc] at hrel
    obtain ⟨hinv2, _⟩ := indexOK_release hinv hrel
    refine ⟨hinv2.nodup, ?_⟩
    intro h0 hh
    obtain ⟨rec0, c1, c2, c3⟩ := hinv2.recs h0 hh
    have hlt := (List.getElem?_eq_some_iff.mp c1).1
    exact ⟨rec0, by
      show (m2.heap ++ _)[h0]? = _
      rw [List.getElem?_append_left hlt]; exact c1, c2, c3⟩
  · exact hinv
  · obtain ⟨m2, info, rowj, rowi, _, _, hci, _, _, rfl⟩ := setEntryInsertPair_inv hpair
    have hinv2 := indexOK_createInfo (m := { m with ncon_row :=
      ((m.ncon_row.set i (m.ncon_row.getD i 0 + 1)).set j
        ((m.ncon_row.set i (m.ncon_row.getD i 0 + 1)).getD j 0 + 1)) }) hc
      ⟨hinv.nodup, hinv.recs⟩ hci
    exact ⟨hinv2.nodup, hinv2.recs⟩
  · obtain ⟨m2, info, rowj, _, hci, _, rfl⟩ := setEntryInsertDiagonal_inv hd
    have hinv2 := indexOK_createInfo
      (m := { m with ncon_row := m.ncon_row.set i (m.ncon_row.getD i 0 + 1) }) hc
      ⟨hinv.nodup, hinv.recs⟩ hci
    exact ⟨hinv2.nodup, hinv2.recs⟩

theorem indexOK_setEntry {m m1 : State} {i j : Nat} {vol : ℚ} {v : List ℚ}
    (hc : m.compressionEnabled = true) (hinv : IndexOK m)
    (h : setEntry m i j vol v = .ok m1) : IndexOK m1 := by
  obtain ⟨v2, mx, _, _, _, _, _, _, hb⟩ := setEntry_inv h
  exact indexOK_setEntryBody (m := { m with voronoiVolume := v2, maximum := mx }) hc
    ⟨hinv.nodup, hinv.recs⟩ hb

theorem indexOK_setDiagonalEntriesLoop :
    ∀ (n i : Nat) (m m1 : State), m.compressionEnabled = true → IndexOK m →
      setDiagonalEntriesLoop n i m = .ok m1 → IndexOK m1 := by
  intro n
  induction n with
  | zero =>
    intro i m m1 _ hinv h
    simp only [setDiagonalEntriesLoop, Except.ok.injEq] at h
    subst h
    exact hinv
  | succ n ih =>
    intro i m m1 hc hinv h
    simp only [setDiagonalEntriesLoop] at h
    split at h
    · simp at h
    · split at h
      · rename_i m2 h2
        exact ih (i + 1) m2 m1 ((setEntry_neq h2).2.2.1.trans hc) (indexOK_setEntry hc hinv h2) h
      · simp at h

theorem indexOK_run : ∀ (cs : List Call) (m m1 : State), m.compressionEnabled = true →
    IndexOK m → run m cs = .ok m1 → IndexOK m1 := by
  intro cs
  induction cs with
  | nil =>
    intro m m1 _ hinv h
    simp only [run, Except.ok.injEq] at h
    subst h
    exact hinv
  | cons c cs ih =>
    intro m m1 hc hinv h
    simp only [run] at h
    split at h
    · rename_i m2 h2
      have hinv2 : IndexOK m2 := by
        cases c with
        | setEntry i j vol v => exact indexOK_setEntry hc hinv h2
        | setDiagonalEntries => exact indexOK_setDiagonalEntriesLoop _ _ _ _ hc hinv h2
      exact ih m2 m1 ((step_neq h2).2.2.1.trans hc) hinv2 h
    · simp at h

theorem IndexOK_create (g : State) (neq es : Nat) (b : Bool) (eps : ℚ) :
    IndexOK (createSparseMatrix g neq es b eps) where
  nodup := by simp [createSparseMatrix]
  recs := fun h hh => by simp [createSparseMatrix] at hh

theorem sizesLoop_total (a : List Nat) :
    ∀ (n i : Nat) (acc : Nat × Nat), i + n ≤ a.length → ∃ r, sizesLoop a n i acc = .ok r := by
  intro n
  induction n with
  | zero => intro i acc _; exact ⟨acc, rfl⟩
  | succ n ih =>
    intro i acc hlen
    obtain ⟨s, mx⟩ := acc
    have hlt : i < a.length := by omega
    simp only [sizesLoop, idx_of_lt hlt]
    exact ih (i + 1) _ (by omega)

/-- The pass of `assignEntryNumCompression` over a list of distinct live
records: it returns, the record at rank `k` gets the number `entryNumber + k`,
and nothing else changes in the heap. -/
theorem assignCompressed_spec :
    ∀ (L : List Nat) (m : State), L.Nodup →
      (∀ h ∈ L, ∃ rec, m.heap[h]? = some rec ∧ rec.freed = false) →
      ∃ m1, DoForSL assignEntryNumCompression L 0 m = .ok m1 ∧
        m1.entryNumber = m.entryNumber + L.length ∧
        m1.heap.length = m.heap.length ∧
        (∀ h : Nat, h ∉ L → m1.heap[h]? = m.heap[h]?) ∧
        (∀ (k h : Nat), L[k]? = some h → ∃ rec, m.heap[h]? = some rec ∧
          m1.heap[h]? = some { rec with entryNum := some (m.entryNumber + k) }) := by
  intro L
  induction L with
  | nil =>
    intro m _ _
    exact ⟨m, rfl, rfl, rfl, fun _ _ => rfl, fun k h hk => by simp at hk⟩
  | cons x l ih =>
    intro m hnd hlive
    rw [List.nodup_cons] at hnd
    obtain ⟨rec, hr1, hr2⟩ := hlive x (List.mem_cons_self _ _)
    have hstep : assignEntryNumCompression x 0 m =
        .ok { m with heap := m.heap.set x { rec with entryNum := some m.entryNumber },
                     entryNumber := m.entryNumber + 1 } := by
      unfold assignEntryNumCompression
      rw [deref_eq_ok.mpr ⟨hr1, hr2⟩]
    obtain ⟨m1, a1, a2, a3, a4, a5⟩ := ih
      { m with heap := m.heap.set x { rec with entryNum := some m.entryNumber },
               entryNumber := m.entryNumber + 1 } hnd.2 (fun h hh => by
        obtain ⟨rec0, c1, c2⟩ := hlive h (List.mem_cons_of_mem _ hh)
        have hne : x ≠ h := fun e => hnd.1 (e ▸ hh)
        exact ⟨rec0, by
          show (m.heap.set x _)[h]? = _
          rw [List.getElem?_set]
          simp [hne, c1], c2⟩)
    refine ⟨m1, ?_, ?_, ?_, ?_, ?_⟩
    · simp only [DoForSL, hstep]
      exact a1
    · rw [a2]
      show m.entryNumber + 1 + l.length = m.entryNumber + (l.length + 1)
      omega
    · rw [a3]
      show (m.heap.set x _).length = _
      rw [List.length_set]
    · intro h hh
      rw [a4 h (fun e => hh (List.mem_cons_of_mem _ e))]
      show (m.heap.set x _)[h]? = _
      have hne : x ≠ h := fun e => hh (e ▸ List.mem_cons_self _ _)
      rw [List.getElem?_set]
      simp [hne]
    · intro k h hk
      cases k with
      | zero =>
        simp only [List.getElem?_cons_zero, Option.some.injEq] at hk
        subst hk
        refine ⟨rec, hr1, ?_⟩
        rw [a4 x hnd.1]
        show (m.heap.set x _)[x]? = _
        exact getElem?_set_self_of_lt hr1
      | succ k =>
        simp only [List.getElem?_cons_succ] at hk
        obtain ⟨rec0, c1, c2⟩ := a5 k h hk
        have hmem : h ∈ l := List.mem_iff_getElem?.mpr ⟨k, hk⟩
        have hne : x ≠ h := fun e => hnd.1 (e ▸ hmem)
        have c1 : (m.heap.set x { rec with entryNum := some m.entryNumber })[h]? = some rec0 := c1
        rw [List.getElem?_set] at c1
        simp only [hne, false_and, if_false] at c1
        refine ⟨rec0, c1, ?_⟩
        rw [c2]
        show some { rec0 with entryNum := some (m.entryNumber + 1 + k) } = _
        congr 3
        omega

/-- The pass of `populateCompressedValuesArray` over a list of live records
that hold component `c`, within the capacity of the array: it returns and
appends the component `c` of each record, in order. -/
theorem populateCompressed_spec (c : Nat) :
    ∀ (L : List Nat) (m : State), m.component_of_interest = c →
      m.entryCounter + L.length ≤ m.num_written_coefs →
      (∀ h ∈ L, ∃ rec, m.heap[h]? = some rec ∧ rec.freed = false ∧ c < rec.value.length) →
      ∃ m1, DoForSL populateCompressedValuesArray L 0 m = .ok m1 ∧
        m1.heap = m.heap ∧
        m1.MatrixValues = m.MatrixValues ++ L.map (fun h => (valueOf m.heap h).getD c 0) := by
  intro L
  induction L with
  | nil =>
    intro m _ _ _
    exact ⟨m, rfl, rfl, by simp⟩
  | cons x l ih =>
    intro m hc hcap hlive
    simp only [List.length_cons] at hcap
    obtain ⟨rec, hr1, hr2, hr3⟩ := hlive x (List.mem_cons_self _ _)
    have hr3m : m.component_of_interest < rec.value.length := by rw [hc]; exact hr3
    have hv : (valueOf m.heap x).getD c 0 = rec.value[m.component_of_interest] := by
      simp only [valueOf, hr1]
      simp [List.getD_eq_getElem?_getD, ← hc, List.getElem?_eq_getElem hr3m]
    have hstep : populateCompressedValuesArray x 0 m =
        .ok { m with MatrixValues := m.MatrixValues ++ [rec.value[m.component_of_interest]],
                     entryCounter := m.entryCounter + 1 } := by
      unfold populateCompressedValuesArray
      rw [if_pos (by omega), deref_eq_ok.mpr ⟨hr1, hr2⟩]
      simp only [idx_of_lt hr3m]
    obtain ⟨m1, a1, a2, a3⟩ := ih
      { m with MatrixValues := m.MatrixValues ++ [rec.value[m.component_of_interest]],
               entryCounter := m.entryCounter + 1 } hc
      (by show m.entryCounter + 1 + l.length ≤ m.num_written_coefs; omega)
      (fun h hh => hlive h (List.mem_cons_of_mem _ hh))
    refine ⟨m1, ?_, a2, ?_⟩
    · simp only [DoForSL, hstep]
      exact a1
    · rw [a3]
      show m.MatrixValues ++ [rec.value[m.component_of_interest]] ++ _ = _
      rw [List.map_cons, hv, List.append_assoc]
      rfl

/-- With compression, `getmatrixsizes_` returns on a matrix whose compress list
is in order: `num_written_coefs` is the length of the list, and the record at
rank `k` of the list gets the entry number `k+1`. -/
theorem getmatrixsizes_compressed {m : State} (hc : m.compressionEnabled = true)
    (hlen : m.ncon_row.length = m.neq + 1) (hinv : IndexOK m) :
    ∃ m1 nc nmax, getmatrixsizes_ m = .ok (m1, m.compressList.length, nc, nmax) ∧
      m1.num_written_coefs = m.compressList.length ∧
      m1.heap.length = m.heap.length ∧
      (∀ h : Nat, h ∉ m.compressList → m1.heap[h]? = m.heap[h]?) ∧
      (∀ (k h : Nat), m.compressList[k]? = some h → ∃ rec, m.heap[h]? = some rec ∧
        m1.heap[h]? = some { rec with entryNum := some (k + 1) }) := by
  obtain ⟨⟨nc, nmax⟩, hs⟩ := sizesLoop_total m.ncon_row m.neq 1 (0, 0) (by omega)
  obtain ⟨m2, a1, a2, a3, a4, a5⟩ := assignCompressed_spec m.compressList
    { m with ncon := nc, entryNumber := 1 } hinv.nodup (fun h hh => by
      obtain ⟨rec, c1, c2, _⟩ := hinv.recs h hh
      exact ⟨rec, c1, c2⟩)
  have a2 : m2.entryNumber = 1 + m.compressList.length := a2
  have hnw : m2.entryNumber - 1 = m.compressList.length := by omega
  refine ⟨{ m2 with num_written_coefs := m2.entryNumber - 1 }, nc, nmax, ?_, hnw, a3, a4, ?_⟩
  · unfold getmatrixsizes_
    rw [hs]
    simp only [hc] at a1
    simp only [hc, if_true, a1, hnw]
  · intro k h hk
    obtain ⟨rec, c1, c2⟩ := a5 k h hk
    refine ⟨rec, c1, ?_⟩
    show m2.heap[h]? = _
    rw [c2]
    show some { rec with entryNum := some (1 + k) } = _
    congr 3
    omega

/-- With compression, `getcomponentmatrixvalues_` returns when the array has
room for the records of the compress list and each of them is live and holds
component `c`: the array is the component `c` of the records, in list
order. -/
theorem getcomponentmatrixvalues_compressed {m : State} {c : Nat}
    (hc : m.compressionEnabled = true) (hcap : m.compressList.length ≤ m.num_written_coefs)
    (hlive : ∀ h ∈ m.compressList, ∃ rec, m.heap[h]? = some rec ∧ rec.freed = false ∧
      c < rec.value.length) :
    ∃ m2, getcomponentmatrixvalues_ m c = .ok m2 ∧ m2.heap = m.heap ∧
      m2.MatrixValues = m.compressList.map (fun h => (valueOf m.heap h).getD c 0) := by
  obtain ⟨m2, a1, a2, a3⟩ := populateCompressed_spec c m.compressList
    { m with MatrixValues := [], component_of_interest := c, entryCounter := 0 } rfl
    (by show 0 + m.compressList.length ≤ m.num_written_coefs; omega) hlive
  refine ⟨m2, ?_, a2, by simpa using a3⟩
  unfold getcomponentmatrixvalues_
  simp only [hc] at a1
  simp only [hc, if_true]
  exact a1

/-- C21: on a matrix built with compression by `createSparseMatrix` and a
sequence of calls of the assembly interface, `getmatrixsizes_` returns with
`num_written_coefs = n`, the number of records of the compress list, and has
given the record at rank `k` of the list (its iteration order) the entry
number `k+1`; for every component `c` below `matrixEntrySize` a following
`getcomponentmatrixvalues_` returns an array of `n` cells in which the cell
`entryNum - 1` of every record of the list is the component `c` of its
value. -/
theorem compressed_entryNum_and_values (g : State) (neq es : Nat) (eps : ℚ)
    (calls : List Call) (m : State)
    (hrun : run (createSparseMatrix g neq es true eps) calls = .ok m) :
    ∃ m1 ncoefs ncon_max,
      getmatrixsizes_ m = .ok (m1, m.compressList.length, ncoefs, ncon_max) ∧
      m1.num_written_coefs = m.compressList.length ∧ m1.compressList = m.compressList ∧
      (∀ (k h : Nat), m.compressList[k]? = some h → ∃ rec, m1.heap[h]? = some rec ∧
        rec.entryNum = some (k + 1) ∧ rec.value = valueOf m.heap h) ∧
      ∀ c, c < m.matrixEntrySize →
        ∃ m2, getcomponentmatrixvalues_ m1 c = .ok m2 ∧
          m2.MatrixValues.length = m.compressList.length ∧
          ∀ (k h : Nat), m1.compressList[k]? = some h → ∃ rec e x, m1.heap[h]? = some rec ∧
            rec.entryNum = some e ∧ 1 ≤ e ∧ e ≤ m.compressList.length ∧
            rec.value[c]? = some x ∧ m2.MatrixValues[e - 1]? = some x := by
  have hw := WF_run _ _ _ (WF_create g neq es true eps) hrun
  have hc : m.compressionEnabled = true := (run_neq _ _ _ hrun).2.2.1
  have hinv := indexOK_run _ _ _ rfl (IndexOK_create g neq es true eps) hrun
  obtain ⟨m1, nc, nmax, hs, hnw, _, hold, hrank⟩ := getmatrixsizes_compressed hc hw.len_ncon hinv
  have hm := getmatrixsizes_matrixOf hs
  simp only [matrixOf, Prod.mk.injEq] at hm
  obtain ⟨-, -, -, hc1, hcl, -, -, hes⟩ := hm
  have hrec : ∀ (k h : Nat), m.compressList[k]? = some h → ∃ rec, m1.heap[h]? = some rec ∧
      rec.entryNum = some (k + 1) ∧ rec.value = valueOf m.heap h ∧ rec.freed = false ∧
      rec.value.length = m.matrixEntrySize := by
    intro k h hk
    obtain ⟨rec, c1, c2⟩ := hrank k h hk
    obtain ⟨rec0, d1, d2, d3⟩ := hinv.recs h (List.mem_iff_getElem?.mpr ⟨k, hk⟩)
    rw [c1] at d1
    simp only [Option.some.injEq] at d1
    subst d1
    exact ⟨_, c2, rfl, by simp [valueOf, c1], d2, d3⟩
  refine ⟨m1, nc, nmax, hs, hnw, hcl, ?_, ?_⟩
  · intro k h hk
    obtain ⟨rec, c1, c2, c3, _, _⟩ := hrec k h hk
    exact ⟨rec, c1, c2, c3⟩
  · intro c hcs
    obtain ⟨m2, b1, b2, b3⟩ := getcomponentmatrixvalues_compressed (m := m1) (c := c)
      (hc1.trans hc) (by rw [hcl, hnw]) (fun h hh => by
        rw [hcl] at hh
        obtain ⟨k, hk⟩ := List.mem_iff_getElem?.mp hh
        obtain ⟨rec, c1, _, _, c4, c5⟩ := hrec k h hk
        exact ⟨rec, c1, c4, by omega⟩)
    refine ⟨m2, b1, by rw [b3, List.length_map, hcl], ?_⟩
    intro k h hk
    rw [hcl] at hk
    obtain ⟨rec, c1, c2, _, _, c5⟩ := hrec k h hk
    have hlt : c < rec.value.length := by omega
    have hkl : k < m.compressList.length := (List.getElem?_eq_some_iff.mp hk).1
    refine ⟨rec, k + 1, rec.value[c], c1, c2, by omega, by omega,
      List.getElem?_eq_getElem hlt, ?_⟩
    rw [b3, hcl, Nat.add_sub_cancel, List.getElem?_map, hk]
    simp [valueOf, c1, List.getD_eq_getElem?_getD, List.getElem?_eq_getElem hlt]

theorem scenarioS3_run :
    run (createSparseMatrix initialState 3 1 true (1 / 10 ^ 9)) callsS3 = .ok scenarioS3 := by
  with_unfolding_all rfl

theorem compressed_entryNum_and_values_witness :
    ∃ m1 ncoefs ncon_max,
      getmatrixsizes_ scenarioS3 = .ok (m1, scenarioS3.compressList.length, ncoefs, ncon_max) ∧
      m1.num_written_coefs = scenarioS3.compressList.length ∧
      m1.compressList = scenarioS3.compressList ∧
      (∀ (k h : Nat), scenarioS3.compressList[k]? = some h → ∃ rec, m1.heap[h]? = some rec ∧
        rec.entryNum = some (k + 1) ∧ rec.value = valueOf scenarioS3.heap h) ∧
      ∀ c, c < scenarioS3.matrixEntrySize →
        ∃ m2, getcomponentmatrixvalues_ m1 c = .ok m2 ∧
          m2.MatrixValues.length = scenarioS3.compressList.length ∧
          ∀ (k h : Nat), m1.compressList[k]? = some h → ∃ rec e x, m1.heap[h]? = some rec ∧
            rec.entryNum = some e ∧ 1 ≤ e ∧ e ≤ scenarioS3.compressList.length ∧
            rec.value[c]? = some x ∧ m2.MatrixValues[e - 1]? = some x :=
  compressed_entryNum_and_values initialState 3 1 (1 / 10 ^ 9) callsS3 scenarioS3 scenarioS3_run

theorem scenarioS3_values :
    (getcomponentmatrixvalues_ scenarioS3Sized 0).map (·.MatrixValues) = .ok [0, 1] := by
  with_unfolding_all rfl

/-! ## The error bound of the compression -/

theorem compareLoop_zero {mx : List ℚ} {eps : ℚ} {a b : List ℚ} :
    ∀ (n k0 : Nat), entryComponentCompareLoop mx eps a b n k0 = .ok 0 →
      ∀ k, k0 ≤ k → k < k0 + n → |a.getD k 0 - b.getD k 0| ≤ mx.getD k 0 * eps := by
  intro n
  induction n with
  | zero => intro k0 _ k h1 h2; omega
  | succ n ih =>
    intro k0 h k h1 h2
    simp only [entryComponentCompareLoop] at h
    split at h
    · rename_i x y z hx hy hz
      rw [idx_eq_ok] at hx hy hz
      split at h
      · split at h <;> simp at h
      · rename_i hle
        by_cases e : k = k0
        · subst e
          rw [getD_of_getElem? hx, getD_of_getElem? hy, getD_of_getElem? hz]
          exact not_lt.mp hle
        · exact ih (k0 + 1) h k (by omega) (by omega)
    · simp at h

theorem SearchCL_found {m : State} {key : List ℚ} {x : Nat} :
    ∀ (L : List Nat), SearchCL m key L = .ok (some x) →
      x ∈ L ∧ entryComponentCompare m x key = .ok 0 := by
  intro L
  induction L with
  | nil => intro h; simp [SearchCL] at h
  | cons y l ih =>
    intro h
    simp only [SearchCL] at h
    split at h
    · simp at h
    · rename_i c hc
      split at h
      · obtain ⟨a1, a2⟩ := ih h
        exact ⟨List.mem_cons_of_mem _ a1, a2⟩
      · split at h
        · rename_i h0
          simp only [Except.ok.injEq, Option.some.injEq] at h
          subst h
          subst h0
          exact ⟨List.mem_cons_self _ _, hc⟩
        · simp at h

theorem compare_append {m : State} {x : Nat} {key : List ℚ} {c : Int} (r : entryComponent)
    (h : entryComponentCompare m x key = .ok c) :
    entryComponentCompare { m with heap := m.heap ++ [r] } x key = .ok c := by
  unfold entryComponentCompare at h ⊢
  split at h
  · rename_i ri hri
    obtain ⟨h1, h2⟩ := deref_eq_ok.mp hri
    have hlt := (List.getElem?_eq_some_iff.mp h1).1
    have : deref (m.heap ++ [r]) x = .ok ri :=
      deref_eq_ok.mpr ⟨by rw [List.getElem?_append_left hlt]; exact h1, h2⟩
    simp only [this]
    exact h
  · simp at h

theorem InsertCL_after_miss {m : State} {key : List ℚ} {ec : Nat} (r : entryComponent) :
    ∀ (L L1 : List Nat), SearchCL m key L = .ok none →
      InsertCL { m with heap := m.heap ++ [r] } key ec L = .ok L1 →
      ec ∈ L1 ∧ ∀ h ∈ L, h ∈ L1 := by
  intro L
  induction L with
  | nil =>
    intro L1 _ h
    simp only [InsertCL, Except.ok.injEq] at h
    subst h
    exact ⟨List.mem_cons_self _ _, fun h hh => by simp at hh⟩
  | cons y l ih =>
    intro L1 hs h
    simp only [SearchCL] at hs
    split at hs
    · simp at hs
    · rename_i c hc
      simp only [InsertCL, compare_append r hc] at h
      split at hs
      · rename_i hlt
        rw [if_pos hlt] at h
        split at h
        · rename_i l1 hl1
          simp only [Except.ok.injEq] at h
          subst h
          obtain ⟨a1, a2⟩ := ih l1 hs hl1
          refine ⟨List.mem_cons_of_mem _ a1, ?_⟩
          intro h0 hh
          rcases List.mem_cons.mp hh with e | e
          · rw [e]; exact List.mem_cons_self _ _
          · exact List.mem_cons_of_mem _ (a2 h0 e)
        · simp at h
      · rename_i hnlt
        split at hs
        · simp at hs
        · rename_i hne
          rw [if_neg hnlt, if_neg hne] at h
          simp only [Except.ok.injEq] at h
          subst h
          exact ⟨List.mem_cons_self _ _, fun h0 hh => List.mem_cons_of_mem _ hh⟩

/-- The record that `entryKeyCreateInfo` returns with compression is in the
compress list afterwards and is within tolerance of the value; the records
that were in the list stay in it with their values. -/
theorem bounded_createInfo {m m2 : State} {v : List ℚ} {info : Nat}
    (hc : m.compressionEnabled = true) (hinv : IndexOK m) (hm : MaxNonneg m)
    (heps : 0 ≤ m.epsilon) (h : entryKeyCreateInfo m v = .ok (m2, info)) :
    info ∈ m2.compressList ∧ (∀ h ∈ m.compressList, h ∈ m2.compressList) ∧
    (∀ h ∈ m.compressList, valueOf m2.heap h = valueOf m.heap h) ∧
    (∀ c, c < m.matrixEntrySize →
      |v.getD c 0 - (valueOf m2.heap info).getD c 0| ≤ m.maximum.getD c 0 * m.epsilon) := by
  rcases entryKeyCreateInfo_compressed hc h with ⟨r, hs, h1, h1f, h2, h3⟩ | ⟨hs, h1, hlen, h2, h3⟩
  · obtain ⟨a1, a2⟩ := SearchCL_found _ hs
    refine ⟨by rw [h3]; exact a1, fun h0 hh => by rw [h3]; exact hh, ?_, ?_⟩
    · intro h0 _
      rw [h2]
      exact valueOf_set_refCount _ _ _ _ _ h1
    · intro c hcs
      rw [h2, valueOf_set_refCount _ _ _ _ _ h1, valueOf_of_getElem? h1, abs_sub_comm]
      unfold entryComponentCompare at a2
      rw [deref_eq_ok.mpr ⟨h1, h1f⟩] at a2
      exact compareLoop_zero _ _ a2 c (Nat.zero_le _) (by omega)
  · obtain ⟨a1, a2⟩ := InsertCL_after_miss _ _ _ hs (by rw [← h2]; exact h3)
    refine ⟨a1, a2, ?_, ?_⟩
    · intro h0 hh
      obtain ⟨rec0, c1, _, _⟩ := hinv.recs h0 hh
      rw [h2]
      exact valueOf_append_old _ (List.getElem?_eq_some_iff.mp c1).1
    · intro c hcs
      rw [h2, h1, valueOf_append_new]
      have : (List.take m.matrixEntrySize v).getD c 0 = v.getD c 0 := by
        simp [List.getD_eq_getElem?_getD, List.getElem?_take, hcs]
      show |v.getD c 0 - (List.take m.matrixEntrySize v).getD c 0| ≤ _
      rw [this, sub_self, abs_zero]
      exact mul_nonneg (hm c) heps

theorem bounded_insert {gv : Nat → Nat → Option (List ℚ)} {m m1 : State} {i j info : Nat}
    {v : List ℚ} (hinv : Bounded gv m)
    (hfresh : i ∉ colsOf m j) (hfi : j ∉ colsOf m i)
    (hrows : ∀ r x, x ∈ rowOf m1 r ↔
      x ∈ rowOf m r ∨ (r = i ∧ x = ⟨j, info⟩) ∨ (r = j ∧ x = ⟨i, info⟩))
    (hpar : m1.maximum = m.maximum ∧ m1.epsilon = m.epsilon ∧
      m1.matrixEntrySize = m.matrixEntrySize)
    (hin : info ∈ m1.compressList) (hsub : ∀ h ∈ m.compressList, h ∈ m1.compressList)
    (hold : ∀ h ∈ m.compressList, valueOf m1.heap h = valueOf m.heap h)
    (hnew : ∀ c, c < m.matrixEntrySize →
      |v.getD c 0 - (valueOf m1.heap info).getD c 0| ≤ m.maximum.getD c 0 * m.epsilon) :
    Bounded (fun r k => if (r = i ∧ k = j) ∨ (r = j ∧ k = i) then some v else gv r k) m1 := by
  obtain ⟨hp1, hp2, hp3⟩ := hpar
  refine ⟨?_, ?_⟩
  · intro r x hx
    rcases (hrows r x).mp hx with h1 | ⟨_, rfl⟩ | ⟨_, rfl⟩
    · exact hsub _ (hinv.posIn r x h1)
    · exact hin
    · exact hin
  · intro r x hx
    rw [hp1, hp2, hp3]
    rcases (hrows r x).mp hx with h1 | ⟨rfl, rfl⟩ | ⟨rfl, rfl⟩
    · obtain ⟨v0, g1, g2⟩ := hinv.ghost r x h1
      have hcond : ¬ ((r = i ∧ x.column = j) ∨ (r = j ∧ x.column = i)) := by
        rintro (⟨rfl, e⟩ | ⟨rfl, e⟩)
        · exact hfi (List.mem_map.mpr ⟨x, h1, e⟩)
        · exact hfresh (List.mem_map.mpr ⟨x, h1, e⟩)
      refine ⟨v0, by simp only [if_neg hcond]; exact g1, ?_⟩
      intro c hc
      rw [hold _ (hinv.posIn r x h1)]
      exact g2 c hc
    · exact ⟨v, by simp, hnew⟩
    · exact ⟨v, by simp, hnew⟩

theorem bounded_setEntryBody {gv : Nat → Nat → Option (List ℚ)} {m m1 : State} {i j : Nat}
    {v : List ℚ} (hw : WF m) (hc : m.compressionEnabled = true) (hok : IndexOK m)
    (hm : MaxNonneg m) (heps : 0 ≤ m.epsilon) (hinv : Bounded gv m)
    (hex : entryExists m i j = .ok false) (h : setEntryBody m i j v = .ok m1) :
    Bounded (fun r k => if (r = i ∧ k = j) ∨ (r = j ∧ k = i) then some v else gv r k) m1 := by
  obtain ⟨rowj0, hrow0, hsearch⟩ := entryExists_false hex
  have hfresh : i ∉ colsOf m j := search_none_not_mem hw hrow0 hsearch
  have hfi : j ∉ colsOf m i := fun hm => hfresh (hw.sym i j hm)
  have hpar := setEntryBody_paramsOf h
  simp only [paramsOf, Prod.mk.injEq] at hpar
  obtain ⟨-, hp2, -, hp4, hp5, -⟩ := hpar
  obtain ⟨rowj, hrow, hcase⟩ := setEntryBody_inv h
  rw [hrow0] at hrow
  simp only [Except.ok.injEq] at hrow
  subst hrow
  rcases hcase with ⟨p, hp, _⟩ | ⟨_, _, _, rfl⟩ | ⟨_, hij, _, hpair⟩ | ⟨_, hij, hd⟩
  · rw [hsearch] at hp; simp at hp
  · refine ⟨hinv.posIn, ?_⟩
    intro r x hx
    obtain ⟨v0, g1, g2⟩ := hinv.ghost r x hx
    have hcond : ¬ ((r = i ∧ x.column = j) ∨ (r = j ∧ x.column = i)) := by
      rintro (⟨rfl, e⟩ | ⟨rfl, e⟩)
      · exact hfi (List.mem_map.mpr ⟨x, hx, e⟩)
      · exact hfresh (List.mem_map.mpr ⟨x, hx, e⟩)
    exact ⟨v0, by simp only [if_neg hcond]; exact g1, g2⟩
  · obtain ⟨nr, m2, info, hci, hheap, hcl, _, hrows⟩ := insertPair_rows hw hij hfresh hpair
    obtain ⟨a1, a2, a3, a4⟩ := bounded_createInfo (m := { m with ncon_row := nr }) hc
      ⟨hok.nodup, hok.recs⟩ hm heps hci
    rw [← hheap] at a3 a4
    rw [← hcl] at a1 a2
    exact bounded_insert hinv hfresh hfi hrows ⟨hp5, hp4, hp2⟩ a1 a2 a3 a4
  · obtain ⟨nr, m2, info, hci, hheap, hcl, _, hrows⟩ := insertDiagonal_rows hw hij hfresh hd
    obtain ⟨a1, a2, a3, a4⟩ := bounded_createInfo (m := { m with ncon_row := nr }) hc
      ⟨hok.nodup, hok.recs⟩ hm heps hci
    rw [← hheap] at a3 a4
    rw [← hcl] at a1 a2
    subst hij
    refine bounded_insert (i := i) (j := i) hinv hfresh hfresh ?_ ⟨hp5, hp4, hp2⟩ a1 a2 a3 a4
    intro r x
    rw [hrows r x]
    tauto

theorem bounded_setEntry {gv : Nat → Nat → Option (List ℚ)} {m m1 : State} {i j : Nat}
    {vol : ℚ} {v : List ℚ} (hw : WF m) (hc : m.compressionEnabled = true) (hok : IndexOK m)
    (hm : MaxNonneg m) (heps : 0 ≤ m.epsilon) (hinv : Bounded gv m)
    (hex : entryExists m i j = .ok false) (h : setEntry m i j vol v = .ok m1) :
    Bounded (fun r k => if (r = i ∧ k = j) ∨ (r = j ∧ k = i) then some v else gv r k) m1 := by
  obtain ⟨v2, mx, _, _, _, _, hvl, _, hb⟩ := setEntry_inv h
  have hw0 : WF { m with voronoiVolume := v2, maximum := mx } :=
    WF_of_same_cols hw rfl rfl hvl rfl (fun _ => rfl)
  have hpar := setEntryBody_paramsOf hb
  simp only [paramsOf, Prod.mk.injEq] at hpar
  have hmx : m1.maximum = mx := hpar.2.2.2.2.1
  have hgrow : ∀ k, m.maximum.getD k 0 ≤ mx.getD k 0 := by
    intro k
    rw [← hmx, (setEntry_maximum_getD h).2 k]
    split
    · exact le_max_left _ _
    · exact le_refl _
  have hm0 : MaxNonneg { m with voronoiVolume := v2, maximum := mx } := by
    intro k
    exact le_trans (hm k) (hgrow k)
  have hinv0 : Bounded gv { m with voronoiVolume := v2, maximum := mx } := by
    refine ⟨hinv.posIn, ?_⟩
    intro r x hx
    obtain ⟨v0, g1, g2⟩ := hinv.ghost r x hx
    refine ⟨v0, g1, ?_⟩
    intro c hcs
    exact le_trans (g2 c hcs) (mul_le_mul_of_nonneg_right (hgrow c) heps)
  have hex0 : entryExists { m with voronoiVolume := v2, maximum := mx } i j = .ok false := hex
  exact bounded_setEntryBody hw0 hc ⟨hok.nodup, hok.recs⟩ hm0 heps hinv0 hex0 hb

theorem bounded_run :
    ∀ (cs : List Call) (gv : Nat → Nat → Option (List ℚ)) (m m1 : State), WF m →
      m.compressionEnabled = true → IndexOK m → MaxNonneg m → 0 ≤ m.epsilon →
      Bounded gv m → freshRun m cs = true → run m cs = .ok m1 →
      Bounded (recordCalls gv cs) m1 := by
  intro cs
  induction cs with
  | nil =>
    intro gv m m1 _ _ _ _ _ hinv _ h
    simp only [run, Except.ok.injEq] at h
    subst h
    exact hinv
  | cons call cs ih =>
    intro gv m m1 hw hc hok hm heps hinv hio h
    obtain ⟨i, j, vol, v, rfl, hex, hnext⟩ := freshRun_cons hio
    simp only [run, step] at h
    split at h
    · rename_i m2 h2
      obtain ⟨_, _, e3, e4⟩ := setEntry_neq h2
      exact ih _ m2 m1 (WF_setEntry hw h2) (e3.trans hc) (indexOK_setEntry hc hok h2)
        (MaxNonneg_setEntry hm h2) (by rw [e4]; exact heps)
        (bounded_setEntry hw hc hok hm heps hinv hex h2) (hnext m2 h2) h
    · simp at h

theorem Bounded_create (gv : Nat → Nat → Option (List ℚ)) (g : State) (neq es : Nat)
    (b : Bool) (eps : ℚ) : Bounded gv (createSparseMatrix g neq es b eps) where
  posIn := fun r ek h => by rw [rowOf_create] at h; simp at h
  ghost := fun r ek h => by rw [rowOf_create] at h; simp at h

/-- The pass of `getEntryNumbers` returns when the array has room for the
positions and each of them points to a live record with an entry number. -/
theorem pointers_total :
    ∀ (P : List (Nat × entryKey)) (m : State), m.entryCounter + P.length ≤ m.ncon →
      (∀ p ∈ P, ∃ rec n, m.heap[p.2.info]? = some rec ∧ rec.freed = false ∧
        rec.entryNum = some n) →
      ∃ m1, visitAll getEntryNumbers P m = .ok m1 := by
  intro P
  induction P with
  | nil => intro m _ _; exact ⟨m, rfl⟩
  | cons p l ih =>
    intro m hcap hlive
    simp only [List.length_cons] at hcap
    obtain ⟨rec, n, h1, h2, h3⟩ := hlive p (List.mem_cons_self _ _)
    have hstep : getEntryNumbers p.2 p.1 m =
        .ok { m with entryNumbers := m.entryNumbers ++ [n],
                     entryCounter := m.entryCounter + 1 } := by
      unfold getEntryNumbers
      rw [if_pos (by omega), deref_eq_ok.mpr ⟨h1, h2⟩]
      simp only [h3]
    obtain ⟨m1, a1⟩ := ih
      { m with entryNumbers := m.entryNumbers ++ [n], entryCounter := m.entryCounter + 1 }
      (by show m.entryCounter + 1 + l.length ≤ m.ncon; omega)
      (fun q hq => hlive q (List.mem_cons_of_mem _ hq))
    exact ⟨m1, by simp only [visitAll, hstep]; exact a1⟩

theorem getmatrixpointers_eq {m : State} (hlen : m.sparseMatrix.length = m.neq + 1) :
    getmatrixpointers_ m =
      visitAll getEntryNumbers (positions m) { m with entryNumbers := [], entryCounter := 0 } := by
  unfold getmatrixpointers_
  rw [forRows_eq_visitAll (fun k a s s1 hh => by
    obtain ⟨_, _, _, _, _, rfl⟩ := getEntryNumbers_inv hh
    rfl) _ _ _ (le_refl 1) (by show 1 + m.neq ≤ m.sparseMatrix.length; omega)]
  rfl

theorem getEntryNumbers_frame (k : entryKey) (a : Nat) (s s1 : State)
    (h : getEntryNumbers k a s = .ok s1) :
    (s1.compressionEnabled, s1.compressList, s1.num_written_coefs) =
      (s.compressionEnabled, s.compressList, s.num_written_coefs) := by
  obtain ⟨_, _, _, _, _, rfl⟩ := getEntryNumbers_inv h
  rfl

/-- C27: with compression on and `epsilon >= 0`, on a matrix built by
`createSparseMatrix` and a sequence of `setEntry` calls that returns and in
which no call targets a position that exists already, `getmatrixsizes_`,
`getmatrixpointers_` and `getcomponentmatrixvalues_` on a component `c` below
`matrixEntrySize` return, and for every stored position `k`, set with the value
`v`: its entry number `e` lies in `1..num_written_coefs` and
`|v[c] - values[e-1]| <= maximum[c]*epsilon` with the final `maximum`. -/
theorem compression_error_bound (g : State) (neq es : Nat) (eps : ℚ)
    (calls : List Call) (m : State) (c : Nat) (heps : 0 ≤ eps)
    (hrun : run (createSparseMatrix g neq es true eps) calls = .ok m)
    (hfresh : freshRun (createSparseMatrix g neq es true eps) calls = true)
    (hc : c < m.matrixEntrySize) :
    ∃ m1 m2 m3 nw ncoefs ncon_max,
      getmatrixsizes_ m = .ok (m1, nw, ncoefs, ncon_max) ∧
      getmatrixpointers_ m1 = .ok m2 ∧ getcomponentmatrixvalues_ m2 c = .ok m3 ∧
      m2.entryNumbers.length = (positions m).length ∧ m3.MatrixValues.length = nw ∧
      ∀ (k : Nat) (p : Nat × entryKey), (positions m)[k]? = some p →
        ∃ v e x, setValue calls p.1 p.2.column = some v ∧
          m2.entryNumbers[k]? = some e ∧ 1 ≤ e ∧ e ≤ nw ∧
          m3.MatrixValues[e - 1]? = some x ∧
          |v.getD c 0 - x| ≤ m.maximum.getD c 0 * eps := by
  have hw0 := WF_create g neq es true eps
  have hw := WF_run _ _ _ hw0 hrun
  obtain ⟨-, -, hcomp, hepsm⟩ := run_neq _ _ _ hrun
  have hcomp : m.compressionEnabled = true := hcomp
  have hepsm : m.epsilon = eps := hepsm
  have hok := indexOK_run _ _ _ rfl (IndexOK_create g neq es true eps) hrun
  have hB := bounded_run calls (fun _ _ => none) _ m hw0 rfl
    (IndexOK_create g neq es true eps) (MaxNonneg_create g neq es true eps) heps
    (Bounded_create _ g neq es true eps) hfresh hrun
  obtain ⟨m1, nc, nmax, hs, hnw, _, hold, hrank⟩ := getmatrixsizes_compressed hcomp hw.len_ncon hok
  obtain ⟨-, -, -, hlen1, -, hpos, -, hncon, -⟩ := sized_positions hrun hs
  have hm := getmatrixsizes_matrixOf hs
  simp only [matrixOf, Prod.mk.injEq] at hm
  obtain ⟨-, -, -, hc1, hcl, -, -, -⟩ := hm
  have hrec : ∀ h ∈ m.compressList, ∃ k rec, m.compressList[k]? = some h ∧
      m1.heap[h]? = some rec ∧ rec.entryNum = some (k + 1) ∧ rec.value = valueOf m.heap h ∧
      rec.freed = false ∧ rec.value.length = m.matrixEntrySize := by
    intro h hh
    obtain ⟨k, hk⟩ := List.mem_iff_getElem?.mp hh
    obtain ⟨rec, c1, c2⟩ := hrank k h hk
    obtain ⟨rec0, d1, d2, d3⟩ := hok.recs h hh
    rw [c1] at d1
    simp only [Option.some.injEq] at d1
    subst d1
    exact ⟨k, _, hk, c2, rfl, by simp [valueOf, c1], d2, d3⟩
  obtain ⟨m2, hp⟩ := pointers_total (positions m1)
    { m1 with entryNumbers := [], entryCounter := 0 }
    (by show 0 + (positions m1).length ≤ m1.ncon; rw [hpos, hncon]; omega)
    (fun p hp => by
      rw [hpos] at hp
      obtain ⟨r, ek⟩ := p
      obtain ⟨k, rec, _, c2, c3, _, c5, _⟩ :=
        hrec ek.info (hB.posIn r ek ((mem_positions hw).mp hp))
      exact ⟨rec, k + 1, c2, c5, c3⟩)
  obtain ⟨hheap2, ns, hns, hnsl, hptr⟩ := pointers_spec _ _ _ hp
  have hheap2 : m2.heap = m1.heap := hheap2
  have hns : m2.entryNumbers = ns := by simpa using hns
  have hfr := visitAll_preserves
    (fun s => (s.compressionEnabled, s.compressList, s.num_written_coefs))
    getEntryNumbers_frame _ _ _ hp
  simp only [Prod.mk.injEq] at hfr
  obtain ⟨f1, f2, f3⟩ := hfr
  have f1 : m2.compressionEnabled = m1.compressionEnabled := f1
  have f2 : m2.compressList = m1.compressList := f2
  have f3 : m2.num_written_coefs = m1.num_written_coefs := f3
  obtain ⟨m3, hv1, _, hv3⟩ := getcomponentmatrixvalues_compressed (m := m2) (c := c)
    (by rw [f1, hc1, hcomp]) (by rw [f2, f3, hcl, hnw]) (fun h hh => by
      rw [f2, hcl] at hh
      obtain ⟨k, rec, _, c2, _, _, c5, c6⟩ := hrec h hh
      exact ⟨rec, by rw [hheap2]; exact c2, c5, by omega⟩)
  refine ⟨m1, m2, m3, _, nc, nmax, hs, by rw [getmatrixpointers_eq hlen1]; exact hp, hv1,
    by rw [hns, hnsl, hpos], by rw [hv3, List.length_map, f2, hcl], ?_⟩
  intro k p hk
  obtain ⟨r, ek⟩ := p
  have hmem : ek ∈ rowOf m r := (mem_positions hw).mp (List.mem_iff_getElem?.mpr ⟨k, hk⟩)
  obtain ⟨v, g1, g2⟩ := hB.ghost r ek hmem
  obtain ⟨t, rec, ht, c2, c3, c4, _, c6⟩ := hrec ek.info (hB.posIn r ek hmem)
  obtain ⟨rec1, n, d1, _, d3, d4⟩ := hptr k (r, ek) (by rw [hpos]; exact hk)
  have d1 : m1.heap[ek.info]? = some rec1 := d1
  rw [c2] at d1
  simp only [Option.some.injEq] at d1
  subst d1
  rw [c3] at d3
  simp only [Option.some.injEq] at d3
  subst d3
  have htl : t < m.compressList.length := (List.getElem?_eq_some_iff.mp ht).1
  refine ⟨v, t + 1, (valueOf m.heap ek.info).getD c 0, g1, by rw [hns]; exact d4, by omega,
    by omega, ?_, ?_⟩
  · rw [hv3, f2, hcl, Nat.add_sub_cancel, List.getElem?_map, ht, hheap2]
    show some ((valueOf m1.heap ek.info).getD c 0) = _
    rw [valueOf_of_getElem? c2, c4]
  · have := g2 c hc
    rw [hepsm] at this
    exact this

theorem compression_error_bound_witness :
    ∃ m1 m2 m3 nw ncoefs ncon_max,
      getmatrixsizes_ scenarioStable = .ok (m1, nw, ncoefs, ncon_max) ∧
      getmatrixpointers_ m1 = .ok m2 ∧ getcomponentmatrixvalues_ m2 0 = .ok m3 ∧
      m2.entryNumbers.length = (positions scenarioStable).length ∧
      m3.MatrixValues.length = nw ∧
      ∀ (k : Nat) (p : Nat × entryKey), (positions scenarioStable)[k]? = some p →
        ∃ v e x, setValue callsStable p.1 p.2.column = some v ∧
          m2.entryNumbers[k]? = some e ∧ 1 ≤ e ∧ e ≤ nw ∧
          m3.MatrixValues[e - 1]? = some x ∧
          |v.getD 0 0 - x| ≤ scenarioStable.maximum.getD 0 0 * (1 / 10 ^ 9) :=
  compression_error_bound initialState 3 1 (1 / 10 ^ 9) callsStable scenarioStable 0
    (by norm_num) (by with_unfolding_all rfl) (by with_unfolding_all rfl)
    (by with_unfolding_all decide)

theorem scenarioStable_values :
    getcomponentmatrixvalues_ scenarioStablePointers 0 = .ok scenarioStableValues ∧
      scenarioStablePointers.entryNumbers = [1, 2, 1, 1, 2, 1] ∧
      scenarioStableValues.MatrixValues = [1, 5] ∧
      setValue callsStable 2 3 = some [1 + 1 / 10 ^ 12] ∧
      scenarioStable.maximum.getD 0 0 = 5 := by
  refine ⟨?_, ?_, ?_, ?_, ?_⟩ <;> with_unfolding_all rfl

end SparseMatrix
